import Mathlib

/-!
# decache: extraction of a Mach-O image from a dyld shared cache

A shallow embedding of `src/decache.c` (`_append_to_file`,
`_fixup_macho_object64`, `_dump_file`) and theorems about it.

Modelling conventions.

* Memory images (the mapped cache, the working copy of the Mach-O header,
  the contents of the output file) are lists of bytes, a byte being a `Nat`.
  Multi-byte fields are little-endian, as on every target of the program.
* An access outside the cache, outside the working buffer or through a
  `NULL` pointer is undefined behaviour in C.  It is kept apart from every
  reported error as the outcome `Failure.memoryFault`.
* `off_t` values are naturals, `-1` being `2^64 - 1` (two's complement), so a
  conversion to `uint32_t` is `% 2^32`.
* The calls that can fail for reasons outside the program (`malloc`, `open`,
  `lseek`, `write`) take their outcome from a schedule carried by the state:
  the head of `Sys.sched` says whether the next such call fails; an empty
  schedule means that no further call fails.  A `write` that does not fail
  transfers all its bytes.
* A `write` whose source range leaves the cache does not transfer anything:
  `_append_to_file` then returns a failure, `memoryFault`, with the offset
  of the end of the output in `file_off`.  Its callers abort on it as on any
  other failure of the append, except the `LinkEditDataBlob` branch, which
  only reports a failed append and goes on.
* The text of the `DEBUG` trace and the messages on `stderr` are not
  modelled; the constructor of `Failure` says which `goto done` was taken.
  The loads that the trace statements of lines 102-103 (segment command) and
  212-213 (`DyldInfo` command) make in the working buffer are modelled
  (`segmentTrace`, `fixDyldInfo`).  The other trace statements load fields of
  the record that the same branch reads or writes, and are not modelled apart
  from these accesses.
-/

namespace Decache

/-! ## Memory images -/

/-- Bytes `[off, off + len)` of a memory image, `none` when the range leaves it. -/
def rdBytes (m : List Nat) (off len : Nat) : Option (List Nat) :=
  if off + len ≤ m.length then some ((m.drop off).take len) else none

/-- Value of a little-endian byte string. -/
def leVal : List Nat → Nat
  | [] => 0
  | b :: bs => b % 256 + 256 * leVal bs

/-- The `n` low bytes of `v`, little-endian: the stored form of an `n`-byte
unsigned field that is assigned `v`. -/
def leBytes : Nat → Nat → List Nat
  | 0, _ => []
  | n + 1, v => v % 256 :: leBytes n (v / 256)

/-- Load of a `uint32_t` at byte offset `off`. -/
def rdU32 (m : List Nat) (off : Nat) : Option Nat :=
  (rdBytes m off 4).map leVal

/-- Load of a `uint64_t` at byte offset `off`. -/
def rdU64 (m : List Nat) (off : Nat) : Option Nat :=
  (rdBytes m off 8).map leVal

/-- Store of the bytes `bs` at offset `off` of a memory image of fixed size,
`none` when the range leaves it. -/
def wrBytes (m : List Nat) (off : Nat) (bs : List Nat) : Option (List Nat) :=
  if off + bs.length ≤ m.length then
    some (m.take off ++ bs ++ m.drop (off + bs.length))
  else none

/-- Store of a `uint32_t`. -/
def wrU32 (m : List Nat) (off v : Nat) : Option (List Nat) :=
  wrBytes m off (leBytes 4 v)

/-- Store of a `uint64_t`. -/
def wrU64 (m : List Nat) (off v : Nat) : Option (List Nat) :=
  wrBytes m off (leBytes 8 v)

/-- The bytes a `write` of `len` bytes from address `m + off` transfers:
nothing is read when `len` is 0. -/
def rdBuf (m : List Nat) (off len : Nat) : Option (List Nat) :=
  if len = 0 then some [] else rdBytes m off len

/-- The characters of the null-terminated string that starts a byte list,
without the terminator (what `strlen` walks over); `none` when the list ends
before a null byte. -/
def cstrOf : List Nat → Option (List Nat)
  | [] => none
  | b :: bs => if b = 0 then some [] else (cstrOf bs).map (fun s => b :: s)

/-- The null-terminated string at offset `off` of a memory image. -/
def cstrAt (m : List Nat) (off : Nat) : Option (List Nat) :=
  cstrOf (m.drop off)

/-- Result of `strcmp(name, l) == 0` where `name` holds the characters of the
first string (before its terminator) and `l` is the memory from the start of
the second one: `none` when the comparison leaves the memory before it is
decided. -/
def strcmpOf : List Nat → List Nat → Option Bool
  | [], [] => none
  | [], b :: _ => some (b == 0)
  | _ :: _, [] => none
  | c :: cs, b :: bs => if b = c then strcmpOf cs bs else some false

/-- Result of `strcmp(name, m + off) == 0`. -/
def strcmpEq (name m : List Nat) (off : Nat) : Option Bool :=
  strcmpOf name (m.drop off)

/-! ## Outcomes -/

/-- The ways an extraction ends without success.  Each reported error is one
`goto done` of the program, named by the message printed there. -/
inductive Failure where
  /-- "Unable to find image file". -/
  | notFound
  /-- "This Mach-O file is 32-bits, but we only support 64-bit Mach-O". -/
  | formatError
  /-- "Last file in the image, need to fix extracting for this case". -/
  | lastImageUnsupported
  /-- "Out of memory". -/
  | outOfMemory
  /-- A failed `open`, `lseek` or `write`. -/
  | ioError
  /-- Undefined behaviour: an access outside a memory image or through `NULL`. -/
  | memoryFault
deriving DecidableEq

/-- Equality of two results is decidable when it is on both sides. -/
instance instDecidableEqExcept {ε α : Type} [DecidableEq ε] [DecidableEq α] :
    DecidableEq (Except ε α) := fun a b =>
  match a, b with
  | .error x, .error y =>
    if h : x = y then isTrue (by rw [h]) else isFalse (fun h1 => h (by cases h1; rfl))
  | .ok x, .ok y =>
    if h : x = y then isTrue (by rw [h]) else isFalse (fun h1 => h (by cases h1; rfl))
  | .error _, .ok _ => isFalse (fun h => by cases h)
  | .ok _, .error _ => isFalse (fun h => by cases h)

/-! ## The output file -/

/-- The open output file and the environment: contents, offset of the
descriptor, and the outcome schedule of the coming fallible calls. -/
structure Sys where
  data : List Nat
  pos : Nat
  sched : List Bool
deriving DecidableEq

/-- Whether the next fallible call fails. -/
def Sys.fails (s : Sys) : Bool :=
  match s.sched with
  | [] => false
  | b :: _ => b

/-- The state once the next fallible call has been made. -/
def Sys.tick (s : Sys) : Sys :=
  { s with sched := s.sched.tail }

/-- Contents of a file after `bs` is written at offset `pos`: a write of no
byte changes nothing; otherwise a gap past the end reads as zero bytes. -/
def fileWrite (data : List Nat) (pos : Nat) (bs : List Nat) : List Nat :=
  match bs with
  | [] => data
  | b :: r =>
    data.take pos ++ List.replicate (pos - data.length) 0 ++ (b :: r) ++
      data.drop (pos + (b :: r).length)

/-- Model of `lseek(fd, 0, SEEK_CUR)`: `none` is the result `-1`. -/
def lseekCur (s : Sys) : Option Nat × Sys :=
  if s.fails then (none, s.tick) else (some s.pos, s.tick)

/-- Model of `lseek(fd, 0, SEEK_END)`. -/
def lseekEnd (s : Sys) : Option Nat × Sys :=
  if s.fails then (none, s.tick)
  else (some s.data.length, { s.tick with pos := s.data.length })

/-- Model of `lseek(fd, 0, SEEK_SET)`. -/
def lseekSet (s : Sys) : Option Nat × Sys :=
  if s.fails then (none, s.tick) else (some 0, { s.tick with pos := 0 })

/-- Model of `write(fd, bs, |bs|)`: the flag says whether the call succeeded. -/
def write (s : Sys) (bs : List Nat) : Bool × Sys :=
  if s.fails then (false, s.tick)
  else (true, { s.tick with data := fileWrite s.data s.pos bs, pos := s.pos + bs.length })

/-- What `_append_to_file` leaves: its return value (`none` is `0`), the
value stored through `poffset`, and the file. -/
structure Appended where
  err : Option Failure
  poffset : Nat
  sys : Sys
deriving DecidableEq

/-- Model of `_append_to_file(fd, m + off, len, &poffset)`. -/
def _append_to_file (s : Sys) (m : List Nat) (off len : Nat) : Appended :=
  match lseekEnd s with
  | (none, s1) => ⟨some .ioError, 2 ^ 64 - 1, s1⟩
  | (some at_, s1) =>
    if len = 0 then ⟨none, at_, s1⟩
    else
      match rdBytes m off len with
      | none => ⟨some .memoryFault, at_, s1⟩
      | some bs =>
        match write s1 bs with
        | (false, s2) => ⟨some .ioError, at_, s2⟩
        | (true, s2) => ⟨none, at_, s2⟩

/-! ## Constants and record layouts

`loader.h`, `nlist.h` and `dyld_cache_format.h` are included by the program
but are not among its sources.  The values below are the ones those headers
transcribe from the Mach-O and dyld shared cache formats. -/

/-- Modelled from the spec: `MH_MAGIC_64` of the absent `loader.h`, "the
64-bit magic constant". -/
def MH_MAGIC_64 : Nat := 0xfeedfacf
/-- Modelled from the spec: `LC_SEGMENT_64` of the absent `loader.h`, the
command kind of a `Segment`. -/
def LC_SEGMENT_64 : Nat := 0x19
/-- Modelled from the spec: `LC_SYMTAB` of the absent `loader.h`, the command
kind of a `SymbolTable`. -/
def LC_SYMTAB : Nat := 0x2
/-- Modelled from the spec: `LC_DYSYMTAB` of the absent `loader.h`, the
command kind of a `DynamicSymbolTable`. -/
def LC_DYSYMTAB : Nat := 0xb
/-- Modelled from the spec: `LC_DYLD_INFO` of the absent `loader.h`, the
command-group tag of the `DyldInfo` family. -/
def LC_DYLD_INFO : Nat := 0x22
/-- Modelled from the spec: `LC_FUNCTION_STARTS` of the absent `loader.h`, a
`LinkEditDataBlob` kind. -/
def LC_FUNCTION_STARTS : Nat := 0x26
/-- Modelled from the spec: `LC_DATA_IN_CODE` of the absent `loader.h`, a
`LinkEditDataBlob` kind. -/
def LC_DATA_IN_CODE : Nat := 0x29
/-- Modelled from the spec: `SEG_LINKEDIT` of the absent `loader.h`, the
name `"__LINKEDIT"` of the link-edit segment, as bytes. -/
def SEG_LINKEDIT : List Nat := [95, 95, 76, 73, 78, 75, 69, 68, 73, 84]

/-- Modelled from the spec: `sizeof(struct mach_header_64)`, the "header
size"; `sizeofcmds` is the `uint32_t` at offset 20 of that record. -/
def sizeof_mach_header_64 : Nat := 32
/-- Modelled from the spec: offset of `sizeofcmds` in `struct mach_header_64`. -/
def off_sizeofcmds : Nat := 20
/-- Modelled from the spec: offset of `cmdsize` in `struct load_command`
(`cmd` is at offset 0). -/
def off_cmdsize : Nat := 4
/-- Modelled from the spec: offset of `segname` in `struct segment_command_64`. -/
def off_segname : Nat := 8
/-- Modelled from the spec: offset of `fileoff` in `struct segment_command_64`. -/
def off_fileoff : Nat := 40
/-- Modelled from the spec: offset of `filesize` in `struct segment_command_64`. -/
def off_filesize : Nat := 48
/-- Modelled from the spec: offset of `nsects` in `struct segment_command_64`. -/
def off_nsects : Nat := 64
/-- Modelled from the spec: `sizeof(struct segment_command_64)`; the sections
of a segment follow the record. -/
def sizeof_segment_command_64 : Nat := 72
/-- Modelled from the spec: `sizeof(struct section_64)`. -/
def sizeof_section_64 : Nat := 80
/-- Modelled from the spec: offset of `offset` in `struct section_64`. -/
def off_sect_offset : Nat := 48
/-- Modelled from the spec: offset of `symoff` in `struct symtab_command`. -/
def off_symoff : Nat := 8
/-- Modelled from the spec: offset of `nsyms` in `struct symtab_command`. -/
def off_nsyms : Nat := 12
/-- Modelled from the spec: offset of `stroff` in `struct symtab_command`. -/
def off_stroff : Nat := 16
/-- Modelled from the spec: offset of `strsize` in `struct symtab_command`. -/
def off_strsize : Nat := 20
/-- Modelled from the spec: `sizeof(struct nlist_64)`; `n_un.n_strx` is the
`uint32_t` at offset 0 of the record. -/
def sizeof_nlist_64 : Nat := 16
/-- Modelled from the spec: offset of `indirectsymoff` in `struct dysymtab_command`. -/
def off_indirectsymoff : Nat := 56
/-- Modelled from the spec: offset of `nindirectsyms` in `struct dysymtab_command`. -/
def off_nindirectsyms : Nat := 60
/-- Modelled from the spec: offset of `rebase_off` in `struct dyld_info_command`. -/
def off_rebase_off : Nat := 8
/-- Modelled from the spec: offset of `bind_off` in `struct dyld_info_command`. -/
def off_bind_off : Nat := 16
/-- Modelled from the spec: offset of `weak_bind_off` in `struct dyld_info_command`. -/
def off_weak_bind_off : Nat := 24
/-- Modelled from the spec: offset of `lazy_bind_off` in `struct dyld_info_command`. -/
def off_lazy_bind_off : Nat := 32
/-- Modelled from the spec: offset of `export_off` in `struct dyld_info_command`. -/
def off_export_off : Nat := 40
/-- Modelled from the spec: offset of `dataoff` in `struct linkedit_data_command`. -/
def off_dataoff : Nat := 8
/-- Modelled from the spec: offset of `datasize` in `struct linkedit_data_command`. -/
def off_datasize : Nat := 12
/-- Modelled from the spec: `sizeof(struct dyld_cache_mapping_info)`; the
`address` of a mapping is the `uint64_t` at offset 0 of the record. -/
def sizeof_mapping_info : Nat := 32
/-- Modelled from the spec: `sizeof(struct dyld_cache_image_info)`; the
`address` of an image is the `uint64_t` at offset 0 of the record. -/
def sizeof_image_info : Nat := 32
/-- Modelled from the spec: offset of `pathFileOffset` in
`struct dyld_cache_image_info`. -/
def off_pathFileOffset : Nat := 24

/-! ## The fixup pass: `_fixup_macho_object64` -/

/-- The locals of `_fixup_macho_object64` that live across iterations, with
the working buffer `macho_hdr` and the output file.  `linkedit` is the offset
in the buffer of the remembered segment command, `none` being `NULL`; the
pointer `cmd` is `sizeof_mach_header_64 + next_cmd`. -/
structure FixState where
  buf : List Nat
  sys : Sys
  next_cmd : Nat
  linkedit : Option Nat
  file_base : Nat
deriving DecidableEq

/-- An extraction that stops: the reason and the output file as it is left. -/
structure Abort where
  why : Failure
  sys : Sys
deriving DecidableEq

/-- The value `sections[i].offset - cache_off + file_base`, computed in 64
bits and stored in a `uint32_t`. -/
def relocSect (old cache_off file_base : Nat) : Nat :=
  ((old + 2 ^ 64 - cache_off) % 2 ^ 64 + file_base) % 2 ^ 64 % 2 ^ 32

/-- The loop over the sections of a segment (lines 117-123): `secs` is the
offset of `sections` in the buffer, `n` the number of sections still to do and
`i` the index of the next one.  `none` is an access outside the buffer. -/
def fixSections (cache_off file_base secs : Nat) : Nat → Nat → List Nat → Option (List Nat)
  | 0, _, buf => some buf
  | n + 1, i, buf =>
    match rdU32 buf (secs + sizeof_section_64 * i + off_sect_offset) with
    | none => none
    | some old =>
      match wrU32 buf (secs + sizeof_section_64 * i + off_sect_offset)
          (relocSect old cache_off file_base) with
      | none => none
      | some buf1 => fixSections cache_off file_base secs n (i + 1) buf1

/-- The test `!strncmp(seg->segname, SEG_LINKEDIT, 10)`: the name of the
segment command at `cmd` starts with the ten characters of `SEG_LINKEDIT`. -/
def isLinkedit (buf : List Nat) (cmd : Nat) : Option Bool :=
  (rdBytes buf (cmd + off_segname) 10).map (fun n => n == SEG_LINKEDIT)

/-- The loads of the trace at lines 102-103, made for every segment command
before any test: `seg->fileoff`, `seg->filesize`, `seg->nsects` and the
characters of `seg->segname` up to a null byte (the `%s` conversion).  The
value says whether all of them stay inside the buffer. -/
def segmentTrace (buf : List Nat) (cmd : Nat) : Bool :=
  (rdU64 buf (cmd + off_fileoff)).isSome && (rdU64 buf (cmd + off_filesize)).isSome &&
  (rdU32 buf (cmd + off_nsects)).isSome && (cstrAt buf (cmd + off_segname)).isSome

/-- The `LC_SEGMENT_64` branch (lines 95-137) for the command at offset `cmd`
of the buffer, up to but excluding the advance of `next_cmd`: the trace of
lines 102-103, then the link-edit case or the copy of the body. -/
def fixSegment (cache : List Nat) (st : FixState) (cmd : Nat) : Except Abort FixState :=
  if segmentTrace st.buf cmd then
    match rdU64 st.buf (cmd + off_fileoff), isLinkedit st.buf cmd with
    | some cache_off, some le =>
      if le then
        match wrU64 st.buf (cmd + off_fileoff) st.file_base with
        | none => .error ⟨.memoryFault, st.sys⟩
        | some b1 =>
          match wrU64 b1 (cmd + off_filesize) 0 with
          | none => .error ⟨.memoryFault, st.sys⟩
          | some b2 => .ok { st with buf := b2, linkedit := some cmd }
      else
        match rdU32 st.buf (cmd + off_nsects) with
        | none => .error ⟨.memoryFault, st.sys⟩
        | some nsects =>
          match fixSections cache_off st.file_base (cmd + sizeof_segment_command_64)
              nsects 0 st.buf with
          | none => .error ⟨.memoryFault, st.sys⟩
          | some b1 =>
            match lseekCur st.sys with
            | (none, s1) => .error ⟨.ioError, s1⟩
            | (some file_off, s1) =>
              match rdU64 b1 (cmd + off_filesize) with
              | none => .error ⟨.memoryFault, s1⟩
              | some filesize =>
                match rdBuf cache cache_off filesize with
                | none => .error ⟨.memoryFault, s1⟩
                | some body =>
                  match write s1 body with
                  | (false, s2) => .error ⟨.ioError, s2⟩
                  | (true, s2) =>
                    match wrU64 b1 (cmd + off_fileoff) file_off with
                    | none => .error ⟨.memoryFault, s2⟩
                    | some b2 =>
                      .ok { st with buf := b2, sys := s2, file_base := file_off + filesize }
    | _, _ => .error ⟨.memoryFault, st.sys⟩
  else .error ⟨.memoryFault, st.sys⟩

/-- The loop that rebuilds the string table (lines 165-177).  `symoff` and
`stroff` are the offsets the command had in the cache, `stroffNew` the value
already stored in `symtab->stroff`; `n` symbols are still to do and `i` is the
index of the next one.  The result is `new_syms`, `strtab_len` and the file. -/
def fixSymNames (cache : List Nat) (symoff stroff stroffNew : Nat) :
    Nat → Nat → List Nat → Nat → Sys → Except Abort (List Nat × Nat × Sys)
  | 0, _, new_syms, strtab_len, s => .ok (new_syms, strtab_len, s)
  | n + 1, i, new_syms, strtab_len, s =>
    match rdU32 cache (symoff + sizeof_nlist_64 * i) with
    | none => .error ⟨.memoryFault, s⟩
    | some strx =>
      match cstrAt cache (stroff + strx) with
      | none => .error ⟨.memoryFault, s⟩
      | some str =>
        match _append_to_file s cache (stroff + strx) (str.length + 1) with
        | ⟨some e, _, s1⟩ => .error ⟨e, s1⟩
        | ⟨none, file_off, s1⟩ =>
          match wrU32 new_syms (sizeof_nlist_64 * i) ((file_off + 2 ^ 32 - stroffNew) % 2 ^ 32) with
          | none => .error ⟨.memoryFault, s1⟩
          | some ns1 =>
            fixSymNames cache symoff stroff stroffNew n (i + 1) ns1 (strtab_len + (str.length + 1)) s1

/-- The `LC_SYMTAB` branch (lines 138-189) for the command at offset `cmd`. -/
def fixSymtab (cache : List Nat) (st : FixState) (cmd : Nat) : Except Abort FixState :=
  match rdU32 st.buf (cmd + off_symoff), rdU32 st.buf (cmd + off_nsyms),
      rdU32 st.buf (cmd + off_stroff) with
  | some symoff, some nsyms, some stroff =>
    if st.sys.fails then .error ⟨.outOfMemory, st.sys.tick⟩
    else
      match rdBytes cache symoff (nsyms * sizeof_nlist_64) with
      | none => .error ⟨.memoryFault, st.sys.tick⟩
      | some new_syms =>
        match lseekCur st.sys.tick with
        | (none, s1) => .error ⟨.ioError, s1⟩
        | (some file_off, s1) =>
          match wrU32 st.buf (cmd + off_stroff) file_off with
          | none => .error ⟨.memoryFault, s1⟩
          | some b1 =>
            match fixSymNames cache symoff stroff (file_off % 2 ^ 32) nsyms 0 new_syms 0 s1 with
            | .error e => .error e
            | .ok (ns, strtab_len, s2) =>
              match wrU32 b1 (cmd + off_strsize) strtab_len with
              | none => .error ⟨.memoryFault, s2⟩
              | some b2 =>
                match _append_to_file s2 ns 0 (nsyms * sizeof_nlist_64) with
                | ⟨some e, _, s3⟩ => .error ⟨e, s3⟩
                | ⟨none, file_off2, s3⟩ =>
                  match wrU32 b2 (cmd + off_symoff) file_off2 with
                  | none => .error ⟨.memoryFault, s3⟩
                  | some b3 => .ok { st with buf := b3, sys := s3 }
  | _, _, _ => .error ⟨.memoryFault, st.sys⟩

/-- The `LC_DYSYMTAB` branch (lines 190-208) for the command at offset `cmd`. -/
def fixDysymtab (cache : List Nat) (st : FixState) (cmd : Nat) : Except Abort FixState :=
  match rdU32 st.buf (cmd + off_indirectsymoff) with
  | none => .error ⟨.memoryFault, st.sys⟩
  | some indirectsymoff =>
    if indirectsymoff = 0 then .ok st
    else
      match rdU32 st.buf (cmd + off_nindirectsyms) with
      | none => .error ⟨.memoryFault, st.sys⟩
      | some nindirectsyms =>
        match _append_to_file st.sys cache indirectsymoff (nindirectsyms * 4) with
        | ⟨some e, _, s1⟩ => .error ⟨e, s1⟩
        | ⟨none, file_off, s1⟩ =>
          match wrU32 st.buf (cmd + off_indirectsymoff) file_off with
          | none => .error ⟨.memoryFault, s1⟩
          | some b1 => .ok { st with buf := b1, sys := s1 }

/-- The `LC_FUNCTION_STARTS` / `LC_DATA_IN_CODE` branch (lines 214-224): the
result of `_append_to_file` is only reported (lines 220-222), whatever made it
fail, and the pass goes on; `dataoff` is assigned the value left in `file_off`
in every case. -/
def fixLinkeditData (cache : List Nat) (st : FixState) (cmd : Nat) : Except Abort FixState :=
  match rdU32 st.buf (cmd + off_dataoff), rdU32 st.buf (cmd + off_datasize) with
  | some dataoff, some datasize =>
    match wrU32 st.buf (cmd + off_dataoff)
        (_append_to_file st.sys cache dataoff datasize).poffset with
    | none => .error ⟨.memoryFault, (_append_to_file st.sys cache dataoff datasize).sys⟩
    | some b1 =>
      .ok { st with buf := b1, sys := (_append_to_file st.sys cache dataoff datasize).sys }
  | _, _ => .error ⟨.memoryFault, st.sys⟩

/-- The `LC_DYLD_INFO` branch (lines 209-213): the trace loads `rebase_off`,
`bind_off`, `weak_bind_off`, `lazy_bind_off` and `export_off` of the command;
nothing is stored and no call is made. -/
def fixDyldInfo (st : FixState) (cmd : Nat) : Except Abort FixState :=
  match rdU32 st.buf (cmd + off_rebase_off), rdU32 st.buf (cmd + off_bind_off),
      rdU32 st.buf (cmd + off_weak_bind_off), rdU32 st.buf (cmd + off_lazy_bind_off),
      rdU32 st.buf (cmd + off_export_off) with
  | some _, some _, some _, some _, some _ => .ok st
  | _, _, _, _, _ => .error ⟨.memoryFault, st.sys⟩

/-- The chain of tests on `cmd->cmd` (lines 95, 138, 190, 209, 214): the body
of one iteration of the walk, without the advance. -/
def fixCommand (cache : List Nat) (st : FixState) (cmd kind : Nat) : Except Abort FixState :=
  if kind = LC_SEGMENT_64 then fixSegment cache st cmd
  else if kind = LC_SYMTAB then fixSymtab cache st cmd
  else if kind = LC_DYSYMTAB then fixDysymtab cache st cmd
  else if kind % 256 = LC_DYLD_INFO then fixDyldInfo st cmd
  else if kind = LC_FUNCTION_STARTS ∨ kind = LC_DATA_IN_CODE then fixLinkeditData cache st cmd
  else .ok st

/-- One iteration of the `while` loop of `_fixup_macho_object64`: the command
at `next_cmd` is processed and `next_cmd` advances by its `cmdsize`
(lines 112 and 226). -/
def fixupStep (cache : List Nat) (st : FixState) : Except Abort FixState :=
  match rdU32 st.buf (sizeof_mach_header_64 + st.next_cmd) with
  | none => .error ⟨.memoryFault, st.sys⟩
  | some kind =>
    match fixCommand cache st (sizeof_mach_header_64 + st.next_cmd) kind with
    | .error e => .error e
    | .ok st1 =>
      match rdU32 st1.buf (sizeof_mach_header_64 + st.next_cmd + off_cmdsize) with
      | none => .error ⟨.memoryFault, st1.sys⟩
      | some cmdsize => .ok { st1 with next_cmd := st.next_cmd + cmdsize }

/-- The `while (next_cmd < hdr->sizeofcmds)` loop, run for at most `fuel`
iterations; `none` when the fuel does not suffice. -/
def fixupLoop (cache : List Nat) : Nat → FixState → Option (Except Abort FixState)
  | 0, st =>
    match rdU32 st.buf off_sizeofcmds with
    | none => some (.error ⟨.memoryFault, st.sys⟩)
    | some sizeofcmds => if st.next_cmd < sizeofcmds then none else some (.ok st)
  | fuel + 1, st =>
    match rdU32 st.buf off_sizeofcmds with
    | none => some (.error ⟨.memoryFault, st.sys⟩)
    | some sizeofcmds =>
      if st.next_cmd < sizeofcmds then
        match fixupStep cache st with
        | .error e => some (.error e)
        | .ok st1 => fixupLoop cache fuel st1
      else some (.ok st)

/-- The end of `_fixup_macho_object64` (lines 230-247): the size of the
link-edit segment is resolved and the buffer is written at offset 0. -/
def fixupFinalize (st : FixState) : Except Abort FixState :=
  match lseekEnd st.sys with
  | (none, s1) => .error ⟨.ioError, s1⟩
  | (some linkedit_end, s1) =>
    match st.linkedit with
    | none => .error ⟨.memoryFault, s1⟩
    | some le =>
      match rdU64 st.buf (le + off_fileoff) with
      | none => .error ⟨.memoryFault, s1⟩
      | some fileoff =>
        match wrU64 st.buf (le + off_filesize) ((linkedit_end + 2 ^ 64 - fileoff) % 2 ^ 64) with
        | none => .error ⟨.memoryFault, s1⟩
        | some b1 =>
          match lseekSet s1 with
          | (none, s2) => .error ⟨.ioError, s2⟩
          | (some _, s2) =>
            match write s2 b1 with
            | (false, s3) => .error ⟨.ioError, s3⟩
            | (true, s3) => .ok { st with buf := b1, sys := s3 }

/-- The state in which `_fixup_macho_object64` enters its loop. -/
def fixupInit (macho_hdr : List Nat) (s : Sys) : FixState :=
  { buf := macho_hdr, sys := s, next_cmd := 0, linkedit := none, file_base := 0 }

/-- Model of `_fixup_macho_object64(fd, cache, cache_len, macho_hdr,
macho_hdr_len, base_addr)`; `none` when `fuel` iterations do not end the walk. -/
def _fixup_macho_object64 (fuel : Nat) (cache macho_hdr : List Nat) (s : Sys) :
    Option (Except Abort FixState) :=
  match fixupLoop cache fuel (fixupInit macho_hdr s) with
  | none => none
  | some (.error e) => some (.error e)
  | some (.ok st) => some (fixupFinalize st)

/-! ## Locating and extracting an image: `_dump_file` -/

/-- The fields of `struct dyld_cache_header` that `_dump_file` uses. -/
structure dyld_cache_header where
  mappingOffset : Nat
  mappingCount : Nat
  imagesOffset : Nat
  imagesCount : Nat
deriving DecidableEq

/-- The scan of the image directory (lines 274-284).  `isTarget i` is the
result of the `strcmp` on entry `i`; `n` entries are still to visit, `i` is the
next index and the last argument is `image_info` (an index, `none` being
`NULL`).  The result is `image_info` and `next_image_info`. -/
def scanImages (isTarget : Nat → Option Bool) :
    Nat → Nat → Option Nat → Option (Option Nat × Option Nat)
  | 0, _, image_info => some (image_info, none)
  | _ + 1, i, some k => some (some k, some i)
  | n + 1, i, none =>
    match isTarget i with
    | none => none
    | some true => scanImages isTarget n (i + 1) (some i)
    | some false => scanImages isTarget n (i + 1) none

/-- The scan of the mapping table (lines 292-297).  `addr i` is
`mapping[i].address`; `n` entries are still to visit, `i` is the next index
and the last argument is `image_mapping`.  The outer `none` is an access
outside the cache. -/
def selectMapping (addr : Nat → Option Nat) (target : Nat) :
    Nat → Nat → Option Nat → Option (Option Nat)
  | 0, _, image_mapping => some image_mapping
  | n + 1, i, _ =>
    match addr i with
    | none => none
    | some a => if a < target then some (some i) else selectMapping addr target n (i + 1) (some i)

/-- The `strcmp` of the target name with the path of directory entry `i`
(line 280). -/
def isTargetImage (hdr : dyld_cache_header) (cache image_name : List Nat) (i : Nat) :
    Option Bool :=
  match rdU32 cache (hdr.imagesOffset + sizeof_image_info * i + off_pathFileOffset) with
  | none => none
  | some pathFileOffset => strcmpEq image_name cache pathFileOffset

/-- The field `info[i].address`. -/
def imageAddress (hdr : dyld_cache_header) (cache : List Nat) (i : Nat) : Option Nat :=
  rdU64 cache (hdr.imagesOffset + sizeof_image_info * i)

/-- The field `mapping[i].address`. -/
def mappingAddress (hdr : dyld_cache_header) (cache : List Nat) (i : Nat) : Option Nat :=
  rdU64 cache (hdr.mappingOffset + sizeof_mapping_info * i)

/-- What lines 274-305 of `_dump_file` establish: the indices of `image_info`,
`next_image_info` and `image_mapping`, the address of the image and
`file_offset`. -/
structure Located where
  image_info : Nat
  next_image_info : Option Nat
  image_mapping : Nat
  address : Nat
  file_offset : Nat
deriving DecidableEq

/-- Lines 274-305 of `_dump_file`: the directory scan, the choice of the
mapping and `file_offset = image_info->address - image_mapping->address`. -/
def locateHeader (hdr : dyld_cache_header) (cache image_name : List Nat) :
    Except Failure Located :=
  match scanImages (isTargetImage hdr cache image_name) hdr.imagesCount 0 none with
  | none => .error .memoryFault
  | some (none, _) => .error .notFound
  | some (some k, next) =>
    match imageAddress hdr cache k with
    | none => .error .memoryFault
    | some address =>
      match selectMapping (mappingAddress hdr cache) address hdr.mappingCount 0 none with
      | none => .error .memoryFault
      | some none => .error .memoryFault
      | some (some m) =>
        match mappingAddress hdr cache m with
        | none => .error .memoryFault
        | some maddr =>
          .ok { image_info := k, next_image_info := next, image_mapping := m,
                address := address, file_offset := (address + 2 ^ 64 - maddr) % 2 ^ 64 }

/-- What a call of `_dump_file` leaves: its return value and the output path
on disk (`none`: no such file). -/
structure Dumped where
  ret : Except Failure Unit
  disk : Option (List Nat)
deriving DecidableEq

/-- Model of `_dump_file(hdr, cache, cache_len, image_name,
image_out_file_name)`.  `disk` is what the output path holds before the call
and `sched` the outcome schedule of the fallible calls; `none` when `fuel`
iterations do not end the walk over the load commands. -/
def _dump_file (fuel : Nat) (hdr : dyld_cache_header) (cache image_name : List Nat)
    (disk : Option (List Nat)) (sched : List Bool) : Option Dumped :=
  match locateHeader hdr cache image_name with
  | .error e => some ⟨.error e, disk⟩
  | .ok loc =>
    match rdU32 cache loc.file_offset with
    | none => some ⟨.error .memoryFault, disk⟩
    | some magic =>
      if magic ≠ MH_MAGIC_64 then some ⟨.error .formatError, disk⟩
      else
        match loc.next_image_info with
        | none => some ⟨.error .lastImageUnsupported, disk⟩
        | some _ =>
          match rdU32 cache (loc.file_offset + off_sizeofcmds) with
          | none => some ⟨.error .memoryFault, disk⟩
          | some sizeofcmds =>
            if (Sys.mk [] 0 sched).fails then some ⟨.error .outOfMemory, disk⟩
            else
              match rdBytes cache loc.file_offset (sizeof_mach_header_64 + sizeofcmds) with
              | none => some ⟨.error .memoryFault, disk⟩
              | some macho_obj =>
                if (Sys.mk [] 0 sched.tail).fails then some ⟨.error .ioError, disk⟩
                else
                  match _fixup_macho_object64 fuel cache macho_obj
                      ⟨disk.getD [], 0, sched.tail.tail⟩ with
                  | none => none
                  | some (.error e) => some ⟨.error e.why, some e.sys.data⟩
                  | some (.ok st) =>
                    match write st.sys st.buf with
                    | (false, s1) => some ⟨.error .ioError, some s1.data⟩
                    | (true, s1) => some ⟨.ok (), some s1.data⟩

/-- The path of directory entry `i`: the null-terminated string at
`info[i].pathFileOffset`. -/
def imagePath (hdr : dyld_cache_header) (cache : List Nat) (i : Nat) : Option (List Nat) :=
  match rdU32 cache (hdr.imagesOffset + sizeof_image_info * i + off_pathFileOffset) with
  | none => none
  | some pathFileOffset => cstrAt cache pathFileOffset

/-! ## Notions of the specification about symbol tables -/

/-- The name of symbol `i` of a symbol table whose array is at `symoff` and
whose string table is at `stroff`: the null-terminated string at
`stroff + sym[i].n_un.n_strx`. -/
def symbolName (m : List Nat) (symoff stroff i : Nat) : Option (List Nat) :=
  match rdU32 m (symoff + sizeof_nlist_64 * i) with
  | none => none
  | some strx => cstrAt m (stroff + strx)

/-- The string table that holds the given names in order, each followed by
its terminating null byte: `s_0 ++ [0] ++ s_1 ++ [0] ++ ...`. -/
def stringTable : List (List Nat) → List Nat
  | [] => []
  | s :: rest => s ++ [0] ++ stringTable rest

/-- The sum over `j < i` of `length (s_j) + 1`. -/
def nameOffset (names : List (List Nat)) (i : Nat) : Nat :=
  ((names.take i).map (fun s => s.length + 1)).sum

/-! ## Notions used to state the layout of the output and the failure policy -/

/-- Going from output state `s` to `s'` moved the position forward from
`s.pos` to `s'.pos` and changed the contents of the output at most at the
offsets in between. -/
def Window (s s' : Sys) : Prop :=
  s.pos ≤ s'.pos ∧ ∀ j, (j < s.pos ∨ s'.pos ≤ j) → s'.data[j]? = s.data[j]?

/-- Schedule `b` is what is left of schedule `a` after `k` calls none of which
failed. -/
def callsOk (a b : List Bool) (k : Nat) : Prop :=
  b = a.drop k ∧ ∀ x ∈ a.take k, x = false

/-- Schedule `b` is what is left of schedule `a` after `k` calls that
succeeded and one more call that failed. -/
def failedAfter (a b : List Bool) (k : Nat) : Prop :=
  b = a.drop (k + 1) ∧ (∀ x ∈ a.take k, x = false) ∧ a[k]? = some true

/-- Modelled from the spec: offset of `ncmds` in `struct mach_header_64`, the
"command count". -/
def off_ncmds : Nat := 16

/-- The records that the first `fuel` iterations of the `while` loop visit,
in order: for each, the value of `next_cmd` at the visit and the `cmdsize`
that the record declares then (`none` when the field lies outside the
buffer).  The recursion is the one of `fixupLoop`. -/
def walkTrace (cache : List Nat) : Nat → FixState → List (Nat × Option Nat)
  | 0, _ => []
  | fuel + 1, st =>
    match rdU32 st.buf off_sizeofcmds with
    | none => []
    | some sizeofcmds =>
      if st.next_cmd < sizeofcmds then
        (st.next_cmd, rdU32 st.buf (sizeof_mach_header_64 + st.next_cmd + off_cmdsize)) ::
          (match fixupStep cache st with
           | .error _ => []
           | .ok st1 => walkTrace cache fuel st1)
      else []

/-- The buffer with the field `ncmds` of its header replaced by `v` (the
buffer itself when it is too short to hold the field). -/
def setNcmds (v : Nat) (buf : List Nat) : List Nat :=
  (wrU32 buf off_ncmds v).getD buf

/-- The state with the field `ncmds` of the header in its buffer replaced by
`v`. -/
def FixState.withNcmds (v : Nat) (st : FixState) : FixState :=
  { st with buf := setNcmds v st.buf }

/-- The sum of the sizes declared by the records of a trace. -/
def declaredSizes (t : List (Nat × Option Nat)) : Nat :=
  (t.map (fun p => p.2.getD 0)).sum

/-- The abort policy, for a piece of the pass that starts with the schedule
`a` and leaves the output state `sysOf x` when it returns `x`: a result is
returned only when no call failed; an abort that is not a memory fault is an
`ioError` or an `outOfMemory` and happens at the first call that fails; a
memory fault happens without any failed call. -/
def abortsOnFailure {α : Type} (sysOf : α → Sys) (a : List Bool) : Except Abort α → Prop
  | .ok x => ∃ k, callsOk a (sysOf x).sched k
  | .error e =>
    (e.why = .memoryFault ∧ ∃ k, callsOk a e.sys.sched k) ∨
    ((e.why = .ioError ∨ e.why = .outOfMemory) ∧ ∃ k, failedAfter a e.sys.sched k)

/-- The state in which the `while` loop tests its condition after `k`
complete iterations from `st`; `none` when the loop has ended or the pass has
stopped before.  The recursion is the one of `fixupLoop`. -/
def walkState (cache : List Nat) : Nat → FixState → Option FixState
  | 0, st => some st
  | k + 1, st =>
    match rdU32 st.buf off_sizeofcmds with
    | none => none
    | some sizeofcmds =>
      if st.next_cmd < sizeofcmds then
        match fixupStep cache st with
        | .error _ => none
        | .ok st1 => walkState cache k st1
      else none

/-- Whether the record at offset `cmd` of the buffer is a segment command
other than the link-edit one: the commands whose body lines 125-134 write to
the output. -/
def isBodySegment (buf : List Nat) (cmd : Nat) : Bool :=
  rdU32 buf cmd == some LC_SEGMENT_64 && isLinkedit buf cmd == some false

/-- The segment bodies written by the first `k` iterations of the loop from
`st`, in order: for each, the output offset at which it is written (the
position of the output when the iteration starts, line 126) and its length
(`seg->filesize`).  The recursion is the one of `fixupLoop`. -/
def segmentBodies (cache : List Nat) : Nat → FixState → List (Nat × Nat)
  | 0, _ => []
  | k + 1, st =>
    match rdU32 st.buf off_sizeofcmds with
    | none => []
    | some sizeofcmds =>
      if st.next_cmd < sizeofcmds then
        match fixupStep cache st with
        | .error _ => []
        | .ok st1 =>
          (if isBodySegment st.buf (sizeof_mach_header_64 + st.next_cmd) then
            [(st.sys.pos,
              (rdU64 st.buf (sizeof_mach_header_64 + st.next_cmd + off_filesize)).getD 0)]
           else []) ++ segmentBodies cache k st1
      else []

/-- The output offset just after the last of the given bodies, `base` when
there is none. -/
def bodiesEnd (base : Nat) (bodies : List (Nat × Nat)) : Nat :=
  match bodies.getLast? with
  | none => base
  | some p => p.1 + p.2

/-! ## Concrete inputs -/

/-- The bytes of an ASCII string. -/
def ascii (s : String) : List Nat := s.toList.map Char.toNat

/-- A `dyld_cache_mapping_info` record. -/
def mappingRecord (address size fileOffset : Nat) : List Nat :=
  leBytes 8 address ++ leBytes 8 size ++ leBytes 8 fileOffset ++ leBytes 8 0

/-- A `dyld_cache_image_info` record. -/
def imageRecord (address pathFileOffset : Nat) : List Nat :=
  leBytes 8 address ++ leBytes 16 0 ++ leBytes 4 pathFileOffset ++ leBytes 4 0

/-- The tables of the scenario of the specification: three mappings at
offset 0, three directory entries at offset 96, the paths from offset 192. -/
def scenarioCache : List Nat :=
  mappingRecord 0x1000 0x2000 0 ++ mappingRecord 0x4000 0x1000 0x2000 ++
  mappingRecord 0x6000 0x1000 0x3000 ++
  imageRecord 0x1050 192 ++ imageRecord 0x4020 209 ++ imageRecord 0x6010 226 ++
  ascii "/usr/lib/a.dylib" ++ [0] ++ ascii "/usr/lib/b.dylib" ++ [0] ++
  ascii "/usr/lib/c.dylib" ++ [0]

/-- The cache header of the scenario. -/
def scenarioHdr : dyld_cache_header :=
  { mappingOffset := 0, mappingCount := 3, imagesOffset := 96, imagesCount := 3 }

/-- A cache with one mapping at address `0x1000` and two images `a` and `b`;
`b`, the last one, is at file offset 100, where the four bytes `magic` stand. -/
def twoImageCache (magic : Nat) : List Nat :=
  mappingRecord 0x1000 0x1000 0 ++
  imageRecord 0x1200 96 ++ imageRecord (0x1000 + 100) 98 ++
  ascii "a" ++ [0] ++ ascii "b" ++ [0] ++ leBytes 4 magic

/-- The cache header of `twoImageCache`. -/
def twoImageHdr : dyld_cache_header :=
  { mappingOffset := 0, mappingCount := 1, imagesOffset := 32, imagesCount := 2 }

/-- A cache whose three mappings are stored by descending address, with two
images `a` (at address `0x4020`) and `b`. -/
def descendingCache : List Nat :=
  mappingRecord 0x6000 0x1000 0x3000 ++ mappingRecord 0x4000 0x1000 0x2000 ++
  mappingRecord 0x1000 0x2000 0 ++
  imageRecord 0x4020 160 ++ imageRecord 0x6010 162 ++
  ascii "a" ++ [0] ++ ascii "b" ++ [0]

/-- The cache header of `descendingCache`. -/
def descendingHdr : dyld_cache_header :=
  { mappingOffset := 0, mappingCount := 3, imagesOffset := 96, imagesCount := 2 }

/-- A `mach_header_64` with the 64-bit magic, `ncmds` and `sizeofcmds`. -/
def machHeader (ncmds sizeofcmds : Nat) : List Nat :=
  leBytes 4 MH_MAGIC_64 ++ leBytes 12 0 ++ leBytes 4 ncmds ++ leBytes 4 sizeofcmds ++
  leBytes 8 0

/-- A `segment_command_64` of name `name` with `nsects` sections (which must
follow it). -/
def segmentCommand (name : List Nat) (fileoff filesize nsects : Nat) : List Nat :=
  leBytes 4 LC_SEGMENT_64 ++ leBytes 4 (72 + 80 * nsects) ++
  (name ++ List.replicate 16 0).take 16 ++ leBytes 16 0 ++
  leBytes 8 fileoff ++ leBytes 8 filesize ++ leBytes 8 0 ++ leBytes 4 nsects ++ leBytes 4 0

/-- A `section_64` whose file offset is `offset`. -/
def sectionRecord (offset : Nat) : List Nat :=
  leBytes 48 0 ++ leBytes 4 offset ++ leBytes 28 0

/-- A `symtab_command`. -/
def symtabCommand (symoff nsyms stroff strsize : Nat) : List Nat :=
  leBytes 4 LC_SYMTAB ++ leBytes 4 24 ++ leBytes 4 symoff ++ leBytes 4 nsyms ++
  leBytes 4 stroff ++ leBytes 4 strsize

/-- A `nlist_64` whose name is at index `n_strx` of the string table. -/
def nlistRecord (n_strx : Nat) : List Nat :=
  leBytes 4 n_strx ++ leBytes 12 0

/-- A working buffer with one segment command `__DATA` without sections, whose
body is the two bytes at offsets 1 and 2 of the cache. -/
def oneSegmentBuf : List Nat :=
  machHeader 1 72 ++ segmentCommand (ascii "__DATA") 1 2 0

/-- A four-byte cache for `oneSegmentBuf`. -/
def oneSegmentCache : List Nat := [0xAA, 0xBB, 0xCC, 0xDD]

/-- The header block of an image whose symbol table command stands between
its segments: `__TEXT` (the header block itself, 352 bytes at offset 0 of the
cache), the symbol table (one symbol, array at 356, strings at 372), `__DATA`
(4 bytes at 352) with one section that starts one byte into the segment, and
`__LINKEDIT` (the 21 bytes from 356). -/
def interleavedBuf : List Nat :=
  machHeader 4 320 ++ segmentCommand (ascii "__TEXT") 0 352 0 ++
  symtabCommand 356 1 372 5 ++
  segmentCommand (ascii "__DATA") 352 4 1 ++ sectionRecord 353 ++
  segmentCommand (ascii "__LINKEDIT") 356 21 0

/-- The cache that holds the image of `interleavedBuf` at offset 0: the
header block, the bytes of `__DATA`, one symbol record and the string table
`"_foo\0"`. -/
def interleavedCache : List Nat :=
  interleavedBuf ++ [1, 2, 3, 4] ++ nlistRecord 0 ++ ascii "_foo" ++ [0]

/-- The header block of `interleavedBuf` as the pass leaves it. -/
def interleavedPatched : List Nat :=
  machHeader 4 320 ++ segmentCommand (ascii "__TEXT") 0 352 0 ++
  symtabCommand 357 1 352 5 ++
  segmentCommand (ascii "__DATA") 373 4 1 ++ sectionRecord 353 ++
  segmentCommand (ascii "__LINKEDIT") 377 0 0

/-- A cache with two symbols named `_foo` and `_bar`: the symbol array at
offset 0, the string table `"\0_foo\0_bar\0"` at offset 32. -/
def fooBarCache : List Nat :=
  nlistRecord 1 ++ nlistRecord 6 ++ [0] ++ ascii "_foo" ++ [0] ++ ascii "_bar" ++ [0]

/-- A working buffer whose only command is the symbol table of `fooBarCache`. -/
def fooBarBuf : List Nat :=
  machHeader 1 24 ++ symtabCommand 0 2 32 11

/-- A cache with one symbol named `_foo`: the symbol array at offset 0, the
string table `"_foo\0"` at offset 16. -/
def oneSymCache : List Nat := nlistRecord 0 ++ ascii "_foo" ++ [0]

/-- A working buffer whose only command is the symbol table of `oneSymCache`. -/
def oneSymBuf : List Nat := machHeader 1 24 ++ symtabCommand 0 1 16 5

/-- The image of `tinyCache` as it stands in the cache: the header, a segment
`__TEXT` that covers the header and 24 further bytes, and an empty segment
`__LINKEDIT`. -/
def tinyImage : List Nat :=
  machHeader 2 144 ++ segmentCommand (ascii "__TEXT") 128 200 0 ++
  segmentCommand (ascii "__LINKEDIT") 328 0 0 ++ List.replicate 24 0x90

/-- A cache of 328 bytes: one mapping at address `0x1000`, the images `t` (at
address `0x1080`, file offset 128) and `u`, and `tinyImage` at offset 128. -/
def tinyCache : List Nat :=
  mappingRecord 0x1000 0x1000 0 ++
  imageRecord 0x1080 96 ++ imageRecord 0x2000 98 ++
  ascii "t" ++ [0] ++ ascii "u" ++ [0] ++ List.replicate 28 0 ++ tinyImage

/-- The cache header of `tinyCache`. -/
def tinyHdr : dyld_cache_header :=
  { mappingOffset := 0, mappingCount := 1, imagesOffset := 32, imagesCount := 2 }

/-- The header block of `tinyImage` once the pass has patched it: `__TEXT`
at output offset 0, `__LINKEDIT` at output offset 200 with size 0. -/
def tinyPatched : List Nat :=
  machHeader 2 144 ++ segmentCommand (ascii "__TEXT") 0 200 0 ++
  segmentCommand (ascii "__LINKEDIT") 200 0 0

/-- A load command of kind `kind` and size `cmdsize` whose payload is zero. -/
def genericCommand (kind cmdsize : Nat) : List Nat :=
  leBytes 4 kind ++ leBytes 4 cmdsize ++ List.replicate (cmdsize - 8) 0

/-- A `linkedit_data_command` of kind `kind`. -/
def linkeditDataCommand (kind dataoff datasize : Nat) : List Nat :=
  leBytes 4 kind ++ leBytes 4 16 ++ leBytes 4 dataoff ++ leBytes 4 datasize

/-- A `dysymtab_command` whose fields other than the indirect symbol table are
zero. -/
def dysymtabCommand (indirectsymoff nindirectsyms : Nat) : List Nat :=
  leBytes 4 LC_DYSYMTAB ++ leBytes 4 80 ++ leBytes 48 0 ++ leBytes 4 indirectsymoff ++
  leBytes 4 nindirectsyms ++ leBytes 16 0

/-- A working buffer whose only command is of the `DyldInfo` family
(`LC_DYLD_INFO_ONLY`, `0x80000022`). -/
def dyldInfoBuf : List Nat :=
  machHeader 1 48 ++ genericCommand 0x80000022 48

/-- A working buffer whose symbol table command (the one of `fooBarCache`)
precedes the link-edit segment command. -/
def symThenLinkeditBuf : List Nat :=
  machHeader 2 96 ++ symtabCommand 0 2 32 11 ++ segmentCommand (ascii "__LINKEDIT") 0 43 0

/-- A cache with three mappings at `0x1000`, `0x4000`, `0x6000`, all of size
`size` and file offset `fileOffset`, and two images: `a` at the address
`0x1000` where the first mapping starts, and `b`. -/
def boundaryCache (size fileOffset : Nat) : List Nat :=
  mappingRecord 0x1000 size fileOffset ++ mappingRecord 0x4000 size fileOffset ++
  mappingRecord 0x6000 size fileOffset ++
  imageRecord 0x1000 160 ++ imageRecord 0x4020 162 ++
  ascii "a" ++ [0] ++ ascii "b" ++ [0]

/-- The cache header of `boundaryCache`. -/
def boundaryHdr : dyld_cache_header :=
  { mappingOffset := 0, mappingCount := 3, imagesOffset := 96, imagesCount := 2 }

/-- An eight-byte cache for `indirectBuf` and `blobBuf`. -/
def indirectCache : List Nat := [1, 2, 3, 4, 5, 6, 7, 8]

/-- A working buffer whose only command is a dynamic symbol table command with
one indirect symbol, at offset 4 of the cache. -/
def indirectBuf : List Nat := machHeader 1 80 ++ dysymtabCommand 4 1

/-- A working buffer whose only command is a function-starts command with four
bytes of data at offset 4 of the cache. -/
def blobBuf : List Nat := machHeader 1 16 ++ linkeditDataCommand LC_FUNCTION_STARTS 4 4

/-- A working buffer whose only record, of a kind the pass does not relocate
(`LC_UUID`, `0x1b`), declares `cmdsize = 0`. -/
def zeroSizeBuf : List Nat :=
  machHeader 1 8 ++ genericCommand 0x1b 0

/-- A working buffer with a function-starts command (four bytes of data at
offset 4 of the cache) followed by the link-edit segment command. -/
def blobThenLinkeditBuf : List Nat :=
  machHeader 2 88 ++ linkeditDataCommand LC_FUNCTION_STARTS 4 4 ++
  segmentCommand (ascii "__LINKEDIT") 0 8 0

/-- A working buffer of 40 bytes whose only record, of kind
`LC_DYLD_INFO_ONLY` (`0x80000022`), declares 8 bytes: the record ends with the
buffer, before the fields of a `dyld_info_command`. -/
def shortDyldInfoBuf : List Nat :=
  machHeader 1 8 ++ genericCommand 0x80000022 8

/-- The state in which the pass on image `t` of `tinyCache`, started on an
empty output, reaches the link-edit command: the 200 bytes of `__TEXT` are
written and `file_base` is 200. -/
def tinyAtLinkedit : FixState :=
  { buf := machHeader 2 144 ++ segmentCommand (ascii "__TEXT") 0 200 0 ++
      segmentCommand (ascii "__LINKEDIT") 328 0 0,
    sys := ⟨tinyImage, 200, []⟩, next_cmd := 72, linkedit := none, file_base := 200 }

/-! ## Theorems -/

/-! ### Little-endian fields -/

theorem leVal_lt (bs : List Nat) : leVal bs < 256 ^ bs.length := by
  induction bs with
  | nil => simp [leVal]
  | cons b bs ih =>
    simp only [leVal, List.length_cons, pow_succ]
    have hb : b % 256 < 256 := Nat.mod_lt _ (by norm_num)
    omega

theorem rdBytes_length {m : List Nat} {off len : Nat} {bs : List Nat}
    (h : rdBytes m off len = some bs) : bs.length = len := by
  unfold rdBytes at h
  split at h
  · injection h with h
    subst h
    simp
    omega
  · cases h

theorem rdU64_lt {m : List Nat} {off v : Nat} (h : rdU64 m off = some v) : v < 2 ^ 64 := by
  unfold rdU64 at h
  cases hb : rdBytes m off 8 with
  | none => rw [hb] at h; cases h
  | some bs =>
    rw [hb] at h
    simp only [Option.map_some'] at h
    injection h with h
    subst h
    have := leVal_lt bs
    rw [rdBytes_length hb] at this
    exact this

theorem rdU32_lt {m : List Nat} {off v : Nat} (h : rdU32 m off = some v) : v < 2 ^ 32 := by
  unfold rdU32 at h
  cases hb : rdBytes m off 4 with
  | none => rw [hb] at h; cases h
  | some bs =>
    rw [hb] at h
    simp only [Option.map_some'] at h
    injection h with h
    subst h
    have := leVal_lt bs
    rw [rdBytes_length hb] at this
    exact this

/-! ### Loads and stores -/

theorem rdBytes_eq_some {m : List Nat} {off len : Nat} {bs : List Nat}
    (h : rdBytes m off len = some bs) :
    off + len ≤ m.length ∧ bs = (m.drop off).take len := by
  unfold rdBytes at h
  split at h
  · injection h with h
    exact ⟨by assumption, h.symm⟩
  · cases h

theorem rdBuf_length {m : List Nat} {off len : Nat} {bs : List Nat}
    (h : rdBuf m off len = some bs) : bs.length = len := by
  unfold rdBuf at h
  split at h
  · injection h with h
    subst h
    simp_all
  · exact rdBytes_length h

theorem rdBuf_of_ne {m : List Nat} {off len : Nat} {bs : List Nat}
    (h : rdBuf m off len = some bs) (hne : len ≠ 0) : rdBytes m off len = some bs := by
  unfold rdBuf at h
  rw [if_neg hne] at h
  exact h

theorem rdBytes_of_le {m : List Nat} {off len : Nat} (h : off + len ≤ m.length) :
    rdBytes m off len = some ((m.drop off).take len) := by
  simp [rdBytes, h]

theorem getElem?_rdBytes {m : List Nat} {off len : Nat} {bs : List Nat}
    (h : rdBytes m off len = some bs) (j : Nat) :
    bs[j]? = if j < len then m[off + j]? else none := by
  obtain ⟨_, rfl⟩ := rdBytes_eq_some h
  rw [List.getElem?_take, List.getElem?_drop]

theorem rdBytes_congr {m m' : List Nat} {off len : Nat} (hlen : m'.length = m.length)
    (h : ∀ j, off ≤ j → j < off + len → m'[j]? = m[j]?) :
    rdBytes m' off len = rdBytes m off len := by
  unfold rdBytes
  rw [hlen]
  split
  · congr 1
    apply List.ext_getElem?
    intro j
    rw [List.getElem?_take, List.getElem?_take, List.getElem?_drop, List.getElem?_drop]
    split
    · exact h (off + j) (by omega) (by omega)
    · rfl
  · rfl

theorem wrBytes_eq_some {m : List Nat} {off : Nat} {bs m' : List Nat}
    (h : wrBytes m off bs = some m') :
    off + bs.length ≤ m.length ∧ m' = m.take off ++ bs ++ m.drop (off + bs.length) := by
  unfold wrBytes at h
  split at h
  · injection h with h
    exact ⟨by assumption, h.symm⟩
  · cases h

theorem wrBytes_length {m : List Nat} {off : Nat} {bs m' : List Nat}
    (h : wrBytes m off bs = some m') : m'.length = m.length := by
  obtain ⟨hle, rfl⟩ := wrBytes_eq_some h
  simp
  omega

theorem getElem?_wrBytes {m : List Nat} {off : Nat} {bs m' : List Nat}
    (h : wrBytes m off bs = some m') (i : Nat) :
    m'[i]? = if off ≤ i ∧ i < off + bs.length then bs[i - off]? else m[i]? := by
  obtain ⟨hle, rfl⟩ := wrBytes_eq_some h
  have hl : (m.take off).length = off := by simp; omega
  by_cases h1 : i < off
  · have : ¬ (off ≤ i ∧ i < off + bs.length) := by omega
    rw [if_neg this, List.append_assoc, List.getElem?_append_left (by omega),
      List.getElem?_take_of_lt h1]
  · by_cases h2 : i < off + bs.length
    · have : off ≤ i ∧ i < off + bs.length := by omega
      rw [if_pos this, List.append_assoc, List.getElem?_append_right (by omega), hl,
        List.getElem?_append_left (by omega)]
    · have : ¬ (off ≤ i ∧ i < off + bs.length) := by omega
      rw [if_neg this, List.getElem?_append_right (by simp; omega), List.getElem?_drop]
      congr 1
      simp
      omega

theorem rdBytes_wrBytes_same {m : List Nat} {off : Nat} {bs m' : List Nat}
    (h : wrBytes m off bs = some m') : rdBytes m' off bs.length = some bs := by
  have hle := (wrBytes_eq_some h).1
  rw [rdBytes_of_le (by rw [wrBytes_length h]; exact hle)]
  congr 1
  apply List.ext_getElem?
  intro j
  rw [List.getElem?_take, List.getElem?_drop, getElem?_wrBytes h]
  by_cases hj : j < bs.length
  · have : off ≤ off + j ∧ off + j < off + bs.length := by omega
    rw [if_pos hj, if_pos this]
    congr 1
    omega
  · rw [if_neg hj]
    exact (List.getElem?_eq_none (by omega)).symm

theorem rdBytes_wrBytes_other {m : List Nat} {off : Nat} {bs m' : List Nat}
    (h : wrBytes m off bs = some m') (o l : Nat)
    (hd : o + l ≤ off ∨ off + bs.length ≤ o) : rdBytes m' o l = rdBytes m o l := by
  apply rdBytes_congr (wrBytes_length h)
  intro j hj1 hj2
  rw [getElem?_wrBytes h]
  have : ¬ (off ≤ j ∧ j < off + bs.length) := by omega
  rw [if_neg this]

theorem length_leBytes (n v : Nat) : (leBytes n v).length = n := by
  induction n generalizing v with
  | zero => rfl
  | succ n ih => simp [leBytes, ih]

theorem leVal_leBytes (n v : Nat) : leVal (leBytes n v) = v % 256 ^ n := by
  induction n generalizing v with
  | zero => simp [leBytes, leVal, Nat.mod_one]
  | succ n ih =>
    simp only [leBytes, leVal, ih, Nat.mod_mod]
    rw [pow_succ, Nat.mul_comm (256 ^ n) 256, Nat.mod_mul]

theorem rdU32_wrU32_same {m : List Nat} {off v : Nat} {m' : List Nat}
    (h : wrU32 m off v = some m') : rdU32 m' off = some (v % 2 ^ 32) := by
  unfold wrU32 at h
  have h1 := rdBytes_wrBytes_same h
  rw [length_leBytes] at h1
  simp only [rdU32, h1, Option.map_some', leVal_leBytes]
  norm_num

theorem rdU64_wrU64_same {m : List Nat} {off v : Nat} {m' : List Nat}
    (h : wrU64 m off v = some m') : rdU64 m' off = some (v % 2 ^ 64) := by
  unfold wrU64 at h
  have h1 := rdBytes_wrBytes_same h
  rw [length_leBytes] at h1
  simp only [rdU64, h1, Option.map_some', leVal_leBytes]
  norm_num

theorem rdBytes_wrU32_other {m : List Nat} {off v : Nat} {m' : List Nat}
    (h : wrU32 m off v = some m') (o l : Nat) (hd : o + l ≤ off ∨ off + 4 ≤ o) :
    rdBytes m' o l = rdBytes m o l := by
  unfold wrU32 at h
  exact rdBytes_wrBytes_other h o l (by rw [length_leBytes]; exact hd)

theorem rdBytes_wrU64_other {m : List Nat} {off v : Nat} {m' : List Nat}
    (h : wrU64 m off v = some m') (o l : Nat) (hd : o + l ≤ off ∨ off + 8 ≤ o) :
    rdBytes m' o l = rdBytes m o l := by
  unfold wrU64 at h
  exact rdBytes_wrBytes_other h o l (by rw [length_leBytes]; exact hd)

theorem wrU32_length {m : List Nat} {off v : Nat} {m' : List Nat}
    (h : wrU32 m off v = some m') : m'.length = m.length :=
  wrBytes_length h

theorem wrU64_length {m : List Nat} {off v : Nat} {m' : List Nat}
    (h : wrU64 m off v = some m') : m'.length = m.length :=
  wrBytes_length h

/-! ### Writes to the output file -/

theorem fileWrite_at_end (data bs : List Nat) :
    fileWrite data data.length bs = data ++ bs := by
  cases bs <;> simp [fileWrite]

theorem length_fileWrite (data : List Nat) (pos : Nat) (bs : List Nat)
    (h : pos ≤ data.length) :
    (fileWrite data pos bs).length = max data.length (pos + bs.length) := by
  cases bs with
  | nil => simp [fileWrite]; omega
  | cons b r => simp [fileWrite]; omega

theorem fileWrite_cons (data : List Nat) (pos b : Nat) (r : List Nat) :
    fileWrite data pos (b :: r) =
      data.take pos ++ List.replicate (pos - data.length) 0 ++ (b :: r) ++
        data.drop (pos + (b :: r).length) := rfl

theorem getElem?_fileWrite_body (data : List Nat) (pos : Nat) (bs : List Nat) (j : Nat)
    (hj : j < bs.length) : (fileWrite data pos bs)[pos + j]? = bs[j]? := by
  cases bs with
  | nil => simp at hj
  | cons b r =>
    rw [fileWrite_cons]
    have hl : (data.take pos ++ List.replicate (pos - data.length) 0).length = pos := by
      simp
      omega
    rw [List.append_assoc, List.append_assoc, ← List.append_assoc (data.take pos),
      List.getElem?_append_right (by omega), hl, List.getElem?_append_left (by omega)]
    congr 1
    omega

theorem getElem?_fileWrite_before (data : List Nat) (pos : Nat) (bs : List Nat) (j : Nat)
    (hj : j < pos) (hjl : j < data.length) : (fileWrite data pos bs)[j]? = data[j]? := by
  cases bs with
  | nil => rfl
  | cons b r =>
    rw [fileWrite_cons]
    rw [List.append_assoc, List.append_assoc, List.getElem?_append_left (by simp; omega),
      List.getElem?_take_of_lt hj]

theorem rdBytes_fileWrite (data : List Nat) (pos : Nat) (bs : List Nat)
    (h : pos ≤ data.length) :
    rdBytes (fileWrite data pos bs) pos bs.length = some bs := by
  rw [rdBytes_of_le (by rw [length_fileWrite _ _ _ h]; omega)]
  congr 1
  apply List.ext_getElem?
  intro j
  rw [List.getElem?_take, List.getElem?_drop]
  by_cases hj : j < bs.length
  · rw [if_pos hj, getElem?_fileWrite_body data pos bs j hj]
  · rw [if_neg hj]
    exact (List.getElem?_eq_none (by omega)).symm

/-! ### The directory scan and the choice of the mapping -/

theorem scanImages_some (f : Nat → Option Bool) (n i k : Nat) :
    scanImages f n i (some k) = some (some k, if n = 0 then none else some i) := by
  cases n <;> simp [scanImages]

theorem scanImages_found (f : Nat → Option Bool) (k : Nat) (hk : f k = some true) :
    ∀ n i, i ≤ k → k < i + n → (∀ j, i ≤ j → j < k → f j = some false) →
      scanImages f n i none = some (some k, if k + 1 < i + n then some (k + 1) else none) := by
  intro n
  induction n with
  | zero => intro i h1 h2; omega
  | succ n ih =>
    intro i h1 h2 hfirst
    by_cases hik : i = k
    · subst hik
      simp only [scanImages, hk, scanImages_some]
      by_cases hn : n = 0
      · subst hn; simp
      · have : i + 1 < i + (n + 1) := by omega
        simp [hn, this]
    · have hlt : i < k := by omega
      simp only [scanImages, hfirst i (le_refl _) hlt]
      rw [ih (i + 1) (by omega) (by omega) (fun j hj1 hj2 => hfirst j (by omega) hj2)]
      have : i + 1 + n = i + (n + 1) := by omega
      rw [this]

theorem scanImages_none (f : Nat → Option Bool) :
    ∀ n i, (∀ j, i ≤ j → j < i + n → f j = some false) →
      scanImages f n i none = some (none, none) := by
  intro n
  induction n with
  | zero => intro i _; simp [scanImages]
  | succ n ih =>
    intro i h
    simp only [scanImages, h i (le_refl _) (by omega)]
    exact ih (i + 1) (fun j hj1 hj2 => h j (by omega) (by omega))

theorem scanImages_congr (f g : Nat → Option Bool) :
    ∀ n i c, (∀ j, j < i + n → f j = g j) → scanImages f n i c = scanImages g n i c := by
  intro n
  induction n with
  | zero => intro i c _; simp [scanImages]
  | succ n ih =>
    intro i c h
    cases c with
    | some k => simp [scanImages]
    | none =>
      simp only [scanImages, h i (by omega)]
      cases g i with
      | none => rfl
      | some b =>
        cases b
        · exact ih (i + 1) none (fun j hj => h j (by omega))
        · exact ih (i + 1) (some i) (fun j hj => h j (by omega))

theorem selectMapping_first (addr : Nat → Option Nat) (target m va : Nat)
    (hva : addr m = some va) (hlt : va < target) :
    ∀ n i cur, i ≤ m → m < i + n →
      (∀ j, i ≤ j → j < m → ∃ a, addr j = some a ∧ ¬ a < target) →
      selectMapping addr target n i cur = some (some m) := by
  intro n
  induction n with
  | zero => intro i cur h1 h2; omega
  | succ n ih =>
    intro i cur h1 h2 hfirst
    by_cases him : i = m
    · subst him
      simp [selectMapping, hva, hlt]
    · obtain ⟨a, ha, hna⟩ := hfirst i (le_refl _) (by omega)
      simp only [selectMapping, ha, hna, if_false]
      exact ih (i + 1) (some i) (by omega) (by omega)
        (fun j hj1 hj2 => hfirst j (by omega) hj2)

/-! ### Comparison of paths -/

theorem strcmpOf_of_cstrOf : ∀ (name l p : List Nat), (∀ c ∈ name, c ≠ 0) →
    cstrOf l = some p → strcmpOf name l = some (decide (p = name)) := by
  intro name
  induction name with
  | nil =>
    intro l p _ h
    cases l with
    | nil => simp [cstrOf] at h
    | cons b bs =>
      simp only [cstrOf] at h
      by_cases hb : b = 0
      · simp only [hb, if_true] at h
        injection h with h
        subst h
        simp [strcmpOf, hb]
      · simp only [hb, if_false] at h
        cases hq : cstrOf bs with
        | none => rw [hq] at h; cases h
        | some q =>
          rw [hq] at h
          simp only [Option.map_some'] at h
          injection h with h
          subst h
          simp [strcmpOf, hb]
  | cons c cs ih =>
    intro l p hnz h
    have hc : c ≠ 0 := hnz c (List.mem_cons_self _ _)
    cases l with
    | nil => simp [cstrOf] at h
    | cons b bs =>
      simp only [cstrOf] at h
      by_cases hb : b = 0
      · simp only [hb, if_true] at h
        injection h with h
        subst h
        have : ¬ (0 = c) := fun e => hc e.symm
        simp [strcmpOf, hb, this]
      · simp only [hb, if_false] at h
        cases hq : cstrOf bs with
        | none => rw [hq] at h; cases h
        | some q =>
          rw [hq] at h
          simp only [Option.map_some'] at h
          injection h with h
          subst h
          by_cases hbc : b = c
          · subst hbc
            simp only [strcmpOf, if_true]
            rw [ih bs q (fun x hx => hnz x (List.mem_cons_of_mem _ hx)) hq]
            simp
          · simp [strcmpOf, hbc]

theorem isTargetImage_of_path (hdr : dyld_cache_header) (cache name p : List Nat) (i : Nat)
    (hname : ∀ c ∈ name, c ≠ 0) (hp : imagePath hdr cache i = some p) :
    isTargetImage hdr cache name i = some (decide (p = name)) := by
  unfold imagePath at hp
  unfold isTargetImage
  cases hr : rdU32 cache (hdr.imagesOffset + sizeof_image_info * i + off_pathFileOffset) with
  | none => rw [hr] at hp; cases hp
  | some po =>
    rw [hr] at hp
    exact strcmpOf_of_cstrOf name _ p hname hp

/-! ### Claims about the locator -/

/-- C6 (the code departs from the claim): on the scenario of the
specification the locator takes the first mapping, whose address `0x1000` is
below the address `0x4020` of `/usr/lib/b.dylib`, not the mapping that
contains the image, and it does not add the file offset of the mapping: the
resolved offset is `0x3020`, not `0x2020`. -/
theorem scenario_locates_b_at_0x3020 :
    locateHeader scenarioHdr scenarioCache (ascii "/usr/lib/b.dylib") =
      .ok { image_info := 1, next_image_info := some 2, image_mapping := 0,
            address := 0x4020, file_offset := 0x3020 } ∧
    (0x3020 : Nat) ≠ 0x4020 - 0x4000 + 0x2000 := by
  set_option maxRecDepth 100000 in
  decide

/-- C7: when `m` is the first entry of the mapping table, in table order,
whose address is strictly below the address of the target image, the locator
selects entry `m`, whatever its size and file offset are, and resolves
`file_offset = address of the image - address of the mapping`. -/
theorem locateHeader_first_lower_mapping (hdr : dyld_cache_header)
    (cache image_name : List Nat) (k : Nat) (next : Option Nat) (target m va : Nat)
    (hscan : scanImages (isTargetImage hdr cache image_name) hdr.imagesCount 0 none
      = some (some k, next))
    (haddr : imageAddress hdr cache k = some target)
    (hm : m < hdr.mappingCount)
    (hva : mappingAddress hdr cache m = some va)
    (hlt : va < target)
    (hfirst : ∀ j, j < m → ∃ a, mappingAddress hdr cache j = some a ∧ ¬ a < target) :
    locateHeader hdr cache image_name =
      .ok { image_info := k, next_image_info := next, image_mapping := m,
            address := target, file_offset := target - va } := by
  have hsel := selectMapping_first (mappingAddress hdr cache) target m va hva hlt
    hdr.mappingCount 0 none (Nat.zero_le _) (by omega) (fun j _ hj => hfirst j hj)
  have ht : target < 2 ^ 64 := rdU64_lt haddr
  have hoff : (target + 2 ^ 64 - va) % 2 ^ 64 = target - va := by
    have : target + 2 ^ 64 - va = (target - va) + 2 ^ 64 := by omega
    rw [this, Nat.add_mod_right]
    exact Nat.mod_eq_of_lt (by omega)
  simp only [locateHeader, hscan, haddr, hsel, hva, hoff]

/-- Witness of C7: of the mappings at `0x6000`, `0x4000`, `0x1000` the image at
`0x4020` gets the second, at offset `0x20`. -/
theorem locateHeader_first_lower_mapping_witness :
    locateHeader descendingHdr descendingCache (ascii "a") =
      .ok { image_info := 0, next_image_info := some 1, image_mapping := 1,
            address := 0x4020, file_offset := 0x20 } :=
  locateHeader_first_lower_mapping descendingHdr descendingCache (ascii "a") 0 (some 1)
    0x4020 1 0x4000
    (by set_option maxRecDepth 100000 in decide)
    (by set_option maxRecDepth 100000 in decide)
    (by decide)
    (by set_option maxRecDepth 100000 in decide)
    (by decide)
    (fun j hj => by
      have hj0 : j = 0 := by omega
      subst hj0
      exact ⟨0x6000, by set_option maxRecDepth 100000 in decide, by decide⟩)

/-- Counterexample to C8 as stated: `b` is the final directory entry and the
only one of that path, the four bytes at its resolved offset are the 32-bit
magic `0xfeedface`, and the extraction fails with `formatError`, not with
`lastImageUnsupported`. -/
theorem last_image_wrong_magic_is_formatError :
    imagePath twoImageHdr (twoImageCache 0xfeedface) 1 = some (ascii "b") ∧
    imagePath twoImageHdr (twoImageCache 0xfeedface) 0 = some (ascii "a") ∧
    1 + 1 = twoImageHdr.imagesCount ∧
    _dump_file 0 twoImageHdr (twoImageCache 0xfeedface) (ascii "b") none [] =
      some ⟨.error .formatError, none⟩ ∧
    _dump_file 0 twoImageHdr (twoImageCache 0xfeedface) (ascii "b") none [] ≠
      some ⟨.error .lastImageUnsupported, none⟩ := by
  set_option maxRecDepth 100000 in
  decide

theorem locateHeader_ok_scan {hdr : dyld_cache_header} {cache image_name : List Nat}
    {loc : Located} {k : Nat} {next : Option Nat}
    (hloc : locateHeader hdr cache image_name = .ok loc)
    (hscan : scanImages (isTargetImage hdr cache image_name) hdr.imagesCount 0 none
      = some (some k, next)) :
    loc.image_info = k ∧ loc.next_image_info = next := by
  simp only [locateHeader, hscan] at hloc
  split at hloc
  · cases hloc
  · split at hloc
    · cases hloc
    · cases hloc
    · split at hloc
      · cases hloc
      · injection hloc with h
        subst h
        exact ⟨rfl, rfl⟩

theorem scan_first_match (hdr : dyld_cache_header) (cache image_name : List Nat) (k : Nat)
    (hname : ∀ c ∈ image_name, c ≠ 0)
    (hlt : k < hdr.imagesCount)
    (hk : imagePath hdr cache k = some image_name)
    (hfirst : ∀ j, j < k → ∃ p, imagePath hdr cache j = some p ∧ p ≠ image_name) :
    scanImages (isTargetImage hdr cache image_name) hdr.imagesCount 0 none =
      some (some k, if k + 1 < hdr.imagesCount then some (k + 1) else none) := by
  have hk1 : isTargetImage hdr cache image_name k = some true := by
    rw [isTargetImage_of_path hdr cache image_name image_name k hname hk]
    simp
  have hf1 : ∀ j, 0 ≤ j → j < k → isTargetImage hdr cache image_name j = some false := by
    intro j _ hj
    obtain ⟨p, hp, hne⟩ := hfirst j hj
    rw [isTargetImage_of_path hdr cache image_name p j hname hp]
    simp [hne]
  have h := scanImages_found (isTargetImage hdr cache image_name) k hk1 hdr.imagesCount 0
    (Nat.zero_le _) (by omega) hf1
  rw [Nat.zero_add] at h
  exact h

/-- C8 (amended): when the first directory entry whose path equals the target
path is the final entry of the directory and the four bytes at the resolved
header offset are the 64-bit object magic, the extraction fails with
`lastImageUnsupported` and leaves the output path as it was; the directory
scan does not depend on any entry at an index `≥ imagesCount`. -/
theorem last_image_rejected (hdr : dyld_cache_header) (cache image_name : List Nat)
    (k : Nat) (loc : Located)
    (hname : ∀ c ∈ image_name, c ≠ 0)
    (hk : imagePath hdr cache k = some image_name)
    (hfirst : ∀ j, j < k → ∃ p, imagePath hdr cache j = some p ∧ p ≠ image_name)
    (hlast : k + 1 = hdr.imagesCount)
    (hloc : locateHeader hdr cache image_name = .ok loc)
    (hmagic : rdU32 cache loc.file_offset = some MH_MAGIC_64) :
    loc.image_info = k ∧
    (∀ fuel disk sched, _dump_file fuel hdr cache image_name disk sched =
      some ⟨.error .lastImageUnsupported, disk⟩) ∧
    (∀ f g : Nat → Option Bool, (∀ i, i < hdr.imagesCount → f i = g i) →
      scanImages f hdr.imagesCount 0 none = scanImages g hdr.imagesCount 0 none) := by
  have hscan := scan_first_match hdr cache image_name k hname (by omega) hk hfirst
  have hnot : ¬ (k + 1 < hdr.imagesCount) := by omega
  rw [if_neg hnot] at hscan
  obtain ⟨h1, h2⟩ := locateHeader_ok_scan hloc hscan
  refine ⟨h1, ?_, ?_⟩
  · intro fuel disk sched
    simp [_dump_file, hloc, hmagic, h2]
  · intro f g hfg
    exact scanImages_congr f g hdr.imagesCount 0 none
      (fun j hj => hfg j (by omega))

/-- Witness of C8 (amended): `b`, the final entry of `twoImageCache`, with the
64-bit magic at its header offset. -/
theorem last_image_rejected_witness :
    _dump_file 0 twoImageHdr (twoImageCache MH_MAGIC_64) (ascii "b") none [] =
      some ⟨.error .lastImageUnsupported, none⟩ :=
  (last_image_rejected twoImageHdr (twoImageCache MH_MAGIC_64) (ascii "b") 1
    { image_info := 1, next_image_info := none, image_mapping := 0,
      address := 0x1000 + 100, file_offset := 100 }
    (by decide)
    (by set_option maxRecDepth 100000 in decide)
    (fun j hj => by
      have hj0 : j = 0 := by omega
      subst hj0
      exact ⟨ascii "a", by set_option maxRecDepth 100000 in decide, by decide⟩)
    (by decide)
    (by set_option maxRecDepth 100000 in decide)
    (by set_option maxRecDepth 100000 in decide)).2.1 0 none []

/-- C9: when every directory entry has a path different from the target
path, the extraction fails with `notFound` and the output path is left as it
was (not created, not written); when some entry has the target path, the
first such entry in directory order is the one the scan returns and the one
the locator uses. -/
theorem unknown_path_notFound (hdr : dyld_cache_header) (cache image_name : List Nat)
    (hname : ∀ c ∈ image_name, c ≠ 0) :
    ((∀ i, i < hdr.imagesCount → ∃ p, imagePath hdr cache i = some p ∧ p ≠ image_name) →
      ∀ fuel disk sched, _dump_file fuel hdr cache image_name disk sched =
        some ⟨.error .notFound, disk⟩) ∧
    (∀ k, k < hdr.imagesCount → imagePath hdr cache k = some image_name →
      (∀ j, j < k → ∃ p, imagePath hdr cache j = some p ∧ p ≠ image_name) →
      scanImages (isTargetImage hdr cache image_name) hdr.imagesCount 0 none =
        some (some k, if k + 1 < hdr.imagesCount then some (k + 1) else none) ∧
      ∀ loc, locateHeader hdr cache image_name = .ok loc → loc.image_info = k) := by
  constructor
  · intro hno fuel disk sched
    have hf : ∀ j, 0 ≤ j → j < 0 + hdr.imagesCount →
        isTargetImage hdr cache image_name j = some false := by
      intro j _ hj
      obtain ⟨p, hp, hne⟩ := hno j (by omega)
      rw [isTargetImage_of_path hdr cache image_name p j hname hp]
      simp [hne]
    have hscan := scanImages_none (isTargetImage hdr cache image_name) hdr.imagesCount 0 hf
    simp [_dump_file, locateHeader, hscan]
  · intro k hlt hk hfirst
    have hscan := scan_first_match hdr cache image_name k hname hlt hk hfirst
    exact ⟨hscan, fun loc hloc => (locateHeader_ok_scan hloc hscan).1⟩

/-- Witness of C9: `/usr/lib/d.dylib` is not in the directory of the scenario,
and of the entries of the scenario the one named `/usr/lib/b.dylib` is
entry 1. -/
theorem unknown_path_notFound_witness :
    _dump_file 0 scenarioHdr scenarioCache (ascii "/usr/lib/d.dylib") none [] =
      some ⟨.error .notFound, none⟩ ∧
    scanImages (isTargetImage scenarioHdr scenarioCache (ascii "/usr/lib/b.dylib"))
      scenarioHdr.imagesCount 0 none = some (some 1, some 2) :=
  ⟨(unknown_path_notFound scenarioHdr scenarioCache (ascii "/usr/lib/d.dylib")
      (by decide)).1
      (fun i hi => by
        have hi3 : i < 3 := hi
        interval_cases i
        · exact ⟨ascii "/usr/lib/a.dylib", by set_option maxRecDepth 100000 in decide, by decide⟩
        · exact ⟨ascii "/usr/lib/b.dylib", by set_option maxRecDepth 100000 in decide, by decide⟩
        · exact ⟨ascii "/usr/lib/c.dylib", by set_option maxRecDepth 100000 in decide, by decide⟩)
      0 none [],
    ((unknown_path_notFound scenarioHdr scenarioCache (ascii "/usr/lib/b.dylib")
      (by decide)).2 1 (by decide)
      (by set_option maxRecDepth 100000 in decide)
      (fun j hj => by
        have hj0 : j = 0 := by omega
        subst hj0
        exact ⟨ascii "/usr/lib/a.dylib", by set_option maxRecDepth 100000 in decide,
          by decide⟩)).1⟩

/-- C10: when the four bytes at the resolved header offset of the matched
image are not the 64-bit object magic, the extraction fails with
`formatError` and the output path is left as it was (not created, not
written). -/
theorem wrong_magic_formatError (hdr : dyld_cache_header) (cache image_name : List Nat)
    (loc : Located) (magic : Nat)
    (hloc : locateHeader hdr cache image_name = .ok loc)
    (hmagic : rdU32 cache loc.file_offset = some magic)
    (hne : magic ≠ MH_MAGIC_64)
    (fuel : Nat) (disk : Option (List Nat)) (sched : List Bool) :
    _dump_file fuel hdr cache image_name disk sched = some ⟨.error .formatError, disk⟩ := by
  simp [_dump_file, hloc, hmagic, hne]

/-- Witness of C10: image `a` of `descendingCache` starts with the bytes of a
mapping record, not with the 64-bit magic. -/
theorem wrong_magic_formatError_witness :
    _dump_file 0 descendingHdr descendingCache (ascii "a") (some [1, 2, 3]) [] =
      some ⟨.error .formatError, some [1, 2, 3]⟩ :=
  wrong_magic_formatError descendingHdr descendingCache (ascii "a")
    { image_info := 0, next_image_info := some 1, image_mapping := 1,
      address := 0x4020, file_offset := 0x20 } 0x4000
    (by set_option maxRecDepth 100000 in decide)
    (by set_option maxRecDepth 100000 in decide)
    (by decide) 0 (some [1, 2, 3]) []

/-! ### The system calls -/

theorem lseekCur_cases (s : Sys) :
    lseekCur s = (none, s.tick) ∨ lseekCur s = (some s.pos, s.tick) := by
  unfold lseekCur
  cases s.fails <;> simp

theorem lseekEnd_cases (s : Sys) :
    lseekEnd s = (none, s.tick) ∨
    lseekEnd s = (some s.data.length, { s.tick with pos := s.data.length }) := by
  unfold lseekEnd
  cases s.fails <;> simp

theorem lseekSet_cases (s : Sys) :
    lseekSet s = (none, s.tick) ∨ lseekSet s = (some 0, { s.tick with pos := 0 }) := by
  unfold lseekSet
  cases s.fails <;> simp

theorem write_cases (s : Sys) (bs : List Nat) :
    write s bs = (false, s.tick) ∨
    write s bs = (true, { s.tick with data := fileWrite s.data s.pos bs,
                                      pos := s.pos + bs.length }) := by
  unfold write
  cases s.fails <;> simp

/-! ### The segment branch -/

theorem relocSect_lt (old cache_off file_base : Nat) :
    relocSect old cache_off file_base < 2 ^ 32 :=
  Nat.mod_lt _ (by norm_num)

theorem rdU32_congr {m m' : List Nat} {off : Nat} (h : rdBytes m' off 4 = rdBytes m off 4) :
    rdU32 m' off = rdU32 m off := by
  simp only [rdU32, h]

theorem rdU64_congr {m m' : List Nat} {off : Nat} (h : rdBytes m' off 8 = rdBytes m off 8) :
    rdU64 m' off = rdU64 m off := by
  simp only [rdU64, h]

theorem fixSections_spec (cache_off file_base secs : Nat) :
    ∀ (n i : Nat) (buf buf' : List Nat),
      fixSections cache_off file_base secs n i buf = some buf' →
      buf'.length = buf.length ∧
      (∀ o l, (o + l ≤ secs + sizeof_section_64 * i ∨
          secs + sizeof_section_64 * (i + n) ≤ o) → rdBytes buf' o l = rdBytes buf o l) ∧
      (∀ t, i ≤ t → t < i + n → ∃ old,
        rdU32 buf (secs + sizeof_section_64 * t + off_sect_offset) = some old ∧
        rdU32 buf' (secs + sizeof_section_64 * t + off_sect_offset)
          = some (relocSect old cache_off file_base)) := by
  intro n
  induction n with
  | zero =>
    intro i buf buf' h
    simp only [fixSections] at h
    injection h with h
    subst h
    exact ⟨rfl, fun _ _ _ => rfl, fun t h1 h2 => by omega⟩
  | succ n ih =>
    intro i buf buf' h
    simp only [fixSections] at h
    cases hold : rdU32 buf (secs + sizeof_section_64 * i + off_sect_offset) with
    | none => rw [hold] at h; cases h
    | some old =>
      rw [hold] at h
      simp only at h
      cases hw : wrU32 buf (secs + sizeof_section_64 * i + off_sect_offset)
          (relocSect old cache_off file_base) with
      | none => rw [hw] at h; cases h
      | some buf1 =>
        rw [hw] at h
        simp only at h
        obtain ⟨hl, hout, hfld⟩ := ih (i + 1) buf1 buf' h
        have hl1 := wrU32_length hw
        simp only [sizeof_section_64, off_sect_offset] at *
        refine ⟨by rw [hl, hl1], ?_, ?_⟩
        · intro o l hol
          rw [hout o l (by omega)]
          exact rdBytes_wrU32_other hw o l (by omega)
        · intro t ht1 ht2
          by_cases hti : t = i
          · subst hti
            refine ⟨old, hold, ?_⟩
            rw [rdU32_congr (hout _ 4 (by omega)), rdU32_wrU32_same hw,
              Nat.mod_eq_of_lt (relocSect_lt _ _ _)]
          · obtain ⟨old', ho1, ho2⟩ := hfld t (by omega) (by omega)
            refine ⟨old', ?_, ho2⟩
            rw [← ho1]
            exact (rdU32_congr (rdBytes_wrU32_other hw _ 4 (by omega))).symm

/-- C4 (amended): when the segment branch succeeds on a segment command that
is not the link-edit segment, from a state whose output position is not past
the end of the output, exactly `filesize` bytes, the cache bytes
`[fileoff, fileoff + filesize)`, are written at the current position of the
output; the rewritten `fileoff` is the offset where the first of them landed,
`filesize` is unchanged, and the write is an append whenever the position was
the end of the output. -/
theorem segment_body_copy (cache : List Nat) (st st' : FixState) (cmd src : Nat)
    (hsrc : rdU64 st.buf (cmd + off_fileoff) = some src)
    (hnle : isLinkedit st.buf cmd = some false)
    (hreach : st.sys.pos ≤ st.sys.data.length)
    (hpos : st.sys.pos < 2 ^ 64)
    (hok : fixSegment cache st cmd = .ok st') :
    ∃ filesize body,
      rdU64 st.buf (cmd + off_filesize) = some filesize ∧
      body.length = filesize ∧
      (filesize ≠ 0 → rdBytes cache src filesize = some body) ∧
      st'.sys.data = fileWrite st.sys.data st.sys.pos body ∧
      rdBytes st'.sys.data st.sys.pos filesize = some body ∧
      rdU64 st'.buf (cmd + off_fileoff) = some st.sys.pos ∧
      rdU64 st'.buf (cmd + off_filesize) = some filesize ∧
      (st.sys.pos = st.sys.data.length → st'.sys.data = st.sys.data ++ body) := by
  unfold fixSegment at hok
  by_cases htrace : segmentTrace st.buf cmd = true
  swap
  · rw [if_neg htrace] at hok; cases hok
  rw [if_pos htrace] at hok
  rw [hsrc, hnle] at hok
  simp only [Bool.false_eq_true, if_false] at hok
  cases hn : rdU32 st.buf (cmd + off_nsects) with
  | none => rw [hn] at hok; cases hok
  | some nsects =>
    rw [hn] at hok
    simp only at hok
    cases hs : fixSections src st.file_base (cmd + sizeof_segment_command_64) nsects 0 st.buf with
    | none => rw [hs] at hok; cases hok
    | some b1 =>
      rw [hs] at hok
      simp only at hok
      obtain ⟨hl1, hout1, _⟩ := fixSections_spec _ _ _ _ _ _ _ hs
      rcases lseekCur_cases st.sys with hc | hc
      · rw [hc] at hok; cases hok
      · rw [hc] at hok
        simp only at hok
        cases hfs : rdU64 b1 (cmd + off_filesize) with
        | none => rw [hfs] at hok; cases hok
        | some filesize =>
          rw [hfs] at hok
          simp only at hok
          cases hb : rdBuf cache src filesize with
          | none => rw [hb] at hok; cases hok
          | some body =>
            rw [hb] at hok
            simp only at hok
            rcases write_cases st.sys.tick body with hwr | hwr
            · rw [hwr] at hok; cases hok
            · rw [hwr] at hok
              simp only at hok
              cases hw : wrU64 b1 (cmd + off_fileoff) st.sys.pos with
              | none => rw [hw] at hok; cases hok
              | some b2 =>
                rw [hw] at hok
                simp only at hok
                injection hok with hok
                subst hok
                have hlen := rdBuf_length hb
                simp only [off_filesize, off_fileoff, sizeof_segment_command_64,
                  sizeof_section_64, Nat.mul_zero, Nat.add_zero, Sys.tick] at *
                have hfs0 : rdU64 st.buf (cmd + 48) = some filesize := by
                  rw [← hfs]
                  exact (rdU64_congr (hout1 _ 8 (by omega))).symm
                refine ⟨filesize, body, hfs0, hlen, rdBuf_of_ne hb, rfl, ?_, ?_, ?_, ?_⟩
                · have := rdBytes_fileWrite st.sys.data st.sys.pos body hreach
                  rw [hlen] at this
                  exact this
                · rw [rdU64_wrU64_same hw, Nat.mod_eq_of_lt hpos]
                · rw [rdU64_congr (rdBytes_wrU64_other hw _ 8 (by omega))]
                  exact hfs
                · intro hp
                  simp only [hp, fileWrite_at_end]

/-- Witness of C4 (amended): on an empty output the two bytes of the segment
are appended and `fileoff` becomes 0. -/
theorem segment_body_copy_witness :
    ∃ filesize body,
      rdU64 oneSegmentBuf (32 + off_filesize) = some filesize ∧
      body.length = filesize ∧
      (filesize ≠ 0 → rdBytes oneSegmentCache 1 filesize = some body) ∧
      ([0xBB, 0xCC] : List Nat) = fileWrite [] 0 body ∧
      rdBytes [0xBB, 0xCC] 0 filesize = some body ∧
      rdU64 (machHeader 1 72 ++ segmentCommand (ascii "__DATA") 0 2 0) (32 + off_fileoff)
        = some 0 ∧
      rdU64 (machHeader 1 72 ++ segmentCommand (ascii "__DATA") 0 2 0) (32 + off_filesize)
        = some filesize ∧
      ((0 : Nat) = ([] : List Nat).length → ([0xBB, 0xCC] : List Nat) = [] ++ body) :=
  segment_body_copy oneSegmentCache (fixupInit oneSegmentBuf ⟨[], 0, []⟩)
    { buf := machHeader 1 72 ++ segmentCommand (ascii "__DATA") 0 2 0,
      sys := ⟨[0xBB, 0xCC], 2, []⟩, next_cmd := 0, linkedit := none, file_base := 2 }
    32 1
    (by set_option maxRecDepth 100000 in decide)
    (by set_option maxRecDepth 100000 in decide)
    (by decide)
    (by decide)
    (by set_option maxRecDepth 100000 in decide)

/-- Counterexample to C4 as stated: the output path holds five bytes when the
pass starts, the segment command is the first command, and its two bytes
overwrite the first two bytes of the output: no byte is appended. -/
theorem segment_overwrites_existing_output :
    isLinkedit oneSegmentBuf 32 = some false ∧
    fixSegment oneSegmentCache (fixupInit oneSegmentBuf ⟨[7, 7, 7, 7, 7], 0, []⟩) 32 =
      .ok { buf := machHeader 1 72 ++ segmentCommand (ascii "__DATA") 0 2 0,
            sys := ⟨[0xBB, 0xCC, 7, 7, 7], 2, []⟩, next_cmd := 0, linkedit := none,
            file_base := 2 } ∧
    ([0xBB, 0xCC, 7, 7, 7] : List Nat).length = ([7, 7, 7, 7, 7] : List Nat).length ∧
    ([0xBB, 0xCC, 7, 7, 7] : List Nat) ≠ [7, 7, 7, 7, 7] ++ [0xBB, 0xCC] := by
  set_option maxRecDepth 100000 in
  decide

/-- C3 (the code departs from the claim): the symbol table command of
`interleavedBuf` stands between `__TEXT` and `__DATA`, and the whole pass
succeeds on an empty output.  The body of `__DATA` lands at output offset 373,
which becomes its `fileoff`, but its section, one byte into the segment, gets
the offset `353 - 352 + file_base = 353` with `file_base` still 352, the end
of `__TEXT`, not `353 - 352 + 373 = 374`: it points into the string table. -/
theorem section_offset_ignores_symtab_output :
    _fixup_macho_object64 4 interleavedCache interleavedBuf ⟨[], 0, []⟩ =
      some (.ok { buf := interleavedPatched,
                  sys := ⟨interleavedPatched ++ ascii "_foo" ++ [0] ++ nlistRecord 0 ++
                            [1, 2, 3, 4], 352, []⟩,
                  next_cmd := 320, linkedit := some 280, file_base := 377 }) ∧
    isLinkedit interleavedPatched 128 = some false ∧
    rdU64 interleavedBuf (128 + off_fileoff) = some 352 ∧
    rdU32 interleavedBuf (128 + sizeof_segment_command_64 + off_sect_offset) = some 353 ∧
    rdU64 interleavedPatched (128 + off_fileoff) = some 373 ∧
    rdU32 interleavedPatched (128 + sizeof_segment_command_64 + off_sect_offset) = some 353 ∧
    relocSect 353 352 373 = 374 ∧ (353 : Nat) ≠ 374 := by
  set_option maxRecDepth 1000000 in
  decide

/-! ### Appending to the output -/

theorem append_ok {s : Sys} {m : List Nat} {off len p : Nat} {s' : Sys}
    (h : _append_to_file s m off len = ⟨none, p, s'⟩) :
    p = s.data.length ∧ ∃ bs, bs.length = len ∧ (len ≠ 0 → rdBytes m off len = some bs) ∧
      s'.data = s.data ++ bs ∧ s'.pos = s.data.length + len := by
  unfold _append_to_file at h
  rcases lseekEnd_cases s with hc | hc
  · rw [hc] at h
    simp only at h
    injection h with h1 _ _
    cases h1
  · rw [hc] at h
    simp only at h
    by_cases hl : len = 0
    · rw [if_pos hl] at h
      injection h with _ h2 h3
      subst h2 h3
      exact ⟨rfl, [], by simp [hl], fun hn => absurd hl hn, by simp [Sys.tick],
        by simp [hl]⟩
    · rw [if_neg hl] at h
      cases hb : rdBytes m off len with
      | none =>
        rw [hb] at h
        simp only at h
        injection h with h1 _ _
        cases h1
      | some bs =>
        rw [hb] at h
        simp only at h
        rcases write_cases { s.tick with pos := s.data.length } bs with hw | hw
        · rw [hw] at h
          simp only at h
          injection h with h1 _ _
          cases h1
        · rw [hw] at h
          simp only at h
          injection h with _ h2 h3
          subst h2 h3
          have hlen := rdBytes_length hb
          refine ⟨rfl, bs, hlen, fun _ => rfl, ?_, ?_⟩
          · simp [Sys.tick, fileWrite_at_end]
          · simp [hlen]

/-! ### Null-terminated strings -/

theorem cstrOf_no_zero : ∀ (l p : List Nat), cstrOf l = some p → ∀ c ∈ p, c ≠ 0 := by
  intro l
  induction l with
  | nil => intro p h; simp [cstrOf] at h
  | cons b bs ih =>
    intro p h
    simp only [cstrOf] at h
    by_cases hb : b = 0
    · rw [if_pos hb] at h
      injection h with h
      subst h
      intro c hc
      cases hc
    · rw [if_neg hb] at h
      cases hq : cstrOf bs with
      | none => rw [hq] at h; cases h
      | some q =>
        rw [hq] at h
        simp only [Option.map_some'] at h
        injection h with h
        subst h
        intro c hc
        rcases List.mem_cons.mp hc with h1 | h1
        · rw [h1]; exact hb
        · exact ih q hq c h1

theorem cstrOf_cons (b : Nat) (bs : List Nat) :
    cstrOf (b :: bs) = if b = 0 then some [] else (cstrOf bs).map (fun s => b :: s) := rfl

theorem cstrOf_append_zero : ∀ (p rest : List Nat), (∀ c ∈ p, c ≠ 0) →
    cstrOf (p ++ 0 :: rest) = some p := by
  intro p
  induction p with
  | nil => intro rest _; simp [cstrOf]
  | cons c cs ih =>
    intro rest h
    have hc : c ≠ 0 := h c (List.mem_cons_self _ _)
    rw [List.cons_append, cstrOf_cons, if_neg hc,
      ih rest (fun x hx => h x (List.mem_cons_of_mem _ hx)), Option.map_some']

theorem cstrOf_prefix : ∀ (l p : List Nat), cstrOf l = some p →
    ∃ rest, l = p ++ 0 :: rest := by
  intro l
  induction l with
  | nil => intro p h; simp [cstrOf] at h
  | cons b bs ih =>
    intro p h
    simp only [cstrOf] at h
    by_cases hb : b = 0
    · rw [if_pos hb] at h
      injection h with h
      subst h
      exact ⟨bs, by simp [hb]⟩
    · rw [if_neg hb] at h
      cases hq : cstrOf bs with
      | none => rw [hq] at h; cases h
      | some q =>
        rw [hq] at h
        simp only [Option.map_some'] at h
        injection h with h
        subst h
        obtain ⟨rest, hr⟩ := ih q hq
        exact ⟨rest, by rw [hr]; rfl⟩

theorem cstrAt_rdBytes {m : List Nat} {off : Nat} {p : List Nat}
    (h : cstrAt m off = some p) : rdBytes m off (p.length + 1) = some (p ++ [0]) := by
  unfold cstrAt at h
  obtain ⟨rest, hr⟩ := cstrOf_prefix _ _ h
  have hlen : (m.drop off).length = p.length + 1 + rest.length := by
    rw [hr]; simp; omega
  rw [List.length_drop] at hlen
  rw [rdBytes_of_le (by omega), hr]
  congr 1
  have : p ++ 0 :: rest = (p ++ [0]) ++ rest := by simp
  rw [this, List.take_left' (by simp)]

theorem cstrAt_append_right (a b : List Nat) (k : Nat) :
    cstrAt (a ++ b) (a.length + k) = cstrAt b k := by
  unfold cstrAt
  rw [List.drop_append]

theorem rdBytes_append_right (a b : List Nat) (o l : Nat) :
    rdBytes (a ++ b) (a.length + o) l = rdBytes b o l := by
  unfold rdBytes
  rw [List.drop_append]
  simp only [List.length_append]
  by_cases h : o + l ≤ b.length
  · rw [if_pos h, if_pos (by omega)]
  · rw [if_neg h, if_neg (by omega)]

theorem rdBytes_append_left (a b : List Nat) (o l : Nat) (h : o + l ≤ a.length) :
    rdBytes (a ++ b) o l = rdBytes a o l := by
  unfold rdBytes
  rw [if_pos h, if_pos (by simp; omega)]
  congr 1
  apply List.ext_getElem?
  intro j
  rw [List.getElem?_take, List.getElem?_take, List.getElem?_drop, List.getElem?_drop]
  split
  · rw [List.getElem?_append_left (by omega)]
  · rfl

/-! ### The string table of a list of names -/

theorem length_stringTable (names : List (List Nat)) :
    (stringTable names).length = (names.map (fun s => s.length + 1)).sum := by
  induction names with
  | nil => rfl
  | cons s rest ih =>
    simp only [stringTable, List.length_append, ih, List.map_cons, List.sum_cons,
      List.length_cons, List.length_nil]

theorem stringTable_append (a b : List (List Nat)) :
    stringTable (a ++ b) = stringTable a ++ stringTable b := by
  induction a with
  | nil => rfl
  | cons s rest ih => simp [stringTable, ih]

theorem nameOffset_eq (names : List (List Nat)) (i : Nat) :
    nameOffset names i = (stringTable (names.take i)).length := by
  rw [length_stringTable]
  rfl

theorem nameOffset_zero (names : List (List Nat)) : nameOffset names 0 = 0 := rfl

theorem nameOffset_cons_succ (s : List Nat) (rest : List (List Nat)) (j : Nat) :
    nameOffset (s :: rest) (j + 1) = s.length + 1 + nameOffset rest j := by
  simp [nameOffset]

theorem rdBytes_full (m : List Nat) : rdBytes m 0 m.length = some m := by
  simp [rdBytes]

/-! ### The symbol table branch -/

theorem fixSymNames_spec (cache : List Nat) (symoff stroff sN : Nat) :
    ∀ (n i : Nat) (ns : List Nat) (len : Nat) (s : Sys) (ns' : List Nat) (len' : Nat)
      (s' : Sys),
      fixSymNames cache symoff stroff sN n i ns len s = .ok (ns', len', s') →
      ∃ names : List (List Nat), names.length = n ∧
        (∀ j, j < n → symbolName cache symoff stroff (i + j) = names[j]?) ∧
        s'.data = s.data ++ stringTable names ∧
        len' = len + (stringTable names).length ∧
        ns'.length = ns.length ∧
        (∀ j, j < n → rdU32 ns' (16 * (i + j)) =
          some ((s.data.length + nameOffset names j + 2 ^ 32 - sN) % 2 ^ 32)) ∧
        (∀ o l, (o + l ≤ 16 * i ∨ 16 * (i + n) ≤ o) → rdBytes ns' o l = rdBytes ns o l) ∧
        (∀ j, j < n → rdBytes ns' (16 * (i + j) + 4) 12 = rdBytes ns (16 * (i + j) + 4) 12) ∧
        (0 < n → s'.pos = s'.data.length) := by
  intro n
  induction n with
  | zero =>
    intro i ns len s ns' len' s' h
    simp only [fixSymNames] at h
    injection h with h
    injection h with h1 h2
    injection h2 with h2 h3
    subst h1 h2 h3
    exact ⟨[], rfl, fun j hj => by omega, by simp [stringTable], by simp [stringTable], rfl,
      fun j hj => by omega, fun _ _ _ => rfl, fun j hj => by omega, fun h => by omega⟩
  | succ n ih =>
    intro i ns len s ns' len' s' h
    simp only [fixSymNames, sizeof_nlist_64] at h
    cases hx : rdU32 cache (symoff + 16 * i) with
    | none => rw [hx] at h; cases h
    | some strx =>
      rw [hx] at h
      simp only at h
      cases hc : cstrAt cache (stroff + strx) with
      | none => rw [hc] at h; cases h
      | some str =>
        rw [hc] at h
        simp only at h
        cases ha : _append_to_file s cache (stroff + strx) (str.length + 1) with
        | mk err p s1 =>
          rw [ha] at h
          cases err with
          | some e => simp only at h; cases h
          | none =>
            simp only at h
            cases hw : wrU32 ns (16 * i) ((p + 2 ^ 32 - sN) % 2 ^ 32) with
            | none => rw [hw] at h; cases h
            | some ns1 =>
              rw [hw] at h
              simp only at h
              obtain ⟨names, hnl, hnm, hdata, hlen, hnsl, hstrx, hout, hrest, hpos⟩ :=
                ih (i + 1) ns1 _ s1 ns' len' s' h
              obtain ⟨hp, bs, hbl, hbs, hd1, hp1⟩ := append_ok ha
              have hbs' := hbs (by omega)
              rw [cstrAt_rdBytes hc] at hbs'
              injection hbs' with hbs'
              subst hbs'
              subst hp
              have hl1 := wrU32_length hw
              refine ⟨str :: names, by simp [hnl], ?_, ?_, ?_, by rw [hnsl, hl1], ?_, ?_, ?_, ?_⟩
              · intro j hj
                cases j with
                | zero => simp [symbolName, sizeof_nlist_64, hx, hc]
                | succ j =>
                  have := hnm j (by omega)
                  rw [List.getElem?_cons_succ, ← this]
                  congr 1
                  omega
              · rw [hdata, hd1]
                simp [stringTable]
              · rw [hlen]
                simp [stringTable]
                omega
              · intro j hj
                cases j with
                | zero =>
                  rw [Nat.add_zero, rdU32_congr (hout _ 4 (by omega)), rdU32_wrU32_same hw,
                    Nat.mod_mod, nameOffset_zero, Nat.add_zero]
                | succ j =>
                  have := hstrx j (by omega)
                  rw [hd1] at this
                  rw [nameOffset_cons_succ]
                  have e1 : 16 * (i + (j + 1)) = 16 * (i + 1 + j) := by omega
                  rw [e1, this]
                  congr 2
                  simp only [List.length_append, List.length_cons, List.length_nil]
                  omega
              · intro o l hol
                rw [hout o l (by omega)]
                exact rdBytes_wrU32_other hw o l (by omega)
              · intro j hj
                cases j with
                | zero =>
                  rw [Nat.add_zero, hout _ 12 (by omega)]
                  exact rdBytes_wrU32_other hw _ 12 (by omega)
                | succ j =>
                  have := hrest j (by omega)
                  have e1 : 16 * (i + (j + 1)) = 16 * (i + 1 + j) := by omega
                  rw [e1, this]
                  exact rdBytes_wrU32_other hw _ 12 (by omega)
              · intro _
                by_cases hn0 : n = 0
                · subst hn0
                  simp only [fixSymNames] at h
                  injection h with h
                  injection h with _ h2
                  injection h2 with _ h3
                  subst h3
                  rw [hp1, hd1]
                  simp
                · exact hpos (by omega)

theorem fixSymtab_spec (cache : List Nat) (st st' : FixState) (cmd symoff nsyms stroff : Nat)
    (hsymoff : rdU32 st.buf (cmd + off_symoff) = some symoff)
    (hnsyms : rdU32 st.buf (cmd + off_nsyms) = some nsyms)
    (hstroff : rdU32 st.buf (cmd + off_stroff) = some stroff)
    (hok : fixSymtab cache st cmd = .ok st') :
    ∃ (names : List (List Nat)) (syms : List Nat), names.length = nsyms ∧
      (∀ j, j < nsyms → symbolName cache symoff stroff j = names[j]?) ∧
      syms.length = 16 * nsyms ∧
      st'.sys.data = st.sys.data ++ stringTable names ++ syms ∧
      (∀ j, j < nsyms → rdU32 syms (16 * j) =
        some ((st.sys.data.length + nameOffset names j + 2 ^ 32 - st.sys.pos % 2 ^ 32)
          % 2 ^ 32)) ∧
      (∀ j, j < nsyms → rdBytes syms (16 * j + 4) 12 = rdBytes cache (symoff + 16 * j + 4) 12) ∧
      rdU32 st'.buf (cmd + off_stroff) = some (st.sys.pos % 2 ^ 32) ∧
      rdU32 st'.buf (cmd + off_strsize) = some ((stringTable names).length % 2 ^ 32) ∧
      rdU32 st'.buf (cmd + off_symoff) =
        some ((st.sys.data.length + (stringTable names).length) % 2 ^ 32) ∧
      rdU32 st'.buf (cmd + off_nsyms) = some nsyms ∧
      st'.buf.length = st.buf.length ∧
      (∀ o l, (o + l ≤ cmd + 8 ∨ cmd + 24 ≤ o ∨ (cmd + 12 ≤ o ∧ o + l ≤ cmd + 16)) →
        rdBytes st'.buf o l = rdBytes st.buf o l) ∧
      st'.next_cmd = st.next_cmd ∧ st'.linkedit = st.linkedit ∧
      st'.file_base = st.file_base := by
  unfold fixSymtab at hok
  rw [hsymoff, hnsyms, hstroff] at hok
  simp only at hok
  by_cases hf : st.sys.fails = true
  · rw [if_pos hf] at hok; cases hok
  · rw [if_neg hf] at hok
    cases hm : rdBytes cache symoff (nsyms * sizeof_nlist_64) with
    | none => rw [hm] at hok; cases hok
    | some new_syms =>
      rw [hm] at hok
      simp only at hok
      rcases lseekCur_cases st.sys.tick with hc | hc
      · rw [hc] at hok; cases hok
      · rw [hc] at hok
        simp only at hok
        cases hw1 : wrU32 st.buf (cmd + off_stroff) st.sys.tick.pos with
        | none => rw [hw1] at hok; cases hok
        | some b1 =>
          rw [hw1] at hok
          simp only at hok
          cases hl : fixSymNames cache symoff stroff (st.sys.tick.pos % 2 ^ 32) nsyms 0
              new_syms 0 st.sys.tick.tick with
          | error e => rw [hl] at hok; cases hok
          | ok r =>
            obtain ⟨ns, strtab_len, s2⟩ := r
            rw [hl] at hok
            simp only at hok
            cases hw2 : wrU32 b1 (cmd + off_strsize) strtab_len with
            | none => rw [hw2] at hok; cases hok
            | some b2 =>
              rw [hw2] at hok
              simp only at hok
              cases ha : _append_to_file s2 ns 0 (nsyms * sizeof_nlist_64) with
              | mk err p s3 =>
                rw [ha] at hok
                cases err with
                | some e => simp only at hok; cases hok
                | none =>
                  simp only at hok
                  cases hw3 : wrU32 b2 (cmd + off_symoff) p with
                  | none => rw [hw3] at hok; cases hok
                  | some b3 =>
                    rw [hw3] at hok
                    simp only at hok
                    injection hok with hok
                    subst hok
                    obtain ⟨names, hnl, hnm, hdata, hlen, hnsl, hstrx, hout, hrest, _⟩ :=
                      fixSymNames_spec _ _ _ _ _ _ _ _ _ _ _ _ hl
                    obtain ⟨hp, bs, hbl, hbs, hd3, _⟩ := append_ok ha
                    have hml := rdBytes_length hm
                    simp only [sizeof_nlist_64, off_symoff, off_nsyms, off_stroff, off_strsize,
                      Sys.tick, Nat.zero_add] at *
                    have hbs_eq : bs = ns := by
                      by_cases h0 : nsyms * 16 = 0
                      · have h1 : bs.length = 0 := by omega
                        have h2 : ns.length = 0 := by omega
                        rw [List.length_eq_zero.mp h1, List.length_eq_zero.mp h2]
                      · have h1 := hbs h0
                        have h2 : nsyms * 16 = ns.length := by omega
                        rw [h2, rdBytes_full] at h1
                        injection h1 with h1
                        exact h1.symm
                    subst hbs_eq
                    subst hp
                    refine ⟨names, bs, hnl, hnm, by omega, ?_, hstrx, ?_, ?_, ?_, ?_, ?_, ?_, ?_,
                      by first | rfl | trivial, by first | rfl | trivial,
                      by first | rfl | trivial⟩
                    · rw [hd3, hdata]
                    · intro j hj
                      rw [hrest j hj]
                      have hg : ∀ k, new_syms[k]? = if k < nsyms * 16 then cache[symoff + k]?
                          else none := getElem?_rdBytes hm
                      have hle := (rdBytes_eq_some hm).1
                      rw [rdBytes_of_le (by omega), rdBytes_of_le (by omega)]
                      congr 1
                      apply List.ext_getElem?
                      intro k
                      rw [List.getElem?_take, List.getElem?_take, List.getElem?_drop,
                        List.getElem?_drop]
                      split
                      · rw [hg, if_pos (by omega)]
                        congr 1
                        omega
                      · rfl
                    · rw [rdU32_congr (rdBytes_wrU32_other hw3 _ 4 (by omega)),
                        rdU32_congr (rdBytes_wrU32_other hw2 _ 4 (by omega)),
                        rdU32_wrU32_same hw1]
                    · rw [rdU32_congr (rdBytes_wrU32_other hw3 _ 4 (by omega)),
                        rdU32_wrU32_same hw2, hlen]
                    · rw [rdU32_wrU32_same hw3, hdata, List.length_append]
                    · rw [rdU32_congr (rdBytes_wrU32_other hw3 _ 4 (by omega)),
                        rdU32_congr (rdBytes_wrU32_other hw2 _ 4 (by omega)),
                        rdU32_congr (rdBytes_wrU32_other hw1 _ 4 (by omega))]
                      exact hnsyms
                    · rw [wrU32_length hw3, wrU32_length hw2, wrU32_length hw1]
                    · intro o l hol
                      rw [rdBytes_wrU32_other hw3 o l (by omega),
                        rdBytes_wrU32_other hw2 o l (by omega),
                        rdBytes_wrU32_other hw1 o l (by omega)]

theorem stringTable_split : ∀ (names : List (List Nat)) (i : Nat) (name : List Nat),
    names[i]? = some name →
    stringTable names =
      stringTable (names.take i) ++ (name ++ 0 :: stringTable (names.drop (i + 1))) := by
  intro names
  induction names with
  | nil => intro i name h; simp at h
  | cons s rest ih =>
    intro i name h
    cases i with
    | zero =>
      simp only [List.getElem?_cons_zero] at h
      injection h with h
      subst h
      simp [stringTable]
    | succ i =>
      rw [List.getElem?_cons_succ] at h
      simp only [List.take_succ_cons, List.drop_succ_cons, stringTable]
      rw [ih i name h]
      simp

theorem mod_cancel_base (L off : Nat) :
    (L + off + 2 ^ 32 - L % 2 ^ 32) % 2 ^ 32 = off % 2 ^ 32 := by
  norm_num
  omega

/-- C2 (amended): when the symbol table branch succeeds from a state whose
output position is the end of the output, the bytes it appends as the new
string table are exactly `s_0 ++ [0] ++ ... ++ s_{n-1} ++ [0]`, the `s_i` being
the names of the symbols resolved through the source string table, in symbol
order; they are followed by the symbol array, in which the name offset of
symbol `i` is the sum over `j < i` of `length s_j + 1`, as a 32-bit value. -/
theorem string_table_layout (cache : List Nat) (st st' : FixState)
    (cmd symoff nsyms stroff : Nat)
    (hsymoff : rdU32 st.buf (cmd + off_symoff) = some symoff)
    (hnsyms : rdU32 st.buf (cmd + off_nsyms) = some nsyms)
    (hstroff : rdU32 st.buf (cmd + off_stroff) = some stroff)
    (hend : st.sys.pos = st.sys.data.length)
    (hok : fixSymtab cache st cmd = .ok st') :
    ∃ (names : List (List Nat)) (syms : List Nat), names.length = nsyms ∧
      (∀ i, i < nsyms → symbolName cache symoff stroff i = names[i]?) ∧
      syms.length = sizeof_nlist_64 * nsyms ∧
      st'.sys.data = st.sys.data ++ stringTable names ++ syms ∧
      (∀ i, i < nsyms → rdU32 syms (sizeof_nlist_64 * i) = some (nameOffset names i % 2 ^ 32)) := by
  obtain ⟨names, syms, h1, h2, h3, h4, h5, _⟩ :=
    fixSymtab_spec cache st st' cmd symoff nsyms stroff hsymoff hnsyms hstroff hok
  refine ⟨names, syms, h1, h2, h3, h4, ?_⟩
  intro i hi
  have := h5 i hi
  rw [hend, mod_cancel_base] at this
  exact this

/-- Witness of C2 (amended): on an empty output the symbols `_foo` and `_bar`
give the string table `"_foo\0_bar\0"` and the name offsets 0 and 5. -/
theorem string_table_layout_witness :
    fixSymtab fooBarCache (fixupInit fooBarBuf ⟨[], 0, []⟩) 32 =
      .ok { buf := machHeader 1 24 ++ symtabCommand 10 2 0 10,
            sys := ⟨ascii "_foo" ++ [0] ++ ascii "_bar" ++ [0] ++
                    (nlistRecord 0 ++ nlistRecord 5), 42, []⟩,
            next_cmd := 0, linkedit := none, file_base := 0 } ∧
    ∃ (names : List (List Nat)) (syms : List Nat), names.length = 2 ∧
      (∀ i, i < 2 → symbolName fooBarCache 0 32 i = names[i]?) ∧
      syms.length = sizeof_nlist_64 * 2 ∧
      ascii "_foo" ++ [0] ++ ascii "_bar" ++ [0] ++ (nlistRecord 0 ++ nlistRecord 5) =
        [] ++ stringTable names ++ syms ∧
      (∀ i, i < 2 → rdU32 syms (sizeof_nlist_64 * i) = some (nameOffset names i % 2 ^ 32)) :=
  ⟨by set_option maxRecDepth 100000 in decide,
   string_table_layout fooBarCache (fixupInit fooBarBuf ⟨[], 0, []⟩)
    { buf := machHeader 1 24 ++ symtabCommand 10 2 0 10,
      sys := ⟨ascii "_foo" ++ [0] ++ ascii "_bar" ++ [0] ++
              (nlistRecord 0 ++ nlistRecord 5), 42, []⟩,
      next_cmd := 0, linkedit := none, file_base := 0 }
    32 0 2 32
    (by set_option maxRecDepth 100000 in decide)
    (by set_option maxRecDepth 100000 in decide)
    (by set_option maxRecDepth 100000 in decide)
    (by decide)
    (by set_option maxRecDepth 100000 in decide)⟩

/-- Counterexample to C2 as stated: the output path holds three bytes when the
pass starts and the symbol table command is the first command.  The string
table `"_foo\0_bar\0"` is appended after these bytes while `stroff` is the
position 0 of the descriptor, so the name offsets of the two symbols are 3 and
8, not 0 and 5. -/
theorem name_offsets_on_existing_output :
    fixSymtab fooBarCache (fixupInit fooBarBuf ⟨[7, 7, 7], 0, []⟩) 32 =
      .ok { buf := machHeader 1 24 ++ symtabCommand 13 2 0 10,
            sys := ⟨[7, 7, 7] ++ ascii "_foo" ++ [0] ++ ascii "_bar" ++ [0] ++
                    (nlistRecord 3 ++ nlistRecord 8), 45, []⟩,
            next_cmd := 0, linkedit := none, file_base := 0 } ∧
    symbolName fooBarCache 0 32 0 = some (ascii "_foo") ∧
    symbolName fooBarCache 0 32 1 = some (ascii "_bar") ∧
    rdU32 (nlistRecord 3 ++ nlistRecord 8) (sizeof_nlist_64 * 0) = some 3 ∧
    rdU32 (nlistRecord 3 ++ nlistRecord 8) (sizeof_nlist_64 * 1) = some 8 ∧
    nameOffset [ascii "_foo", ascii "_bar"] 0 = 0 ∧
    nameOffset [ascii "_foo", ascii "_bar"] 1 = 5 := by
  set_option maxRecDepth 100000 in
  decide

/-- C1 (amended): when the symbol table branch succeeds from a state whose
output position is not past the end of the output (as in every state the pass
produces) and leaves an output shorter than `2^32` bytes, then for every
symbol index `i < nsyms` the null-terminated string read from the output at
(rewritten `stroff` + name offset of symbol `i` in the symbol array at the
rewritten `symoff`) is the string read from the cache at (original `stroff` +
original name offset of symbol `i`). -/
theorem symbol_name_round_trip (cache : List Nat) (st st' : FixState)
    (cmd symoff nsyms stroff : Nat)
    (hsymoff : rdU32 st.buf (cmd + off_symoff) = some symoff)
    (hnsyms : rdU32 st.buf (cmd + off_nsyms) = some nsyms)
    (hstroff : rdU32 st.buf (cmd + off_stroff) = some stroff)
    (hreach : st.sys.pos ≤ st.sys.data.length)
    (hsmall : st'.sys.data.length < 2 ^ 32)
    (hok : fixSymtab cache st cmd = .ok st') :
    ∃ stroff' symoff', rdU32 st'.buf (cmd + off_stroff) = some stroff' ∧
      rdU32 st'.buf (cmd + off_symoff) = some symoff' ∧
      ∀ i, i < nsyms → ∃ strx strx' name,
        rdU32 cache (symoff + sizeof_nlist_64 * i) = some strx ∧
        rdU32 st'.sys.data (symoff' + sizeof_nlist_64 * i) = some strx' ∧
        cstrAt cache (stroff + strx) = some name ∧
        cstrAt st'.sys.data (stroff' + strx') = some name := by
  obtain ⟨names, syms, h1, h2, h3, h4, h5, _, h7, _, h9, _⟩ :=
    fixSymtab_spec cache st st' cmd symoff nsyms stroff hsymoff hnsyms hstroff hok
  have hlen : st'.sys.data.length = st.sys.data.length + (stringTable names).length
      + syms.length := by
    rw [h4]; simp; omega
  have hpow : (2 : Nat) ^ 32 = 4294967296 := by norm_num
  rw [hpow] at hsmall h7 h9 h5
  refine ⟨st.sys.pos, st.sys.data.length + (stringTable names).length, ?_, ?_, ?_⟩
  · rw [h7, Nat.mod_eq_of_lt (by omega)]
  · rw [h9, Nat.mod_eq_of_lt (by omega)]
  · intro i hi
    have hname : ∃ name, names[i]? = some name := by
      have : i < names.length := by omega
      exact ⟨names[i], List.getElem?_eq_getElem this⟩
    obtain ⟨name, hn⟩ := hname
    have hsym := h2 i hi
    rw [hn] at hsym
    unfold symbolName at hsym
    cases hx : rdU32 cache (symoff + sizeof_nlist_64 * i) with
    | none => rw [hx] at hsym; cases hsym
    | some strx =>
      rw [hx] at hsym
      simp only at hsym
      have hsplit := stringTable_split names i name hn
      have hoff : nameOffset names i = (stringTable (names.take i)).length :=
        nameOffset_eq names i
      have hTlen : (stringTable names).length =
          (stringTable (names.take i)).length + (name.length + 1
            + (stringTable (names.drop (i + 1))).length) := by
        rw [hsplit]
        simp
        omega
      have hnz : ∀ c ∈ name, c ≠ 0 := cstrOf_no_zero _ _ hsym
      refine ⟨strx, st.sys.data.length + nameOffset names i - st.sys.pos, name, rfl, ?_,
        hsym, ?_⟩
      · rw [h4]
        have e1 : st.sys.data.length + (stringTable names).length + sizeof_nlist_64 * i =
            (st.sys.data ++ stringTable names).length + sizeof_nlist_64 * i := by simp
        rw [e1]
        unfold rdU32
        rw [rdBytes_append_right]
        have := h5 i hi
        unfold rdU32 at this
        simp only [sizeof_nlist_64]
        rw [this]
        congr 1
        omega
      · have e2 : st.sys.pos + (st.sys.data.length + nameOffset names i - st.sys.pos) =
            st.sys.data.length + nameOffset names i := by omega
        rw [e2, h4, List.append_assoc, cstrAt_append_right, hsplit, List.append_assoc, hoff,
          ← Nat.add_zero (stringTable (List.take i names)).length, cstrAt_append_right]
        unfold cstrAt
        rw [List.drop_zero, List.append_assoc, List.cons_append]
        exact cstrOf_append_zero name _ hnz

/-- Witness of C1 (amended): the symbols `_foo` and `_bar` on an output that
already holds three bytes. -/
theorem symbol_name_round_trip_witness :
    ∃ stroff' symoff', rdU32 (machHeader 1 24 ++ symtabCommand 13 2 0 10) (32 + off_stroff)
        = some stroff' ∧
      rdU32 (machHeader 1 24 ++ symtabCommand 13 2 0 10) (32 + off_symoff) = some symoff' ∧
      ∀ i, i < 2 → ∃ strx strx' name,
        rdU32 fooBarCache (0 + sizeof_nlist_64 * i) = some strx ∧
        rdU32 ([7, 7, 7] ++ ascii "_foo" ++ [0] ++ ascii "_bar" ++ [0] ++
            (nlistRecord 3 ++ nlistRecord 8)) (symoff' + sizeof_nlist_64 * i) = some strx' ∧
        cstrAt fooBarCache (32 + strx) = some name ∧
        cstrAt ([7, 7, 7] ++ ascii "_foo" ++ [0] ++ ascii "_bar" ++ [0] ++
            (nlistRecord 3 ++ nlistRecord 8)) (stroff' + strx') = some name :=
  symbol_name_round_trip fooBarCache (fixupInit fooBarBuf ⟨[7, 7, 7], 0, []⟩)
    { buf := machHeader 1 24 ++ symtabCommand 13 2 0 10,
      sys := ⟨[7, 7, 7] ++ ascii "_foo" ++ [0] ++ ascii "_bar" ++ [0] ++
              (nlistRecord 3 ++ nlistRecord 8), 45, []⟩,
      next_cmd := 0, linkedit := none, file_base := 0 }
    32 0 2 32
    (by set_option maxRecDepth 100000 in decide)
    (by set_option maxRecDepth 100000 in decide)
    (by set_option maxRecDepth 100000 in decide)
    (by decide)
    (by set_option maxRecDepth 100000 in decide)
    (by set_option maxRecDepth 100000 in decide)

/-! ### A symbol table that lands past 4 GiB -/

theorem append_at_end (D : List Nat) (p : Nat) (m : List Nat) (off len : Nat) (bs : List Nat)
    (hlen : len ≠ 0) (hb : rdBytes m off len = some bs) :
    _append_to_file ⟨D, p, []⟩ m off len =
      ⟨none, D.length, ⟨D ++ bs, D.length + bs.length, []⟩⟩ := by
  simp [_append_to_file, lseekEnd, write, Sys.fails, Sys.tick, hlen, hb, fileWrite_at_end]

set_option maxRecDepth 100000 in
theorem oneSym_on_large_output (D : List Nat) (hD : D.length = 2 ^ 32) :
    fixSymtab oneSymCache (fixupInit oneSymBuf ⟨D, 0, []⟩) 32 =
      .ok { buf := machHeader 1 24 ++ symtabCommand 5 1 0 5,
            sys := ⟨D ++ (ascii "_foo" ++ [0]) ++ nlistRecord 0, 2 ^ 32 + 5 + 16, []⟩,
            next_cmd := 0, linkedit := none, file_base := 0 } := by
  have h1 : rdU32 oneSymBuf (32 + off_symoff) = some 0 := by decide
  have h2 : rdU32 oneSymBuf (32 + off_nsyms) = some 1 := by decide
  have h3 : rdU32 oneSymBuf (32 + off_stroff) = some 16 := by decide
  have h4 : rdBytes oneSymCache 0 (1 * sizeof_nlist_64) = some (nlistRecord 0) := by decide
  have h5 : wrU32 oneSymBuf (32 + off_stroff) 0 =
      some (machHeader 1 24 ++ symtabCommand 0 1 0 5) := by decide
  have h6 : rdU32 oneSymCache (0 + sizeof_nlist_64 * 0) = some 0 := by decide
  have h7 : cstrAt oneSymCache (16 + 0) = some (ascii "_foo") := by decide
  have h8 : rdBytes oneSymCache (16 + 0) ((ascii "_foo").length + 1) =
      some (ascii "_foo" ++ [0]) := by decide
  have h9 : wrU32 (nlistRecord 0) (sizeof_nlist_64 * 0) 0 = some (nlistRecord 0) := by decide
  have h10 : wrU32 (machHeader 1 24 ++ symtabCommand 0 1 0 5) (32 + off_strsize)
      (0 + ((ascii "_foo").length + 1)) =
      some (machHeader 1 24 ++ symtabCommand 0 1 0 5) := by decide
  have h11 : rdBytes (nlistRecord 0) 0 (1 * sizeof_nlist_64) = some (nlistRecord 0) := by
    decide
  have h12 : wrU32 (machHeader 1 24 ++ symtabCommand 0 1 0 5) (32 + off_symoff) (2 ^ 32 + 5) =
      some (machHeader 1 24 ++ symtabCommand 5 1 0 5) := by decide
  have hv : (D.length + 2 ^ 32 - 0 % 2 ^ 32) % 2 ^ 32 = 0 := by rw [hD]; norm_num
  have ha1 := append_at_end D 0 oneSymCache (16 + 0) ((ascii "_foo").length + 1) _
    (by omega) h8
  have ha2 := append_at_end (D ++ (ascii "_foo" ++ [0]))
    (D.length + (ascii "_foo" ++ [0]).length) (nlistRecord 0) 0 (1 * sizeof_nlist_64) _
    (by decide) h11
  have hl2 : (D ++ (ascii "_foo" ++ [0])).length = 2 ^ 32 + 5 := by
    rw [List.length_append, hD]; rfl
  unfold fixSymtab
  simp only [fixupInit]
  rw [h1, h2, h3]
  simp only [Sys.fails, Sys.tick, lseekCur, List.tail_nil, Bool.false_eq_true, if_false, h4, h5]
  unfold fixSymNames
  rw [h6]
  simp only [h7, ha1, hv, h9]
  unfold fixSymNames
  simp only [h10, ha2, hl2, h12]
  rfl

theorem rdBytes_of_zeros (D : List Nat) (hz : ∀ i, i < D.length → D[i]? = some 0)
    (o l : Nat) (h : o + l ≤ D.length) : rdBytes D o l = some (List.replicate l 0) := by
  rw [rdBytes_of_le h]
  congr 1
  apply List.ext_getElem?
  intro j
  rw [List.getElem?_take, List.getElem?_drop, List.getElem?_replicate]
  split
  · exact hz (o + j) (by omega)
  · rfl

theorem cstrAt_zero_of_head (D Z : List Nat) (h0 : D[0]? = some 0) :
    cstrAt (D ++ Z) (0 + 0) = some [] := by
  cases D with
  | nil => simp at h0
  | cons b bs =>
    simp only [List.getElem?_cons_zero] at h0
    injection h0 with h0
    subst h0
    simp [cstrAt, cstrOf]

/-- Counterexample to C1 as stated: the output path holds `2^32` zero bytes
when the pass starts (position 0, not past the end) and the symbol table
command of one symbol `_foo` succeeds.  The name lands at offset `2^32`; the
rewritten `stroff` is 0, the rewritten `symoff` is `(2^32 + 5) mod 2^32 = 5`,
the name offset read from the output at `symoff` is 0, and the string read at
`stroff + 0` is empty, not `_foo`. -/
theorem round_trip_fails_past_4GiB :
    (0 : Nat) ≤ (List.replicate (2 ^ 32) 0).length ∧
    fixSymtab oneSymCache (fixupInit oneSymBuf ⟨List.replicate (2 ^ 32) 0, 0, []⟩) 32 =
      .ok { buf := machHeader 1 24 ++ symtabCommand 5 1 0 5,
            sys := ⟨List.replicate (2 ^ 32) 0 ++ (ascii "_foo" ++ [0]) ++ nlistRecord 0,
                    2 ^ 32 + 5 + 16, []⟩,
            next_cmd := 0, linkedit := none, file_base := 0 } ∧
    rdU32 (machHeader 1 24 ++ symtabCommand 5 1 0 5) (32 + off_stroff) = some 0 ∧
    rdU32 (machHeader 1 24 ++ symtabCommand 5 1 0 5) (32 + off_symoff) = some 5 ∧
    rdU32 (List.replicate (2 ^ 32) 0 ++ (ascii "_foo" ++ [0]) ++ nlistRecord 0)
      (5 + sizeof_nlist_64 * 0) = some 0 ∧
    cstrAt (List.replicate (2 ^ 32) 0 ++ (ascii "_foo" ++ [0]) ++ nlistRecord 0) (0 + 0)
      = some [] ∧
    rdU32 oneSymCache (0 + sizeof_nlist_64 * 0) = some 0 ∧
    cstrAt oneSymCache (16 + 0) = some (ascii "_foo") ∧
    (some ([] : List Nat)) ≠ some (ascii "_foo") := by
  have hlen : (List.replicate (2 ^ 32) (0 : Nat)).length = 2 ^ 32 := List.length_replicate _ _
  have hz : ∀ i, i < (List.replicate (2 ^ 32) (0 : Nat)).length →
      (List.replicate (2 ^ 32) (0 : Nat))[i]? = some 0 := by
    intro i hi
    rw [hlen] at hi
    rw [List.getElem?_replicate, if_pos hi]
  refine ⟨Nat.zero_le _, oneSym_on_large_output _ hlen, by decide, by decide, ?_, ?_,
    by decide, by decide, by decide⟩
  · unfold rdU32
    rw [List.append_assoc, rdBytes_append_left _ _ _ _ (by rw [hlen]; decide),
      rdBytes_of_zeros _ hz _ _ (by rw [hlen]; decide)]
    rfl
  · rw [List.append_assoc]
    exact cstrAt_zero_of_head _ _ (hz 0 (by rw [hlen]; decide))

/-! ### The size of the link-edit segment -/

/-- C5 (the code departs from the claim): extraction of image `t` of
`tinyCache` succeeds.  The pass writes the 200 bytes of `__TEXT`, records
`__LINKEDIT` at offset 200 with size `200 - 200 = 0` and rewrites the header
block of 176 bytes at offset 0; `_dump_file` then writes the header block once
more at the position 176 where the pass left the descriptor.  The output is
352 bytes long, so the size stored for `__LINKEDIT`, 0, is not
`352 - 200 = 152`. -/
theorem tiny_linkedit_size_is_not_output_length :
    _dump_file 2 tinyHdr tinyCache (ascii "t") none [] =
      some ⟨.ok (), some (tinyPatched ++ tinyPatched)⟩ ∧
    (tinyPatched ++ tinyPatched).length = 352 ∧
    isLinkedit (tinyPatched ++ tinyPatched) (32 + 72) = some true ∧
    rdU64 (tinyPatched ++ tinyPatched) (32 + 72 + off_fileoff) = some 200 ∧
    rdU64 (tinyPatched ++ tinyPatched) (32 + 72 + off_filesize) = some 0 ∧
    (0 : Nat) ≠ 352 - 200 := by
  set_option maxRecDepth 1000000 in
  decide

/-! ### What the blob and DyldInfo branches return -/

theorem fixLinkeditData_ok {cache : List Nat} {st st' : FixState} {cmd : Nat}
    (hok : fixLinkeditData cache st cmd = .ok st') :
    ∃ dataoff datasize b1, rdU32 st.buf (cmd + off_dataoff) = some dataoff ∧
      rdU32 st.buf (cmd + off_datasize) = some datasize ∧
      wrU32 st.buf (cmd + off_dataoff)
        (_append_to_file st.sys cache dataoff datasize).poffset = some b1 ∧
      st' = { st with buf := b1, sys := (_append_to_file st.sys cache dataoff datasize).sys } := by
  unfold fixLinkeditData at hok
  split at hok
  · rename_i dataoff datasize h1 h2
    split at hok
    · cases hok
    · rename_i b1 hb1
      injection hok with hok
      exact ⟨dataoff, datasize, b1, h1, h2, hb1, hok.symm⟩
  · cases hok

theorem fixDyldInfo_ok {st st' : FixState} {cmd : Nat}
    (hok : fixDyldInfo st cmd = .ok st') : st' = st := by
  unfold fixDyldInfo at hok
  split at hok
  · injection hok with hok
    exact hok.symm
  · cases hok

theorem fixDyldInfo_of_le (st : FixState) (cmd : Nat) (h : cmd + 44 ≤ st.buf.length) :
    fixDyldInfo st cmd = .ok st := by
  have hr : ∀ o, o + 4 ≤ st.buf.length → ∃ x, rdU32 st.buf o = some x := by
    intro o ho
    unfold rdU32
    rw [rdBytes_of_le ho]
    exact ⟨_, rfl⟩
  obtain ⟨x1, h1⟩ := hr (cmd + off_rebase_off) (by simp only [off_rebase_off]; omega)
  obtain ⟨x2, h2⟩ := hr (cmd + off_bind_off) (by simp only [off_bind_off]; omega)
  obtain ⟨x3, h3⟩ := hr (cmd + off_weak_bind_off) (by simp only [off_weak_bind_off]; omega)
  obtain ⟨x4, h4⟩ := hr (cmd + off_lazy_bind_off) (by simp only [off_lazy_bind_off]; omega)
  obtain ⟨x5, h5⟩ := hr (cmd + off_export_off) (by simp only [off_export_off]; omega)
  unfold fixDyldInfo
  rw [h1, h2, h3, h4, h5]

theorem fixDyldInfo_short (st : FixState) (cmd : Nat) (h : st.buf.length < cmd + 44) :
    fixDyldInfo st cmd = .error ⟨.memoryFault, st.sys⟩ := by
  have h5 : rdU32 st.buf (cmd + off_export_off) = none := by
    unfold rdU32 rdBytes
    rw [if_neg (by simp only [off_export_off]; omega)]
    rfl
  unfold fixDyldInfo
  rw [h5]
  split
  · rename_i heq
    cases heq
  · rfl

/-! ### The position of the descriptor never passes the end of the output -/

theorem append_pos_le (s : Sys) (m : List Nat) (off len : Nat)
    (h : s.pos ≤ s.data.length) :
    (_append_to_file s m off len).sys.pos ≤ (_append_to_file s m off len).sys.data.length := by
  unfold _append_to_file
  rcases lseekEnd_cases s with hc | hc
  · rw [hc]; exact h
  · rw [hc]
    simp only
    by_cases hl : len = 0
    · rw [if_pos hl]; simp [Sys.tick]
    · rw [if_neg hl]
      cases hb : rdBytes m off len with
      | none => simp [Sys.tick]
      | some bs =>
        simp only
        rcases write_cases { s.tick with pos := s.data.length } bs with hw | hw
        · rw [hw]; simp [Sys.tick]
        · rw [hw]; simp [Sys.tick, fileWrite_at_end]

theorem fixSegment_pos_le (cache : List Nat) (st st' : FixState) (cmd : Nat)
    (h : st.sys.pos ≤ st.sys.data.length) (hok : fixSegment cache st cmd = .ok st') :
    st'.sys.pos ≤ st'.sys.data.length := by
  unfold fixSegment at hok
  by_cases htrace : segmentTrace st.buf cmd = true
  swap
  · rw [if_neg htrace] at hok; cases hok
  rw [if_pos htrace] at hok
  split at hok
  · split at hok
    · split at hok
      · cases hok
      · split at hok
        · cases hok
        · injection hok with hok; subst hok; exact h
    · split at hok
      · cases hok
      · split at hok
        · cases hok
        · rcases lseekCur_cases st.sys with hc | hc
          · rw [hc] at hok; cases hok
          · rw [hc] at hok
            simp only at hok
            split at hok
            · cases hok
            · split at hok
              · cases hok
              · rename_i body _
                rcases write_cases st.sys.tick body with hw | hw
                · rw [hw] at hok; cases hok
                · rw [hw] at hok
                  simp only at hok
                  split at hok
                  · cases hok
                  · injection hok with hok
                    subst hok
                    simp only [Sys.tick, length_fileWrite _ _ _ h]
                    omega
  · cases hok

theorem fixSymtab_pos_le (cache : List Nat) (st st' : FixState) (cmd : Nat)
    (hok : fixSymtab cache st cmd = .ok st') :
    st'.sys.pos ≤ st'.sys.data.length := by
  unfold fixSymtab at hok
  split at hok
  · split at hok
    · cases hok
    · split at hok
      · cases hok
      · split at hok
        · cases hok
        · split at hok
          · cases hok
          · split at hok
            · cases hok
            · split at hok
              · cases hok
              · split at hok
                · cases hok
                · rename_i s2 _ _ ns _ _ _ p s3 ha
                  split at hok
                  · cases hok
                  · injection hok with hok
                    subst hok
                    obtain ⟨_, bs, hbl, _, hd, hp⟩ := append_ok ha
                    simp only
                    rw [hp, hd, List.length_append, hbl]
  · cases hok

theorem fixDysymtab_pos_le (cache : List Nat) (st st' : FixState) (cmd : Nat)
    (h : st.sys.pos ≤ st.sys.data.length) (hok : fixDysymtab cache st cmd = .ok st') :
    st'.sys.pos ≤ st'.sys.data.length := by
  unfold fixDysymtab at hok
  split at hok
  · cases hok
  · split at hok
    · injection hok with hok; subst hok; exact h
    · split at hok
      · cases hok
      · split at hok
        · cases hok
        · rename_i p s1 ha
          split at hok
          · cases hok
          · injection hok with hok
            subst hok
            obtain ⟨_, bs, hbl, _, hd, hp⟩ := append_ok ha
            simp only
            rw [hp, hd, List.length_append, hbl]

theorem fixLinkeditData_pos_le (cache : List Nat) (st st' : FixState) (cmd : Nat)
    (h : st.sys.pos ≤ st.sys.data.length) (hok : fixLinkeditData cache st cmd = .ok st') :
    st'.sys.pos ≤ st'.sys.data.length := by
  obtain ⟨dataoff, datasize, b1, _, _, _, rfl⟩ := fixLinkeditData_ok hok
  exact append_pos_le st.sys cache dataoff datasize h

theorem fixupStep_pos_le (cache : List Nat) (st st' : FixState)
    (h : st.sys.pos ≤ st.sys.data.length) (hok : fixupStep cache st = .ok st') :
    st'.sys.pos ≤ st'.sys.data.length := by
  unfold fixupStep at hok
  split at hok
  · cases hok
  · rename_i kind _
    split at hok
    · cases hok
    · rename_i st1 hc
      have h1 : st1.sys.pos ≤ st1.sys.data.length := by
        unfold fixCommand at hc
        split at hc
        · exact fixSegment_pos_le _ _ _ _ h hc
        · split at hc
          · exact fixSymtab_pos_le _ _ _ _ hc
          · split at hc
            · exact fixDysymtab_pos_le _ _ _ _ h hc
            · split at hc
              · have hdy := fixDyldInfo_ok hc; subst hdy; exact h
              · split at hc
                · exact fixLinkeditData_pos_le _ _ _ _ h hc
                · injection hc with hc; subst hc; exact h
      split at hok
      · cases hok
      · injection hok with hok
        subst hok
        exact h1

theorem fixupLoop_pos_le (cache : List Nat) :
    ∀ (fuel : Nat) (st st' : FixState), st.sys.pos ≤ st.sys.data.length →
      fixupLoop cache fuel st = some (.ok st') → st'.sys.pos ≤ st'.sys.data.length := by
  intro fuel
  induction fuel with
  | zero =>
    intro st st' h hok
    unfold fixupLoop at hok
    split at hok
    · cases hok
    · split at hok
      · cases hok
      · injection hok with hok
        injection hok with hok
        subst hok
        exact h
  | succ fuel ih =>
    intro st st' h hok
    unfold fixupLoop at hok
    split at hok
    · cases hok
    · split at hok
      · split at hok
        · cases hok
        · rename_i st1 hs
          exact ih st1 st' (fixupStep_pos_le cache st st1 h hs) hok
      · injection hok with hok
        injection hok with hok
        subst hok
        exact h

/-! ### Finalization without a link-edit segment -/

/-- C11 (the code departs from the claim): the only command of `oneSegmentBuf`
is the segment `__DATA`, so `linkedit` is still `NULL` when the walk ends.
The end of the pass seeks to the end of the output and then assigns
`linkedit->filesize` through that `NULL` pointer: the outcome is a memory
fault, with the two bytes of the segment left in the output, and no error
result is returned. -/
theorem missing_linkedit_is_null_dereference :
    isLinkedit oneSegmentBuf 32 = some false ∧
    rdU32 oneSegmentBuf off_sizeofcmds = some 72 ∧
    fixupLoop oneSegmentCache 1 (fixupInit oneSegmentBuf ⟨[], 0, []⟩) =
      some (.ok { buf := machHeader 1 72 ++ segmentCommand (ascii "__DATA") 0 2 0,
                  sys := ⟨[0xBB, 0xCC], 2, []⟩, next_cmd := 72, linkedit := none,
                  file_base := 2 }) ∧
    _fixup_macho_object64 1 oneSegmentCache oneSegmentBuf ⟨[], 0, []⟩ =
      some (.error ⟨.memoryFault, ⟨[0xBB, 0xCC], 2, []⟩⟩) := by
  set_option maxRecDepth 100000 in
  decide

/-! ### Commands the pass does not touch -/

/-- C16 (counterexample to the claim as stated): `shortDyldInfoBuf` ends
with a record of kind `LC_DYLD_INFO_ONLY` (low byte `LC_DYLD_INFO`) that
declares 8 bytes.  The trace of the branch (lines 212-213) loads `rebase_off`
to `export_off`, at offsets 8 to 43 of the record, which lie outside the
working buffer of 40 bytes: the iteration is a memory fault, the command is
not passed through and the walk does not advance. -/
theorem short_dyld_info_record_faults :
    rdU32 shortDyldInfoBuf (sizeof_mach_header_64 + 0) = some 0x80000022 ∧
    0x80000022 % 256 = LC_DYLD_INFO ∧
    rdU32 shortDyldInfoBuf (sizeof_mach_header_64 + 0 + off_cmdsize) = some 8 ∧
    shortDyldInfoBuf.length = 40 ∧
    fixupStep [] (fixupInit shortDyldInfoBuf ⟨[], 0, []⟩) =
      .error ⟨.memoryFault, ⟨[], 0, []⟩⟩ ∧
    fixupStep [] (fixupInit shortDyldInfoBuf ⟨[], 0, []⟩) ≠
      .ok { fixupInit shortDyldInfoBuf ⟨[], 0, []⟩ with next_cmd := 0 + 8 } ∧
    _fixup_macho_object64 1 [] shortDyldInfoBuf ⟨[], 0, []⟩ =
      some (.error ⟨.memoryFault, ⟨[], 0, []⟩⟩) := by
  set_option maxRecDepth 100000 in
  decide

/-- C16 (amended): a load command that is none of the kinds the pass handles,
or whose kind has the low byte `LC_DYLD_INFO` and whose first 44 bytes (the
fields up to `export_off`, which the trace of the branch loads) lie in the
working buffer, is passed through: the iteration leaves the working buffer, the
output and its position as they are (no call is made) and only advances
`next_cmd` by the `cmdsize` of the command. -/
theorem pass_through_commands (cache : List Nat) (st : FixState) (kind cmdsize : Nat)
    (hkind : rdU32 st.buf (sizeof_mach_header_64 + st.next_cmd) = some kind)
    (hsize : rdU32 st.buf (sizeof_mach_header_64 + st.next_cmd + off_cmdsize) = some cmdsize)
    (hpass : kind % 256 = LC_DYLD_INFO ∨
      (kind ≠ LC_SEGMENT_64 ∧ kind ≠ LC_SYMTAB ∧ kind ≠ LC_DYSYMTAB ∧
        kind ≠ LC_FUNCTION_STARTS ∧ kind ≠ LC_DATA_IN_CODE))
    (hrec : kind % 256 = LC_DYLD_INFO →
      sizeof_mach_header_64 + st.next_cmd + 44 ≤ st.buf.length) :
    fixupStep cache st = .ok { st with next_cmd := st.next_cmd + cmdsize } := by
  have hc : fixCommand cache st (sizeof_mach_header_64 + st.next_cmd) kind = .ok st := by
    unfold fixCommand
    by_cases hd : kind % 256 = LC_DYLD_INFO
    · have hdy := fixDyldInfo_of_le st (sizeof_mach_header_64 + st.next_cmd) (hrec hd)
      simp only [LC_SEGMENT_64, LC_SYMTAB, LC_DYSYMTAB, LC_DYLD_INFO, LC_FUNCTION_STARTS,
        LC_DATA_IN_CODE] at *
      have n1 : kind ≠ 25 := by omega
      have n2 : kind ≠ 2 := by omega
      have n3 : kind ≠ 11 := by omega
      simp [n1, n2, n3, hd, hdy]
    · rcases hpass with h | ⟨h1, h2, h3, h4, h5⟩
      · exact absurd h hd
      · simp [h1, h2, h3, h4, h5, hd]
  unfold fixupStep
  rw [hkind]
  simp only [hc, hsize]

/-- Witness of C16 (amended): a command `LC_DYLD_INFO_ONLY` of 48 bytes, on an
output that holds three bytes and with a schedule whose next call would
fail. -/
theorem pass_through_commands_witness :
    fixupStep [] (fixupInit dyldInfoBuf ⟨[1, 2, 3], 0, [true]⟩) =
      .ok { buf := dyldInfoBuf, sys := ⟨[1, 2, 3], 0, [true]⟩, next_cmd := 48,
            linkedit := none, file_base := 0 } :=
  pass_through_commands [] (fixupInit dyldInfoBuf ⟨[1, 2, 3], 0, [true]⟩) 0x80000022 48
    (by set_option maxRecDepth 100000 in decide)
    (by set_option maxRecDepth 100000 in decide)
    (Or.inl (by decide))
    (fun _ => by set_option maxRecDepth 100000 in decide)

/-! ### The link-edit segment command -/

/-! ### `file_base` is the end of the last segment body written -/

theorem bodiesEnd_append (base : Nat) (a l : List (Nat × Nat)) :
    bodiesEnd base (a ++ l) = bodiesEnd (bodiesEnd base a) l := by
  unfold bodiesEnd
  rw [List.getLast?_append]
  cases l.getLast? with
  | none => simp
  | some p => simp

theorem rdU64_bound {m : List Nat} {off x : Nat} (h : rdU64 m off = some x) :
    off + 8 ≤ m.length := by
  unfold rdU64 at h
  cases hb : rdBytes m off 8 with
  | none => rw [hb] at h; cases h
  | some bs => exact (rdBytes_eq_some hb).1

theorem segmentTrace_bound {buf : List Nat} {cmd : Nat} (h : segmentTrace buf cmd = true) :
    cmd + off_filesize + 8 ≤ buf.length := by
  unfold segmentTrace at h
  simp only [Bool.and_eq_true] at h
  obtain ⟨⟨⟨_, h2⟩, _⟩, _⟩ := h
  cases hr : rdU64 buf (cmd + off_filesize) with
  | none => rw [hr] at h2; cases h2
  | some x => exact rdU64_bound hr

theorem fixSegment_file_base (cache : List Nat) (st st' : FixState) (cmd : Nat)
    (hok : fixSegment cache st cmd = .ok st') :
    (isLinkedit st.buf cmd = some true ∧ st'.file_base = st.file_base) ∨
    (isLinkedit st.buf cmd = some false ∧
      ∃ f, rdU64 st.buf (cmd + off_filesize) = some f ∧ st'.file_base = st.sys.pos + f) := by
  unfold fixSegment at hok
  by_cases htrace : segmentTrace st.buf cmd = true
  swap
  · rw [if_neg htrace] at hok; cases hok
  rw [if_pos htrace] at hok
  cases h1 : rdU64 st.buf (cmd + off_fileoff) with
  | none => rw [h1] at hok; cases hok
  | some cache_off =>
    cases h2 : isLinkedit st.buf cmd with
    | none => rw [h1, h2] at hok; cases hok
    | some le =>
      rw [h1, h2] at hok
      simp only at hok
      cases le with
      | true =>
        simp only [if_true] at hok
        split at hok
        · cases hok
        · split at hok
          · cases hok
          · injection hok with hok; subst hok
            exact Or.inl ⟨rfl, rfl⟩
      | false =>
        simp only [Bool.false_eq_true, if_false] at hok
        split at hok
        · cases hok
        · split at hok
          · cases hok
          · rename_i nsects _ b1 hb1
            obtain ⟨_, hf1, _⟩ := fixSections_spec _ _ _ _ _ _ _ hb1
            rcases lseekCur_cases st.sys with hc | hc
            · rw [hc] at hok; cases hok
            · rw [hc] at hok
              simp only at hok
              split at hok
              · cases hok
              · rename_i filesize hfs
                split at hok
                · cases hok
                · rename_i body _
                  rcases write_cases st.sys.tick body with hw | hw
                  · rw [hw] at hok; cases hok
                  · rw [hw] at hok
                    simp only at hok
                    split at hok
                    · cases hok
                    · injection hok with hok
                      subst hok
                      refine Or.inr ⟨rfl, filesize, ?_, rfl⟩
                      rw [← hfs]
                      exact (rdU64_congr (hf1 _ 8 (Or.inl (by
                        simp only [off_filesize, sizeof_segment_command_64]; omega)))).symm

theorem fixSymtab_file_base (cache : List Nat) (st st' : FixState) (cmd : Nat)
    (hok : fixSymtab cache st cmd = .ok st') : st'.file_base = st.file_base := by
  cases h1 : rdU32 st.buf (cmd + off_symoff) with
  | none => simp [fixSymtab, h1] at hok
  | some symoff =>
    cases h2 : rdU32 st.buf (cmd + off_nsyms) with
    | none => simp [fixSymtab, h1, h2] at hok
    | some nsyms =>
      cases h3 : rdU32 st.buf (cmd + off_stroff) with
      | none => simp [fixSymtab, h1, h2, h3] at hok
      | some stroff =>
        obtain ⟨_, _, _, _, _, _, _, _, _, _, _, _, _, _, _, _, hl⟩ :=
          fixSymtab_spec cache st st' cmd symoff nsyms stroff h1 h2 h3 hok
        exact hl

theorem fixDysymtab_file_base (cache : List Nat) (st st' : FixState) (cmd : Nat)
    (hok : fixDysymtab cache st cmd = .ok st') : st'.file_base = st.file_base := by
  unfold fixDysymtab at hok
  split at hok
  · cases hok
  · split at hok
    · injection hok with hok; subst hok; rfl
    · split at hok
      · cases hok
      · split at hok
        · cases hok
        · split at hok
          · cases hok
          · injection hok with hok
            subst hok
            rfl

theorem fixupStep_file_base (cache : List Nat) (st st' : FixState)
    (hok : fixupStep cache st = .ok st') :
    st'.file_base = bodiesEnd st.file_base
      (if isBodySegment st.buf (sizeof_mach_header_64 + st.next_cmd) then
        [(st.sys.pos,
          (rdU64 st.buf (sizeof_mach_header_64 + st.next_cmd + off_filesize)).getD 0)]
       else []) := by
  unfold fixupStep at hok
  split at hok
  · cases hok
  · rename_i kind hk
    split at hok
    · cases hok
    · rename_i st1 hc
      have h1 : st1.file_base = bodiesEnd st.file_base
          (if isBodySegment st.buf (sizeof_mach_header_64 + st.next_cmd) then
            [(st.sys.pos,
              (rdU64 st.buf (sizeof_mach_header_64 + st.next_cmd + off_filesize)).getD 0)]
           else []) := by
        unfold fixCommand at hc
        by_cases hseg : kind = LC_SEGMENT_64
        · rw [if_pos hseg] at hc
          rcases fixSegment_file_base _ _ _ _ hc with ⟨hle, hfb⟩ | ⟨hle, f, hf, hfb⟩
          · have : isBodySegment st.buf (sizeof_mach_header_64 + st.next_cmd) = false := by
              simp [isBodySegment, hle]
            rw [this, hfb]
            rfl
          · have : isBodySegment st.buf (sizeof_mach_header_64 + st.next_cmd) = true := by
              simp [isBodySegment, hle, hk, hseg]
            rw [this, hfb, hf]
            rfl
        · have hnb : isBodySegment st.buf (sizeof_mach_header_64 + st.next_cmd) = false := by
            simp [isBodySegment, hk, hseg]
          rw [hnb]
          rw [if_neg hseg] at hc
          show st1.file_base = st.file_base
          split at hc
          · exact fixSymtab_file_base _ _ _ _ hc
          · split at hc
            · exact fixDysymtab_file_base _ _ _ _ hc
            · split at hc
              · have hdy := fixDyldInfo_ok hc; subst hdy; rfl
              · split at hc
                · obtain ⟨_, _, _, _, _, _, rfl⟩ := fixLinkeditData_ok hc
                  rfl
                · injection hc with hc; subst hc; rfl
      split at hok
      · cases hok
      · injection hok with hok
        subst hok
        exact h1

theorem walk_file_base (cache : List Nat) :
    ∀ (k : Nat) (st st' : FixState), walkState cache k st = some st' →
      st'.file_base = bodiesEnd st.file_base (segmentBodies cache k st) := by
  intro k
  induction k with
  | zero =>
    intro st st' h
    simp only [walkState] at h
    injection h with h
    subst h
    rfl
  | succ n ih =>
    intro st st' h
    unfold walkState at h
    unfold segmentBodies
    split at h
    · cases h
    · rename_i sz hsz
      by_cases hlt : st.next_cmd < sz
      · rw [if_pos hlt] at h ⊢
        cases hs : fixupStep cache st with
        | error e => rw [hs] at h; cases h
        | ok st1 =>
          rw [hs] at h
          simp only at h ⊢
          rw [bodiesEnd_append, ← fixupStep_file_base cache st st1 hs]
          exact ih st1 st' h
      · rw [if_neg hlt] at h; cases h

theorem walkState_snoc (cache : List Nat) :
    ∀ (k : Nat) (st0 st st' : FixState) (sz : Nat), walkState cache k st0 = some st →
      rdU32 st.buf off_sizeofcmds = some sz → st.next_cmd < sz →
      fixupStep cache st = .ok st' → walkState cache (k + 1) st0 = some st' := by
  intro k
  induction k with
  | zero =>
    intro st0 st st' sz h hsz hlt hs
    simp only [walkState] at h
    injection h with h
    subst h
    simp [walkState, hsz, hlt, hs]
  | succ n ih =>
    intro st0 st st' sz h hsz hlt hs
    unfold walkState at h
    split at h
    · cases h
    · rename_i sz0 hsz0
      split at h
      · rename_i hlt0
        split at h
        · cases h
        · rename_i st1 hs1
          have := ih st1 st st' sz h hsz hlt hs
          rw [walkState, hsz0]
          simp only [if_pos hlt0, hs1]
          exact this
      · cases h

theorem fixSegment_written (cache : List Nat) (st st' : FixState) (cmd : Nat)
    (hnle : isLinkedit st.buf cmd = some false)
    (hok : fixSegment cache st cmd = .ok st') :
    ∃ src f body, rdU64 st.buf (cmd + off_fileoff) = some src ∧
      rdU64 st.buf (cmd + off_filesize) = some f ∧ body.length = f ∧
      (f ≠ 0 → rdBytes cache src f = some body) ∧
      st'.sys.data = fileWrite st.sys.data st.sys.pos body ∧
      st'.sys.pos = st.sys.pos + f := by
  unfold fixSegment at hok
  by_cases htrace : segmentTrace st.buf cmd = true
  swap
  · rw [if_neg htrace] at hok; cases hok
  rw [if_pos htrace] at hok
  cases h1 : rdU64 st.buf (cmd + off_fileoff) with
  | none => rw [h1] at hok; cases hok
  | some cache_off =>
    rw [h1, hnle] at hok
    simp only [Bool.false_eq_true, if_false] at hok
    split at hok
    · cases hok
    · split at hok
      · cases hok
      · rename_i nsects _ b1 hb1
        obtain ⟨_, hf1, _⟩ := fixSections_spec _ _ _ _ _ _ _ hb1
        rcases lseekCur_cases st.sys with hc | hc
        · rw [hc] at hok; cases hok
        · rw [hc] at hok
          simp only at hok
          split at hok
          · cases hok
          · rename_i filesize hfs
            split at hok
            · cases hok
            · rename_i body hbody
              rcases write_cases st.sys.tick body with hw | hw
              · rw [hw] at hok; cases hok
              · rw [hw] at hok
                simp only at hok
                split at hok
                · cases hok
                · injection hok with hok
                  subst hok
                  have hbl := rdBuf_length hbody
                  refine ⟨cache_off, filesize, body, rfl, ?_, hbl,
                    fun hne => rdBuf_of_ne hbody hne, rfl, ?_⟩
                  · rw [← hfs]
                    exact (rdU64_congr (hf1 _ 8 (Or.inl (by
                      simp only [off_filesize, sizeof_segment_command_64]; omega)))).symm
                  · simp only [Sys.tick]
                    rw [hbl]

theorem fixupStep_written (cache : List Nat) (st st' : FixState)
    (hb : isBodySegment st.buf (sizeof_mach_header_64 + st.next_cmd) = true)
    (hok : fixupStep cache st = .ok st') :
    ∃ src f body,
      rdU64 st.buf (sizeof_mach_header_64 + st.next_cmd + off_fileoff) = some src ∧
      rdU64 st.buf (sizeof_mach_header_64 + st.next_cmd + off_filesize) = some f ∧
      body.length = f ∧ (f ≠ 0 → rdBytes cache src f = some body) ∧
      st'.sys.data = fileWrite st.sys.data st.sys.pos body ∧
      st'.sys.pos = st.sys.pos + f := by
  unfold isBodySegment at hb
  simp only [Bool.and_eq_true, beq_iff_eq] at hb
  obtain ⟨hk, hnle⟩ := hb
  unfold fixupStep at hok
  rw [hk] at hok
  simp only [fixCommand, if_true] at hok
  split at hok
  · cases hok
  · rename_i st1 hc
    have h1 := fixSegment_written cache st st1 _ hnle hc
    split at hok
    · cases hok
    · injection hok with hok
      subst hok
      exact h1

theorem walkState_step (cache : List Nat) (k : Nat) (st st1 : FixState) (sz : Nat)
    (hsz : rdU32 st.buf off_sizeofcmds = some sz) (hlt : st.next_cmd < sz)
    (hs : fixupStep cache st = .ok st1) :
    walkState cache (k + 1) st = walkState cache k st1 := by
  simp [walkState, hsz, hlt, hs]

theorem segmentBodies_written (cache : List Nat) :
    ∀ (k : Nat) (st : FixState) (p : Nat × Nat), p ∈ segmentBodies cache k st →
      ∃ j stj stj' src body, j < k ∧ walkState cache j st = some stj ∧
        fixupStep cache stj = .ok stj' ∧
        isBodySegment stj.buf (sizeof_mach_header_64 + stj.next_cmd) = true ∧
        rdU64 stj.buf (sizeof_mach_header_64 + stj.next_cmd + off_fileoff) = some src ∧
        rdU64 stj.buf (sizeof_mach_header_64 + stj.next_cmd + off_filesize) = some p.2 ∧
        p.1 = stj.sys.pos ∧ body.length = p.2 ∧
        (p.2 ≠ 0 → rdBytes cache src p.2 = some body) ∧
        stj'.sys.data = fileWrite stj.sys.data p.1 body ∧
        stj'.sys.pos = p.1 + p.2 := by
  intro k
  induction k with
  | zero =>
    intro st p hp
    simp [segmentBodies] at hp
  | succ n ih =>
    intro st p hp
    unfold segmentBodies at hp
    cases hsz : rdU32 st.buf off_sizeofcmds with
    | none => rw [hsz] at hp; simp at hp
    | some sz =>
      rw [hsz] at hp
      simp only at hp
      by_cases hlt : st.next_cmd < sz
      · rw [if_pos hlt] at hp
        cases hs : fixupStep cache st with
        | error e => rw [hs] at hp; simp at hp
        | ok st1 =>
          rw [hs] at hp
          simp only at hp
          rw [List.mem_append] at hp
          rcases hp with hp | hp
          · by_cases hb : isBodySegment st.buf (sizeof_mach_header_64 + st.next_cmd) = true
            · rw [if_pos hb] at hp
              simp only [List.mem_singleton] at hp
              obtain ⟨src, f, body, h1, h2, h3, h4, h5, h6⟩ := fixupStep_written cache st st1 hb hs
              subst hp
              simp only [h2, Option.getD_some]
              exact ⟨0, st, st1, src, body, Nat.succ_pos _, rfl, hs, hb, h1, h2, rfl, h3, h4,
                h5, h6⟩
            · rw [if_neg hb] at hp
              simp at hp
          · obtain ⟨j, stj, stj', src, body, hj, hw, hrest⟩ := ih st1 p hp
            refine ⟨j + 1, stj, stj', src, body, by omega, ?_, hrest⟩
            rw [walkState_step cache j st st1 sz hsz hlt hs]
            exact hw
      · rw [if_neg hlt] at hp
        simp at hp

/-- C12 (amended): let the pass, started on the buffer `buf` and the output
`s`, reach after `k` iterations a state `st` whose next command is the
link-edit segment command, with the fields that the trace of the branch loads
inside the buffer.  Then `file_base` is the output offset just after the last
segment body that these `k` iterations wrote (0 when they wrote none): every
entry `(o, l)` of `segmentBodies` is the write, by one of these iterations on a
segment command other than the link-edit one, of the `l = filesize` cache
bytes from `fileoff` at the output offset `o`, which leaves the output
position at `o + l`.  The iteration on the link-edit command sets `fileoff`
to `file_base` and `filesize` to 0, leaves every other byte of the working
buffer (the sections included), the output, its position and the schedule of
calls as they are (no call is made), remembers the command in `linkedit` and
advances by its `cmdsize`. -/
theorem linkedit_segment_special_case (cache buf : List Nat) (s : Sys) (k : Nat)
    (st : FixState) (sz : Nat)
    (hreach : walkState cache k (fixupInit buf s) = some st)
    (hsz : rdU32 st.buf off_sizeofcmds = some sz) (hlt : st.next_cmd < sz)
    (hkind : rdU32 st.buf (sizeof_mach_header_64 + st.next_cmd) = some LC_SEGMENT_64)
    (hle : isLinkedit st.buf (sizeof_mach_header_64 + st.next_cmd) = some true)
    (htrace : segmentTrace st.buf (sizeof_mach_header_64 + st.next_cmd) = true)
    (hfb : st.file_base < 2 ^ 64) :
    st.file_base = bodiesEnd 0 (segmentBodies cache k (fixupInit buf s)) ∧
    (∀ p ∈ segmentBodies cache k (fixupInit buf s),
      ∃ j stj stj' src body, j < k ∧ walkState cache j (fixupInit buf s) = some stj ∧
        fixupStep cache stj = .ok stj' ∧
        isBodySegment stj.buf (sizeof_mach_header_64 + stj.next_cmd) = true ∧
        rdU64 stj.buf (sizeof_mach_header_64 + stj.next_cmd + off_fileoff) = some src ∧
        rdU64 stj.buf (sizeof_mach_header_64 + stj.next_cmd + off_filesize) = some p.2 ∧
        p.1 = stj.sys.pos ∧ body.length = p.2 ∧
        (p.2 ≠ 0 → rdBytes cache src p.2 = some body) ∧
        stj'.sys.data = fileWrite stj.sys.data p.1 body ∧
        stj'.sys.pos = p.1 + p.2) ∧
    ∃ b' c,
      rdU32 st.buf (sizeof_mach_header_64 + st.next_cmd + off_cmdsize) = some c ∧
      fixupStep cache st =
        .ok { st with buf := b', linkedit := some (sizeof_mach_header_64 + st.next_cmd),
                      next_cmd := st.next_cmd + c } ∧
      walkState cache (k + 1) (fixupInit buf s) =
        some { st with buf := b', linkedit := some (sizeof_mach_header_64 + st.next_cmd),
                       next_cmd := st.next_cmd + c } ∧
      rdU64 b' (sizeof_mach_header_64 + st.next_cmd + off_fileoff) = some st.file_base ∧
      rdU64 b' (sizeof_mach_header_64 + st.next_cmd + off_filesize) = some 0 ∧
      b'.length = st.buf.length ∧
      (∀ o l, (o + l ≤ sizeof_mach_header_64 + st.next_cmd + off_fileoff ∨
          sizeof_mach_header_64 + st.next_cmd + off_filesize + 8 ≤ o) →
        rdBytes b' o l = rdBytes st.buf o l) := by
  refine ⟨walk_file_base cache k (fixupInit buf s) st hreach,
    segmentBodies_written cache k (fixupInit buf s), ?_⟩
  have hlen := segmentTrace_bound htrace
  generalize hcmd : sizeof_mach_header_64 + st.next_cmd = cmd at *
  simp only [off_filesize, off_fileoff, off_cmdsize] at *
  have hr : ∃ x, rdU64 st.buf (cmd + 40) = some x := by
    unfold rdU64
    rw [rdBytes_of_le (by omega)]
    exact ⟨_, rfl⟩
  obtain ⟨x, hx⟩ := hr
  have hrc : ∃ c, rdU32 st.buf (cmd + 4) = some c := by
    unfold rdU32
    rw [rdBytes_of_le (by omega)]
    exact ⟨_, rfl⟩
  obtain ⟨c, hc⟩ := hrc
  have hw1 : ∃ b1, wrU64 st.buf (cmd + 40) st.file_base = some b1 := by
    unfold wrU64 wrBytes
    rw [if_pos (by rw [length_leBytes]; omega)]
    exact ⟨_, rfl⟩
  obtain ⟨b1, hb1⟩ := hw1
  have hl1 := wrU64_length hb1
  have hw2 : ∃ b2, wrU64 b1 (cmd + 48) 0 = some b2 := by
    unfold wrU64 wrBytes
    rw [if_pos (by rw [length_leBytes]; omega)]
    exact ⟨_, rfl⟩
  obtain ⟨b2, hb2⟩ := hw2
  have hseg : fixSegment cache st cmd = .ok { st with buf := b2, linkedit := some cmd } := by
    unfold fixSegment
    rw [if_pos htrace]
    simp only [off_filesize, off_fileoff, hx, hle, hb1, hb2, if_true]
  have hc2 : rdU32 b2 (cmd + 4) = some c := by
    rw [rdU32_congr (rdBytes_wrU64_other hb2 _ 4 (by omega)),
      rdU32_congr (rdBytes_wrU64_other hb1 _ 4 (by omega))]
    exact hc
  have hstep : fixupStep cache st =
      .ok { st with buf := b2, linkedit := some cmd, next_cmd := st.next_cmd + c } := by
    unfold fixupStep
    rw [hcmd, hkind]
    simp only [fixCommand, if_true, hseg, off_cmdsize, hc2]
  refine ⟨b2, c, hc, hstep, ?_, ?_, ?_, ?_, ?_⟩
  · exact walkState_snoc cache k _ st _ sz hreach hsz hlt hstep
  · rw [rdU64_congr (rdBytes_wrU64_other hb2 _ 8 (by omega)), rdU64_wrU64_same hb1,
      Nat.mod_eq_of_lt hfb]
  · rw [rdU64_wrU64_same hb2]
    rfl
  · rw [wrU64_length hb2, hl1]
  · intro o l hol
    rw [rdBytes_wrU64_other hb2 o l (by omega), rdBytes_wrU64_other hb1 o l (by omega)]

/-- Witness of C12 (amended): on image `t` of `tinyCache` the first iteration
writes the 200 bytes of `__TEXT` at offset 0 and the second one finds the
link-edit command: `fileoff` becomes 200 and `filesize` 0. -/
theorem linkedit_segment_special_case_witness :
    walkState tinyCache 1 (fixupInit (tinyImage.take 176) ⟨[], 0, []⟩) = some tinyAtLinkedit ∧
    segmentBodies tinyCache 1 (fixupInit (tinyImage.take 176) ⟨[], 0, []⟩) = [(0, 200)] ∧
    tinyAtLinkedit.file_base =
      bodiesEnd 0 (segmentBodies tinyCache 1 (fixupInit (tinyImage.take 176) ⟨[], 0, []⟩)) ∧
    ∃ b' c,
      rdU32 tinyAtLinkedit.buf (sizeof_mach_header_64 + tinyAtLinkedit.next_cmd + off_cmdsize)
        = some c ∧
      fixupStep tinyCache tinyAtLinkedit =
        .ok { tinyAtLinkedit with
              buf := b',
              linkedit := some (sizeof_mach_header_64 + tinyAtLinkedit.next_cmd),
              next_cmd := tinyAtLinkedit.next_cmd + c } ∧
      walkState tinyCache (1 + 1) (fixupInit (tinyImage.take 176) ⟨[], 0, []⟩) =
        some { tinyAtLinkedit with
               buf := b',
               linkedit := some (sizeof_mach_header_64 + tinyAtLinkedit.next_cmd),
               next_cmd := tinyAtLinkedit.next_cmd + c } ∧
      rdU64 b' (sizeof_mach_header_64 + tinyAtLinkedit.next_cmd + off_fileoff)
        = some tinyAtLinkedit.file_base ∧
      rdU64 b' (sizeof_mach_header_64 + tinyAtLinkedit.next_cmd + off_filesize) = some 0 ∧
      b'.length = tinyAtLinkedit.buf.length ∧
      (∀ o l, (o + l ≤ sizeof_mach_header_64 + tinyAtLinkedit.next_cmd + off_fileoff ∨
          sizeof_mach_header_64 + tinyAtLinkedit.next_cmd + off_filesize + 8 ≤ o) →
        rdBytes b' o l = rdBytes tinyAtLinkedit.buf o l) := by
  set_option maxRecDepth 1000000 in
  exact ⟨by decide, by decide,
    (linkedit_segment_special_case tinyCache (tinyImage.take 176) ⟨[], 0, []⟩ 1
      tinyAtLinkedit 144 (by decide) (by decide) (by decide) (by decide) (by decide)
      (by decide) (by decide)).1,
    (linkedit_segment_special_case tinyCache (tinyImage.take 176) ⟨[], 0, []⟩ 1
      tinyAtLinkedit 144 (by decide) (by decide) (by decide) (by decide) (by decide)
      (by decide) (by decide)).2.2⟩

/-- Counterexample to C12 as stated: the symbol table command of
`symThenLinkeditBuf` appends 42 bytes to the empty output; when the walk then
reaches the link-edit segment command the end of the output is 42, but
`fileoff` is set to `file_base`, which is still 0. -/
theorem linkedit_fileoff_is_not_end_of_output :
    fixupStep fooBarCache (fixupInit symThenLinkeditBuf ⟨[], 0, []⟩) =
      .ok { buf := machHeader 2 96 ++ symtabCommand 10 2 0 10 ++
              segmentCommand (ascii "__LINKEDIT") 0 43 0,
            sys := ⟨ascii "_foo" ++ [0] ++ ascii "_bar" ++ [0] ++
                    (nlistRecord 0 ++ nlistRecord 5), 42, []⟩,
            next_cmd := 24, linkedit := none, file_base := 0 } ∧
    fixupStep fooBarCache
        { buf := machHeader 2 96 ++ symtabCommand 10 2 0 10 ++
            segmentCommand (ascii "__LINKEDIT") 0 43 0,
          sys := ⟨ascii "_foo" ++ [0] ++ ascii "_bar" ++ [0] ++
                  (nlistRecord 0 ++ nlistRecord 5), 42, []⟩,
          next_cmd := 24, linkedit := none, file_base := 0 } =
      .ok { buf := machHeader 2 96 ++ symtabCommand 10 2 0 10 ++
              segmentCommand (ascii "__LINKEDIT") 0 0 0,
            sys := ⟨ascii "_foo" ++ [0] ++ ascii "_bar" ++ [0] ++
                    (nlistRecord 0 ++ nlistRecord 5), 42, []⟩,
            next_cmd := 96, linkedit := some 56, file_base := 0 } ∧
    (ascii "_foo" ++ [0] ++ ascii "_bar" ++ [0] ++ (nlistRecord 0 ++ nlistRecord 5)).length
      = 42 ∧
    rdU64 (machHeader 2 96 ++ symtabCommand 10 2 0 10 ++
        segmentCommand (ascii "__LINKEDIT") 0 0 0) (56 + off_fileoff) = some 0 ∧
    (0 : Nat) ≠ 42 := by
  set_option maxRecDepth 100000 in
  decide

/-! ### The mapping chosen when no mapping starts below the image -/

theorem selectMapping_last (addr : Nat → Option Nat) (target : Nat) :
    ∀ n i cur, (∀ j, i ≤ j → j < i + n → ∃ a, addr j = some a ∧ ¬ a < target) →
      selectMapping addr target n i cur = some (if n = 0 then cur else some (i + n - 1)) := by
  intro n
  induction n with
  | zero => intro i cur _; simp [selectMapping]
  | succ n ih =>
    intro i cur h
    obtain ⟨a, ha, hna⟩ := h i (le_refl _) (by omega)
    simp only [selectMapping, ha, hna, if_false]
    rw [ih (i + 1) (some i) (fun j hj1 hj2 => h j (by omega) (by omega))]
    by_cases hn : n = 0
    · subst hn; simp
    · simp only [hn, if_false, Nat.succ_ne_zero]
      congr 2
      omega

theorem selectMapping_congr (f g : Nat → Option Nat) (target : Nat) :
    ∀ n i cur, (∀ j, j < i + n → f j = g j) →
      selectMapping f target n i cur = selectMapping g target n i cur := by
  intro n
  induction n with
  | zero => intro i cur _; simp [selectMapping]
  | succ n ih =>
    intro i cur h
    simp only [selectMapping, h i (by omega)]
    cases g i with
    | none => rfl
    | some a =>
      simp only
      split
      · rfl
      · exact ih (i + 1) (some i) (fun j hj => h j (by omega))

theorem selectMapping_range (addr : Nat → Option Nat) (target : Nat) :
    ∀ n i cur m, selectMapping addr target n i cur = some (some m) →
      cur = some m ∨ m < i + n := by
  intro n
  induction n with
  | zero =>
    intro i cur m h
    simp only [selectMapping] at h
    injection h with h
    exact Or.inl h
  | succ n ih =>
    intro i cur m h
    simp only [selectMapping] at h
    cases ha : addr i with
    | none => rw [ha] at h; cases h
    | some a =>
      rw [ha] at h
      simp only at h
      split at h
      · injection h with h
        injection h with h
        exact Or.inr (by omega)
      · rcases ih (i + 1) (some i) m h with h1 | h1
        · injection h1 with h1
          exact Or.inr (by omega)
        · exact Or.inr (by omega)

theorem scanImages_range (f : Nat → Option Bool) :
    ∀ n i k next, scanImages f n i none = some (some k, next) → k < i + n := by
  intro n
  induction n with
  | zero => intro i k next h; simp [scanImages] at h
  | succ n ih =>
    intro i k next h
    simp only [scanImages] at h
    cases hf : f i with
    | none => rw [hf] at h; cases h
    | some b =>
      rw [hf] at h
      cases b with
      | false =>
        simp only at h
        have := ih (i + 1) k next h
        omega
      | true =>
        simp only at h
        rw [scanImages_some] at h
        injection h with h
        injection h with h1 _
        injection h1 with h1
        omega

theorem locateHeader_congr (hdr : dyld_cache_header) (cache cache' image_name : List Nat)
    (hdir : ∀ i, i < hdr.imagesCount →
      isTargetImage hdr cache' image_name i = isTargetImage hdr cache image_name i ∧
      imageAddress hdr cache' i = imageAddress hdr cache i)
    (hmap : ∀ j, j < hdr.mappingCount → mappingAddress hdr cache' j = mappingAddress hdr cache j) :
    locateHeader hdr cache' image_name = locateHeader hdr cache image_name := by
  have hscan := scanImages_congr (isTargetImage hdr cache' image_name)
    (isTargetImage hdr cache image_name) hdr.imagesCount 0 none
    (fun j hj => (hdir j (by omega)).1)
  unfold locateHeader
  rw [hscan]
  cases hs : scanImages (isTargetImage hdr cache image_name) hdr.imagesCount 0 none with
  | none => rfl
  | some r =>
    obtain ⟨found, next⟩ := r
    cases found with
    | none => rfl
    | some k =>
      have hk := scanImages_range _ _ _ _ _ hs
      simp only
      rw [(hdir k (by omega)).2]
      cases ha : imageAddress hdr cache k with
      | none => rfl
      | some address =>
        simp only
        have hsel := selectMapping_congr (mappingAddress hdr cache') (mappingAddress hdr cache)
          address hdr.mappingCount 0 none (fun j hj => hmap j (by omega))
        rw [hsel]
        cases hm : selectMapping (mappingAddress hdr cache) address hdr.mappingCount 0 none with
        | none => rfl
        | some r =>
          cases r with
          | none => rfl
          | some m =>
            simp only
            rcases selectMapping_range _ _ _ _ _ _ hm with h1 | h1
            · cases h1
            · rw [hmap m (by omega)]

/-- C20: when the mapping table is not empty and no entry has an address
strictly below the address of the target image, the locator selects the last
entry of the table and resolves `file_offset = (address of the image - address
of that mapping) mod 2^64`; and in every case the result of the locator is the
same for two caches whose directory entries and mapping addresses agree,
whatever the sizes and file offsets of the mappings are. -/
theorem locateHeader_fallback_last_mapping (hdr : dyld_cache_header)
    (cache image_name : List Nat) (k : Nat) (next : Option Nat) (target va : Nat)
    (hscan : scanImages (isTargetImage hdr cache image_name) hdr.imagesCount 0 none
      = some (some k, next))
    (haddr : imageAddress hdr cache k = some target)
    (hne : 0 < hdr.mappingCount)
    (hall : ∀ j, j < hdr.mappingCount → ∃ a, mappingAddress hdr cache j = some a ∧ ¬ a < target)
    (hva : mappingAddress hdr cache (hdr.mappingCount - 1) = some va) :
    locateHeader hdr cache image_name =
      .ok { image_info := k, next_image_info := next, image_mapping := hdr.mappingCount - 1,
            address := target, file_offset := (target + 2 ^ 64 - va) % 2 ^ 64 } ∧
    (∀ cache' : List Nat,
      (∀ i, i < hdr.imagesCount →
        isTargetImage hdr cache' image_name i = isTargetImage hdr cache image_name i ∧
        imageAddress hdr cache' i = imageAddress hdr cache i) →
      (∀ j, j < hdr.mappingCount →
        mappingAddress hdr cache' j = mappingAddress hdr cache j) →
      locateHeader hdr cache' image_name = locateHeader hdr cache image_name) := by
  constructor
  · have hsel := selectMapping_last (mappingAddress hdr cache) target hdr.mappingCount 0 none
      (fun j _ hj => hall j (by omega))
    have hn0 : hdr.mappingCount ≠ 0 := by omega
    rw [if_neg hn0, Nat.zero_add] at hsel
    simp only [locateHeader, hscan, haddr, hsel, hva]
  · intro cache' hdir hmap
    exact locateHeader_congr hdr cache cache' image_name hdir hmap

/-- Witness of C20: image `a` of `boundaryCache` is at the address `0x1000` at
which the first mapping starts; the locator takes the third mapping, at
`0x6000`, and resolves `(0x1000 - 0x6000) mod 2^64`, for the sizes and file
offsets of the scenario as for zero sizes and file offsets. -/
theorem locateHeader_fallback_last_mapping_witness :
    locateHeader boundaryHdr (boundaryCache 0x2000 0x3000) (ascii "a") =
      .ok { image_info := 0, next_image_info := some 1, image_mapping := 2,
            address := 0x1000, file_offset := 2 ^ 64 - 0x5000 } ∧
    locateHeader boundaryHdr (boundaryCache 0 0) (ascii "a") =
      locateHeader boundaryHdr (boundaryCache 0x2000 0x3000) (ascii "a") :=
  have h := locateHeader_fallback_last_mapping boundaryHdr (boundaryCache 0x2000 0x3000)
    (ascii "a") 0 (some 1) 0x1000 0x6000
    (by set_option maxRecDepth 100000 in decide)
    (by set_option maxRecDepth 100000 in decide)
    (by decide)
    (fun j hj => by
      have hj3 : j < 3 := hj
      interval_cases j
      · exact ⟨0x1000, by set_option maxRecDepth 100000 in decide, by decide⟩
      · exact ⟨0x4000, by set_option maxRecDepth 100000 in decide, by decide⟩
      · exact ⟨0x6000, by set_option maxRecDepth 100000 in decide, by decide⟩)
    (by set_option maxRecDepth 100000 in decide)
  ⟨h.1, h.2 (boundaryCache 0 0)
    (fun i hi => by
      have hi2 : i < 2 := hi
      interval_cases i
      · exact ⟨by set_option maxRecDepth 100000 in decide,
          by set_option maxRecDepth 100000 in decide⟩
      · exact ⟨by set_option maxRecDepth 100000 in decide,
          by set_option maxRecDepth 100000 in decide⟩)
    (fun j hj => by
      have hj3 : j < 3 := hj
      interval_cases j
      · set_option maxRecDepth 100000 in decide
      · set_option maxRecDepth 100000 in decide
      · set_option maxRecDepth 100000 in decide)⟩

/-! ### The dynamic symbol table and the link-edit data commands -/

theorem wrU32_of_rdU32 {m : List Nat} {off v : Nat} (w : Nat) (h : rdU32 m off = some v) :
    ∃ m', wrU32 m off w = some m' := by
  unfold rdU32 at h
  cases hb : rdBytes m off 4 with
  | none => rw [hb] at h; cases h
  | some bs =>
    have hle := (rdBytes_eq_some hb).1
    unfold wrU32 wrBytes
    rw [if_pos (by rw [length_leBytes]; exact hle)]
    exact ⟨_, rfl⟩

theorem append_err_none {s : Sys} {m : List Nat} {off len : Nat}
    (h : (_append_to_file s m off len).err = none) :
    _append_to_file s m off len =
      ⟨none, (_append_to_file s m off len).poffset, (_append_to_file s m off len).sys⟩ := by
  cases ha : _append_to_file s m off len with
  | mk err p s1 =>
    rw [ha] at h
    simp only at h
    rw [h]

/-- C13 (amended): on a dynamic symbol table command whose indirect symbol
table offset is zero the branch changes nothing.  When the offset is not zero
and the append succeeds, exactly `nindirectsyms * 4` bytes, the cache bytes from
that offset, are appended to the output, the field is rewritten to the offset
where they landed, as a 32-bit value, and every other byte of the working
buffer is unchanged. -/
theorem dysymtab_relocation (cache : List Nat) (st : FixState) (cmd off n : Nat)
    (hoff : rdU32 st.buf (cmd + off_indirectsymoff) = some off)
    (hn : rdU32 st.buf (cmd + off_nindirectsyms) = some n)
    (happ : off ≠ 0 → (_append_to_file st.sys cache off (n * 4)).err = none) :
    ∃ st', fixDysymtab cache st cmd = .ok st' ∧
      (off = 0 → st' = st) ∧
      (off ≠ 0 → ∃ bytes, bytes.length = n * 4 ∧
        (n * 4 ≠ 0 → rdBytes cache off (n * 4) = some bytes) ∧
        st'.sys.data = st.sys.data ++ bytes ∧
        rdU32 st'.buf (cmd + off_indirectsymoff) = some (st.sys.data.length % 2 ^ 32) ∧
        st'.buf.length = st.buf.length ∧
        (∀ o l, (o + l ≤ cmd + off_indirectsymoff ∨ cmd + off_indirectsymoff + 4 ≤ o) →
          rdBytes st'.buf o l = rdBytes st.buf o l)) := by
  by_cases h0 : off = 0
  · refine ⟨st, ?_, fun _ => rfl, fun h => absurd h0 h⟩
    unfold fixDysymtab
    rw [hoff]
    simp only [h0, if_true]
  · have ha := append_err_none (happ h0)
    obtain ⟨hp, bytes, hbl, hbs, hd, _⟩ := append_ok ha
    obtain ⟨b1, hb1⟩ := wrU32_of_rdU32 (_append_to_file st.sys cache off (n * 4)).poffset hoff
    refine ⟨{ st with buf := b1, sys := (_append_to_file st.sys cache off (n * 4)).sys }, ?_,
      fun h => absurd h h0, fun _ => ⟨bytes, hbl, hbs, hd, ?_, wrU32_length hb1, ?_⟩⟩
    · unfold fixDysymtab
      rw [hoff]
      simp only [h0, if_false, hn]
      rw [ha]
      simp only [hb1]
    · simp only
      rw [rdU32_wrU32_same hb1, hp]
    · intro o l hol
      exact rdBytes_wrU32_other hb1 o l (by omega)

/-- Witness of C13 (amended): the indirect symbol table of `indirectBuf`, four
bytes, is appended to an output of three bytes and the field becomes 3. -/
theorem dysymtab_relocation_witness :
    ∃ st', fixDysymtab indirectCache (fixupInit indirectBuf ⟨[9, 9, 9], 0, []⟩) 32 = .ok st' ∧
      ((4 : Nat) = 0 → st' = fixupInit indirectBuf ⟨[9, 9, 9], 0, []⟩) ∧
      ((4 : Nat) ≠ 0 → ∃ bytes, bytes.length = 1 * 4 ∧
        (1 * 4 ≠ 0 → rdBytes indirectCache 4 (1 * 4) = some bytes) ∧
        st'.sys.data = [9, 9, 9] ++ bytes ∧
        rdU32 st'.buf (32 + off_indirectsymoff) = some (([9, 9, 9] : List Nat).length % 2 ^ 32) ∧
        st'.buf.length = indirectBuf.length ∧
        (∀ o l, (o + l ≤ 32 + off_indirectsymoff ∨ 32 + off_indirectsymoff + 4 ≤ o) →
          rdBytes st'.buf o l = rdBytes indirectBuf o l)) :=
  dysymtab_relocation indirectCache (fixupInit indirectBuf ⟨[9, 9, 9], 0, []⟩) 32 4 1
    (by set_option maxRecDepth 100000 in decide)
    (by set_option maxRecDepth 100000 in decide)
    (fun _ => by set_option maxRecDepth 100000 in decide)

set_option maxRecDepth 100000 in
theorem indirect_on_large_output (D : List Nat) (hD : D.length = 2 ^ 32) :
    fixDysymtab indirectCache (fixupInit indirectBuf ⟨D, 0, []⟩) 32 =
      .ok { buf := machHeader 1 80 ++ dysymtabCommand 0 1,
            sys := ⟨D ++ [5, 6, 7, 8], 2 ^ 32 + 4, []⟩,
            next_cmd := 0, linkedit := none, file_base := 0 } := by
  have h1 : rdU32 indirectBuf (32 + off_indirectsymoff) = some 4 := by decide
  have h2 : rdU32 indirectBuf (32 + off_nindirectsyms) = some 1 := by decide
  have h3 : rdBytes indirectCache 4 (1 * 4) = some [5, 6, 7, 8] := by decide
  have h4 : wrU32 indirectBuf (32 + off_indirectsymoff) (2 ^ 32) =
      some (machHeader 1 80 ++ dysymtabCommand 0 1) := by decide
  have ha := append_at_end D 0 indirectCache 4 (1 * 4) _ (by decide) h3
  unfold fixDysymtab
  simp only [fixupInit]
  rw [h1]
  simp only [h2, ha, hD, h4]
  rfl

/-- Counterexample to C13 as stated: the output path holds `2^32` zero bytes
when the pass starts.  The four bytes of the indirect symbol table land at
offset `2^32`, and the field is rewritten to `2^32 mod 2^32 = 0`. -/
theorem indirectsymoff_wraps_past_4GiB :
    fixDysymtab indirectCache (fixupInit indirectBuf ⟨List.replicate (2 ^ 32) 0, 0, []⟩) 32 =
      .ok { buf := machHeader 1 80 ++ dysymtabCommand 0 1,
            sys := ⟨List.replicate (2 ^ 32) 0 ++ [5, 6, 7, 8], 2 ^ 32 + 4, []⟩,
            next_cmd := 0, linkedit := none, file_base := 0 } ∧
    (List.replicate (2 ^ 32) (0 : Nat)).length = 2 ^ 32 ∧
    rdBytes (List.replicate (2 ^ 32) 0 ++ [5, 6, 7, 8])
      ((List.replicate (2 ^ 32) (0 : Nat)).length + 0) 4 = some [5, 6, 7, 8] ∧
    rdU32 (machHeader 1 80 ++ dysymtabCommand 0 1) (32 + off_indirectsymoff) = some 0 ∧
    (0 : Nat) ≠ 2 ^ 32 := by
  have hlen : (List.replicate (2 ^ 32) (0 : Nat)).length = 2 ^ 32 := List.length_replicate _ _
  refine ⟨indirect_on_large_output _ hlen, hlen, ?_, by decide, by decide⟩
  rw [rdBytes_append_right]
  decide

/-- C14 (amended): on a function-starts or data-in-code command whose append
succeeds, the branch succeeds, exactly `datasize` bytes, the cache bytes
`[dataoff, dataoff + datasize)`, are appended to the output, `dataoff` is
rewritten to the length the output had before the append, as a 32-bit value
(also when `datasize` is 0), and `datasize` is unchanged. -/
theorem linkedit_data_relocation (cache : List Nat) (st : FixState)
    (cmd dataoff datasize : Nat)
    (hoff : rdU32 st.buf (cmd + off_dataoff) = some dataoff)
    (hsize : rdU32 st.buf (cmd + off_datasize) = some datasize)
    (happ : (_append_to_file st.sys cache dataoff datasize).err = none) :
    ∃ st' bytes, fixLinkeditData cache st cmd = .ok st' ∧
      bytes.length = datasize ∧
      (datasize ≠ 0 → rdBytes cache dataoff datasize = some bytes) ∧
      st'.sys.data = st.sys.data ++ bytes ∧
      rdU32 st'.buf (cmd + off_dataoff) = some (st.sys.data.length % 2 ^ 32) ∧
      rdU32 st'.buf (cmd + off_datasize) = some datasize := by
  have ha := append_err_none happ
  obtain ⟨hp, bytes, hbl, hbs, hd, _⟩ := append_ok ha
  obtain ⟨b1, hb1⟩ := wrU32_of_rdU32 (_append_to_file st.sys cache dataoff datasize).poffset hoff
  refine ⟨{ st with buf := b1, sys := (_append_to_file st.sys cache dataoff datasize).sys },
    bytes, ?_, hbl, hbs, hd, ?_, ?_⟩
  · unfold fixLinkeditData
    rw [hoff, hsize]
    simp only [hb1]
  · simp only
    rw [rdU32_wrU32_same hb1, hp]
  · simp only [off_dataoff, off_datasize] at *
    rw [rdU32_congr (rdBytes_wrU32_other hb1 _ 4 (by omega))]
    exact hsize

/-- Witness of C14 (amended): the four data bytes of `blobBuf` are appended to
an output of three bytes and `dataoff` becomes 3. -/
theorem linkedit_data_relocation_witness :
    ∃ st' bytes, fixLinkeditData indirectCache (fixupInit blobBuf ⟨[9, 9, 9], 0, []⟩) 32
        = .ok st' ∧
      bytes.length = 4 ∧
      ((4 : Nat) ≠ 0 → rdBytes indirectCache 4 4 = some bytes) ∧
      st'.sys.data = [9, 9, 9] ++ bytes ∧
      rdU32 st'.buf (32 + off_dataoff) = some (([9, 9, 9] : List Nat).length % 2 ^ 32) ∧
      rdU32 st'.buf (32 + off_datasize) = some 4 :=
  linkedit_data_relocation indirectCache (fixupInit blobBuf ⟨[9, 9, 9], 0, []⟩) 32 4 4
    (by set_option maxRecDepth 100000 in decide)
    (by set_option maxRecDepth 100000 in decide)
    (by set_option maxRecDepth 100000 in decide)

set_option maxRecDepth 100000 in
theorem blob_on_large_output (D : List Nat) (hD : D.length = 2 ^ 32) :
    fixLinkeditData indirectCache (fixupInit blobBuf ⟨D, 0, []⟩) 32 =
      .ok { buf := machHeader 1 16 ++ linkeditDataCommand LC_FUNCTION_STARTS 0 4,
            sys := ⟨D ++ [5, 6, 7, 8], 2 ^ 32 + 4, []⟩,
            next_cmd := 0, linkedit := none, file_base := 0 } := by
  have h1 : rdU32 blobBuf (32 + off_dataoff) = some 4 := by decide
  have h2 : rdU32 blobBuf (32 + off_datasize) = some 4 := by decide
  have h3 : rdBytes indirectCache 4 4 = some [5, 6, 7, 8] := by decide
  have h4 : wrU32 blobBuf (32 + off_dataoff) (2 ^ 32) =
      some (machHeader 1 16 ++ linkeditDataCommand LC_FUNCTION_STARTS 0 4) := by decide
  have ha := append_at_end D 0 indirectCache 4 4 _ (by decide) h3
  unfold fixLinkeditData
  simp only [fixupInit]
  rw [h1, h2]
  simp only [ha, hD, h4]
  rfl

/-- Counterexample to C14 as stated: the output path holds `2^32` zero bytes
when the pass starts.  The append succeeds, the four data bytes land at offset
`2^32`, the length of the output before the append, and `dataoff` is rewritten
to `2^32 mod 2^32 = 0`. -/
theorem dataoff_wraps_past_4GiB :
    (_append_to_file ⟨List.replicate (2 ^ 32) 0, 0, []⟩ indirectCache 4 4).err = none ∧
    fixLinkeditData indirectCache (fixupInit blobBuf ⟨List.replicate (2 ^ 32) 0, 0, []⟩) 32 =
      .ok { buf := machHeader 1 16 ++ linkeditDataCommand LC_FUNCTION_STARTS 0 4,
            sys := ⟨List.replicate (2 ^ 32) 0 ++ [5, 6, 7, 8], 2 ^ 32 + 4, []⟩,
            next_cmd := 0, linkedit := none, file_base := 0 } ∧
    (List.replicate (2 ^ 32) (0 : Nat)).length = 2 ^ 32 ∧
    rdBytes (List.replicate (2 ^ 32) 0 ++ [5, 6, 7, 8])
      ((List.replicate (2 ^ 32) (0 : Nat)).length + 0) 4 = some [5, 6, 7, 8] ∧
    rdU32 (machHeader 1 16 ++ linkeditDataCommand LC_FUNCTION_STARTS 0 4) (32 + off_dataoff)
      = some 0 ∧
    (0 : Nat) ≠ 2 ^ 32 := by
  have hlen : (List.replicate (2 ^ 32) (0 : Nat)).length = 2 ^ 32 := List.length_replicate _ _
  refine ⟨?_, blob_on_large_output _ hlen, hlen, ?_, by decide, by decide⟩
  · rw [append_at_end _ 0 indirectCache 4 4 [5, 6, 7, 8] (by decide) (by decide)]
  · rw [rdBytes_append_right]
    decide

/-! ### The fields of the rewritten symbol table command -/

/-- C15 (amended): when the symbol table branch succeeds from a state whose
output position is the end of the output and leaves an output shorter than
`2^32` bytes, the rewritten `stroff` is the offset at which the first name
was appended (the end the output had), `strsize` is the sum over all symbols
of name length + 1, `symoff` is `stroff + strsize`, the string table being
immediately followed in the output by the symbol array of `nsyms` records,
and `nsyms` is unchanged. -/
theorem symtab_command_fields (cache : List Nat) (st st' : FixState)
    (cmd symoff nsyms stroff : Nat)
    (hsymoff : rdU32 st.buf (cmd + off_symoff) = some symoff)
    (hnsyms : rdU32 st.buf (cmd + off_nsyms) = some nsyms)
    (hstroff : rdU32 st.buf (cmd + off_stroff) = some stroff)
    (hend : st.sys.pos = st.sys.data.length)
    (hsmall : st'.sys.data.length < 2 ^ 32)
    (hok : fixSymtab cache st cmd = .ok st') :
    ∃ (names : List (List Nat)) (syms : List Nat) (stroff' strsize' symoff' : Nat),
      names.length = nsyms ∧
      (∀ i, i < nsyms → symbolName cache symoff stroff i = names[i]?) ∧
      rdU32 st'.buf (cmd + off_stroff) = some stroff' ∧
      rdU32 st'.buf (cmd + off_strsize) = some strsize' ∧
      rdU32 st'.buf (cmd + off_symoff) = some symoff' ∧
      rdU32 st'.buf (cmd + off_nsyms) = some nsyms ∧
      stroff' = st.sys.data.length ∧
      strsize' = (names.map (fun s => s.length + 1)).sum ∧
      symoff' = stroff' + strsize' ∧
      syms.length = sizeof_nlist_64 * nsyms ∧
      st'.sys.data = st.sys.data ++ stringTable names ++ syms := by
  obtain ⟨names, syms, h1, h2, h3, h4, _, _, h7, h8, h9, h10, _⟩ :=
    fixSymtab_spec cache st st' cmd symoff nsyms stroff hsymoff hnsyms hstroff hok
  have hlen : st'.sys.data.length = st.sys.data.length + (stringTable names).length
      + syms.length := by
    rw [h4]; simp; omega
  have hpow : (2 : Nat) ^ 32 = 4294967296 := by norm_num
  rw [hpow] at hsmall h7 h8 h9
  refine ⟨names, syms, st.sys.data.length, (stringTable names).length,
    st.sys.data.length + (stringTable names).length, h1, h2, ?_, ?_, ?_, h10, rfl,
    length_stringTable names, rfl, h3, h4⟩
  · rw [h7, hend, Nat.mod_eq_of_lt (by omega)]
  · rw [h8, Nat.mod_eq_of_lt (by omega)]
  · rw [h9, Nat.mod_eq_of_lt (by omega)]

/-- Witness of C15 (amended): the symbols `_foo` and `_bar` on an empty
output: `stroff` 0, `strsize` 10, `symoff` 10, two records. -/
theorem symtab_command_fields_witness :
    ∃ (names : List (List Nat)) (syms : List Nat) (stroff' strsize' symoff' : Nat),
      names.length = 2 ∧
      (∀ i, i < 2 → symbolName fooBarCache 0 32 i = names[i]?) ∧
      rdU32 (machHeader 1 24 ++ symtabCommand 10 2 0 10) (32 + off_stroff) = some stroff' ∧
      rdU32 (machHeader 1 24 ++ symtabCommand 10 2 0 10) (32 + off_strsize) = some strsize' ∧
      rdU32 (machHeader 1 24 ++ symtabCommand 10 2 0 10) (32 + off_symoff) = some symoff' ∧
      rdU32 (machHeader 1 24 ++ symtabCommand 10 2 0 10) (32 + off_nsyms) = some 2 ∧
      stroff' = ([] : List Nat).length ∧
      strsize' = (names.map (fun s => s.length + 1)).sum ∧
      symoff' = stroff' + strsize' ∧
      syms.length = sizeof_nlist_64 * 2 ∧
      ascii "_foo" ++ [0] ++ ascii "_bar" ++ [0] ++ (nlistRecord 0 ++ nlistRecord 5) =
        [] ++ stringTable names ++ syms :=
  symtab_command_fields fooBarCache (fixupInit fooBarBuf ⟨[], 0, []⟩)
    { buf := machHeader 1 24 ++ symtabCommand 10 2 0 10,
      sys := ⟨ascii "_foo" ++ [0] ++ ascii "_bar" ++ [0] ++
              (nlistRecord 0 ++ nlistRecord 5), 42, []⟩,
      next_cmd := 0, linkedit := none, file_base := 0 }
    32 0 2 32
    (by set_option maxRecDepth 100000 in decide)
    (by set_option maxRecDepth 100000 in decide)
    (by set_option maxRecDepth 100000 in decide)
    (by decide)
    (by set_option maxRecDepth 100000 in decide)
    (by set_option maxRecDepth 100000 in decide)

/-- Counterexample to C15 as stated: the output path holds three bytes when
the pass starts and the symbol table command is the first command.  The first
name is appended at offset 3 while `stroff` is rewritten to 0, the position of
the descriptor; `strsize` is 10 and `symoff` is 13, not `stroff + strsize`. -/
theorem symtab_fields_on_existing_output :
    fixSymtab fooBarCache (fixupInit fooBarBuf ⟨[7, 7, 7], 0, []⟩) 32 =
      .ok { buf := machHeader 1 24 ++ symtabCommand 13 2 0 10,
            sys := ⟨[7, 7, 7] ++ ascii "_foo" ++ [0] ++ ascii "_bar" ++ [0] ++
                    (nlistRecord 3 ++ nlistRecord 8), 45, []⟩,
            next_cmd := 0, linkedit := none, file_base := 0 } ∧
    rdBytes ([7, 7, 7] ++ ascii "_foo" ++ [0] ++ ascii "_bar" ++ [0] ++
        (nlistRecord 3 ++ nlistRecord 8)) 3 5 = some (ascii "_foo" ++ [0]) ∧
    rdU32 (machHeader 1 24 ++ symtabCommand 13 2 0 10) (32 + off_stroff) = some 0 ∧
    rdU32 (machHeader 1 24 ++ symtabCommand 13 2 0 10) (32 + off_strsize) = some 10 ∧
    rdU32 (machHeader 1 24 ++ symtabCommand 13 2 0 10) (32 + off_symoff) = some 13 ∧
    (0 : Nat) ≠ 3 ∧ (13 : Nat) ≠ 0 + 10 := by
  set_option maxRecDepth 100000 in
  decide

/-! ### Every iteration writes after what was written before -/

theorem window_refl (s : Sys) : Window s s := ⟨le_refl _, fun _ _ => rfl⟩

theorem window_trans {a b c : Sys} (h1 : Window a b) (h2 : Window b c) : Window a c := by
  refine ⟨le_trans h1.1 h2.1, ?_⟩
  intro j hj
  have hb := h1.1
  have hc := h2.1
  rw [h2.2 j (by omega), h1.2 j (by omega)]

theorem window_tick (s : Sys) : Window s s.tick := ⟨le_refl _, fun _ _ => rfl⟩

theorem window_of_append {s s' : Sys} {X : List Nat} (hd : s'.data = s.data ++ X)
    (hp : s'.pos = s'.data.length) (h : s.pos ≤ s.data.length) : Window s s' := by
  have hl : s'.data.length = s.data.length + X.length := by rw [hd]; simp
  refine ⟨by omega, ?_⟩
  intro j hj
  rw [hd]
  rcases hj with hj | hj
  · rw [List.getElem?_append_left (by omega)]
  · rw [List.getElem?_eq_none (by simp; omega), List.getElem?_eq_none (by omega)]

theorem getElem?_fileWrite_after (data : List Nat) (pos : Nat) (bs : List Nat) (j : Nat)
    (hp : pos ≤ data.length) (hj : pos + bs.length ≤ j) :
    (fileWrite data pos bs)[j]? = data[j]? := by
  cases bs with
  | nil => rfl
  | cons b r =>
    rw [fileWrite_cons]
    have hl : (data.take pos ++ List.replicate (pos - data.length) 0 ++ (b :: r)).length
        = pos + (b :: r).length := by
      simp
      omega
    rw [List.getElem?_append_right (by omega), hl, List.getElem?_drop]
    congr 1
    omega

theorem window_write (s : Sys) (bs : List Nat) (h : s.pos ≤ s.data.length) :
    Window s { s.tick with data := fileWrite s.data s.pos bs, pos := s.pos + bs.length } := by
  refine ⟨by simp, ?_⟩
  intro j hj
  simp only at hj ⊢
  rcases hj with hj | hj
  · exact getElem?_fileWrite_before _ _ _ _ hj (by omega)
  · exact getElem?_fileWrite_after _ _ _ _ h hj

theorem append_window (s : Sys) (m : List Nat) (off len : Nat) (h : s.pos ≤ s.data.length) :
    Window s (_append_to_file s m off len).sys := by
  unfold _append_to_file
  rcases lseekEnd_cases s with hc | hc
  · rw [hc]; exact window_tick s
  · rw [hc]
    simp only
    have hw0 : Window s { s.tick with pos := s.data.length } := ⟨h, fun _ _ => rfl⟩
    by_cases hl : len = 0
    · rw [if_pos hl]; exact hw0
    · rw [if_neg hl]
      cases hb : rdBytes m off len with
      | none => exact hw0
      | some bs =>
        simp only
        rcases write_cases { s.tick with pos := s.data.length } bs with hw | hw
        · rw [hw]; exact hw0
        · rw [hw]
          simp only
          exact window_of_append (X := bs) (by simp [Sys.tick, fileWrite_at_end])
            (by simp [Sys.tick, fileWrite_at_end]) h

theorem fixSegment_window (cache : List Nat) (st st' : FixState) (cmd : Nat)
    (h : st.sys.pos ≤ st.sys.data.length) (hok : fixSegment cache st cmd = .ok st') :
    Window st.sys st'.sys := by
  unfold fixSegment at hok
  by_cases htrace : segmentTrace st.buf cmd = true
  swap
  · rw [if_neg htrace] at hok; cases hok
  rw [if_pos htrace] at hok
  split at hok
  · split at hok
    · split at hok
      · cases hok
      · split at hok
        · cases hok
        · injection hok with hok; subst hok; exact window_refl _
    · split at hok
      · cases hok
      · split at hok
        · cases hok
        · rcases lseekCur_cases st.sys with hc | hc
          · rw [hc] at hok; cases hok
          · rw [hc] at hok
            simp only at hok
            split at hok
            · cases hok
            · split at hok
              · cases hok
              · rename_i body _
                rcases write_cases st.sys.tick body with hw | hw
                · rw [hw] at hok; cases hok
                · rw [hw] at hok
                  simp only at hok
                  split at hok
                  · cases hok
                  · injection hok with hok
                    subst hok
                    exact window_write st.sys body h
  · cases hok

theorem fixSymNames_data (cache : List Nat) (symoff stroff sN : Nat) :
    ∀ (n i : Nat) (ns : List Nat) (len : Nat) (s : Sys) (r : List Nat × Nat × Sys),
      fixSymNames cache symoff stroff sN n i ns len s = .ok r →
      ∃ X, r.2.2.data = s.data ++ X := by
  intro n i ns len s r h
  obtain ⟨ns', len', s'⟩ := r
  obtain ⟨names, _, _, hd, _⟩ := fixSymNames_spec _ _ _ _ _ _ _ _ _ _ _ _ h
  exact ⟨stringTable names, hd⟩

theorem fixSymtab_sys (cache : List Nat) (st st' : FixState) (cmd : Nat)
    (hok : fixSymtab cache st cmd = .ok st') :
    ∃ X, st'.sys.data = st.sys.data ++ X ∧ st'.sys.pos = st'.sys.data.length := by
  unfold fixSymtab at hok
  split at hok
  · split at hok
    · cases hok
    · split at hok
      · cases hok
      · rcases lseekCur_cases st.sys.tick with hc | hc
        · rw [hc] at hok; cases hok
        · rw [hc] at hok
          simp only at hok
          split at hok
          · cases hok
          · split at hok
            · cases hok
            · rename_i ns strtab_len s2 hl
              split at hok
              · cases hok
              · split at hok
                · cases hok
                · rename_i p s3 ha
                  split at hok
                  · cases hok
                  · injection hok with hok
                    subst hok
                    obtain ⟨_, bs, hbl, _, hd, hp⟩ := append_ok ha
                    obtain ⟨X, hX⟩ := fixSymNames_data _ _ _ _ _ _ _ _ _ _ hl
                    simp only at hX
                    refine ⟨X ++ bs, ?_, ?_⟩
                    · simp only
                      rw [hd, hX]
                      simp [Sys.tick]
                    · simp only
                      rw [hp, hd, List.length_append, hbl]
  · cases hok

theorem fixSymtab_window (cache : List Nat) (st st' : FixState) (cmd : Nat)
    (h : st.sys.pos ≤ st.sys.data.length) (hok : fixSymtab cache st cmd = .ok st') :
    Window st.sys st'.sys := by
  obtain ⟨X, hd, hp⟩ := fixSymtab_sys cache st st' cmd hok
  exact window_of_append hd hp h

theorem fixDysymtab_window (cache : List Nat) (st st' : FixState) (cmd : Nat)
    (h : st.sys.pos ≤ st.sys.data.length) (hok : fixDysymtab cache st cmd = .ok st') :
    Window st.sys st'.sys := by
  unfold fixDysymtab at hok
  split at hok
  · cases hok
  · split at hok
    · injection hok with hok; subst hok; exact window_refl _
    · split at hok
      · cases hok
      · rename_i off _ _ _ n _
        have hw := append_window st.sys cache off (n * 4) h
        split at hok
        · cases hok
        · rename_i p s1 ha
          split at hok
          · cases hok
          · injection hok with hok
            subst hok
            rw [ha] at hw
            exact hw

theorem fixLinkeditData_window (cache : List Nat) (st st' : FixState) (cmd : Nat)
    (h : st.sys.pos ≤ st.sys.data.length) (hok : fixLinkeditData cache st cmd = .ok st') :
    Window st.sys st'.sys := by
  obtain ⟨dataoff, datasize, b1, _, _, _, rfl⟩ := fixLinkeditData_ok hok
  exact append_window st.sys cache dataoff datasize h

theorem fixupStep_window (cache : List Nat) (st st' : FixState)
    (h : st.sys.pos ≤ st.sys.data.length) (hok : fixupStep cache st = .ok st') :
    Window st.sys st'.sys := by
  unfold fixupStep at hok
  split at hok
  · cases hok
  · rename_i kind _
    split at hok
    · cases hok
    · rename_i st1 hc
      have h1 : Window st.sys st1.sys := by
        unfold fixCommand at hc
        split at hc
        · exact fixSegment_window _ _ _ _ h hc
        · split at hc
          · exact fixSymtab_window _ _ _ _ h hc
          · split at hc
            · exact fixDysymtab_window _ _ _ _ h hc
            · split at hc
              · have hdy := fixDyldInfo_ok hc; subst hdy; exact window_refl _
              · split at hc
                · exact fixLinkeditData_window _ _ _ _ h hc
                · injection hc with hc; subst hc; exact window_refl _
      split at hok
      · cases hok
      · injection hok with hok
        subst hok
        exact h1

/-! ### What an iteration leaves of the working buffer -/

theorem fixSegment_frame (cache : List Nat) (st st' : FixState) (cmd : Nat)
    (hok : fixSegment cache st cmd = .ok st') :
    st'.buf.length = st.buf.length ∧ st'.next_cmd = st.next_cmd ∧
    ∀ o l, o + l ≤ cmd + 8 → rdBytes st'.buf o l = rdBytes st.buf o l := by
  unfold fixSegment at hok
  by_cases htrace : segmentTrace st.buf cmd = true
  swap
  · rw [if_neg htrace] at hok; cases hok
  rw [if_pos htrace] at hok
  split at hok
  · split at hok
    · split at hok
      · cases hok
      · rename_i b1 hb1
        split at hok
        · cases hok
        · rename_i b2 hb2
          injection hok with hok
          subst hok
          refine ⟨by simp only; rw [wrU64_length hb2, wrU64_length hb1], rfl, ?_⟩
          intro o l hol
          simp only
          rw [rdBytes_wrU64_other hb2 o l (by simp only [off_filesize]; omega),
            rdBytes_wrU64_other hb1 o l (by simp only [off_fileoff]; omega)]
    · split at hok
      · cases hok
      · split at hok
        · cases hok
        · rename_i b1 hb1
          obtain ⟨hl1, hf1, _⟩ := fixSections_spec _ _ _ _ _ _ _ hb1
          rcases lseekCur_cases st.sys with hc | hc
          · rw [hc] at hok; cases hok
          · rw [hc] at hok
            simp only at hok
            split at hok
            · cases hok
            · split at hok
              · cases hok
              · rename_i body _
                rcases write_cases st.sys.tick body with hw | hw
                · rw [hw] at hok; cases hok
                · rw [hw] at hok
                  simp only at hok
                  split at hok
                  · cases hok
                  · rename_i b2 hb2
                    injection hok with hok
                    subst hok
                    refine ⟨by simp only; rw [wrU64_length hb2, hl1], rfl, ?_⟩
                    intro o l hol
                    simp only
                    rw [rdBytes_wrU64_other hb2 o l (by simp only [off_fileoff]; omega)]
                    exact hf1 o l (by simp only [sizeof_segment_command_64]; omega)
  · cases hok

theorem fixSymtab_frame (cache : List Nat) (st st' : FixState) (cmd : Nat)
    (hok : fixSymtab cache st cmd = .ok st') :
    st'.buf.length = st.buf.length ∧ st'.next_cmd = st.next_cmd ∧
    ∀ o l, o + l ≤ cmd + 8 → rdBytes st'.buf o l = rdBytes st.buf o l := by
  cases h1 : rdU32 st.buf (cmd + off_symoff) with
  | none => simp [fixSymtab, h1] at hok
  | some symoff =>
    cases h2 : rdU32 st.buf (cmd + off_nsyms) with
    | none => simp [fixSymtab, h1, h2] at hok
    | some nsyms =>
      cases h3 : rdU32 st.buf (cmd + off_stroff) with
      | none => simp [fixSymtab, h1, h2, h3] at hok
      | some stroff =>
        obtain ⟨_, _, _, _, _, _, _, _, _, _, _, _, hl, hf, hn, _, _⟩ :=
          fixSymtab_spec cache st st' cmd symoff nsyms stroff h1 h2 h3 hok
        exact ⟨hl, hn, fun o l hol => hf o l (Or.inl hol)⟩

theorem fixDysymtab_frame (cache : List Nat) (st st' : FixState) (cmd : Nat)
    (hok : fixDysymtab cache st cmd = .ok st') :
    st'.buf.length = st.buf.length ∧ st'.next_cmd = st.next_cmd ∧
    ∀ o l, o + l ≤ cmd + 8 → rdBytes st'.buf o l = rdBytes st.buf o l := by
  unfold fixDysymtab at hok
  split at hok
  · cases hok
  · split at hok
    · injection hok with hok; subst hok; exact ⟨rfl, rfl, fun _ _ _ => rfl⟩
    · split at hok
      · cases hok
      · split at hok
        · cases hok
        · split at hok
          · cases hok
          · rename_i b1 hb1
            injection hok with hok
            subst hok
            refine ⟨wrU32_length hb1, rfl, ?_⟩
            intro o l hol
            exact rdBytes_wrU32_other hb1 o l (by simp only [off_indirectsymoff]; omega)

theorem fixLinkeditData_frame (cache : List Nat) (st st' : FixState) (cmd : Nat)
    (hok : fixLinkeditData cache st cmd = .ok st') :
    st'.buf.length = st.buf.length ∧ st'.next_cmd = st.next_cmd ∧
    ∀ o l, o + l ≤ cmd + 8 → rdBytes st'.buf o l = rdBytes st.buf o l := by
  obtain ⟨dataoff, datasize, b1, _, _, hb1, rfl⟩ := fixLinkeditData_ok hok
  refine ⟨wrU32_length hb1, rfl, ?_⟩
  intro o l hol
  exact rdBytes_wrU32_other hb1 o l (by simp only [off_dataoff]; omega)

theorem fixCommand_frame (cache : List Nat) (st st' : FixState) (cmd kind : Nat)
    (hok : fixCommand cache st cmd kind = .ok st') :
    st'.buf.length = st.buf.length ∧ st'.next_cmd = st.next_cmd ∧
    ∀ o l, o + l ≤ cmd + 8 → rdBytes st'.buf o l = rdBytes st.buf o l := by
  unfold fixCommand at hok
  split at hok
  · exact fixSegment_frame _ _ _ _ hok
  · split at hok
    · exact fixSymtab_frame _ _ _ _ hok
    · split at hok
      · exact fixDysymtab_frame _ _ _ _ hok
      · split at hok
        · have hdy := fixDyldInfo_ok hok; subst hdy; exact ⟨rfl, rfl, fun _ _ _ => rfl⟩
        · split at hok
          · exact fixLinkeditData_frame _ _ _ _ hok
          · injection hok with hok; subst hok; exact ⟨rfl, rfl, fun _ _ _ => rfl⟩

theorem fixupStep_frame (cache : List Nat) (st st' : FixState)
    (hok : fixupStep cache st = .ok st') :
    st'.buf.length = st.buf.length ∧
    (∀ o l, o + l ≤ sizeof_mach_header_64 + st.next_cmd + 8 →
      rdBytes st'.buf o l = rdBytes st.buf o l) ∧
    ∃ c, rdU32 st.buf (sizeof_mach_header_64 + st.next_cmd + off_cmdsize) = some c ∧
      st'.next_cmd = st.next_cmd + c := by
  unfold fixupStep at hok
  split at hok
  · cases hok
  · split at hok
    · cases hok
    · rename_i st1 hc
      obtain ⟨hl, _, hf⟩ := fixCommand_frame _ _ _ _ _ hc
      split at hok
      · cases hok
      · rename_i c hcs
        injection hok with hok
        subst hok
        refine ⟨hl, hf, c, ?_, rfl⟩
        rw [← hcs]
        exact (rdU32_congr (hf _ 4 (by simp only [off_cmdsize]; omega))).symm

theorem fixupLoop_frame (cache : List Nat) :
    ∀ (fuel : Nat) (st st' : FixState), fixupLoop cache fuel st = some (.ok st') →
      st'.buf.length = st.buf.length ∧
      ∀ o l, o + l ≤ sizeof_mach_header_64 → rdBytes st'.buf o l = rdBytes st.buf o l := by
  intro fuel
  induction fuel with
  | zero =>
    intro st st' hok
    unfold fixupLoop at hok
    split at hok
    · cases hok
    · split at hok
      · cases hok
      · injection hok with hok; injection hok with hok; subst hok
        exact ⟨rfl, fun _ _ _ => rfl⟩
  | succ n ih =>
    intro st st' hok
    unfold fixupLoop at hok
    split at hok
    · cases hok
    · split at hok
      · split at hok
        · cases hok
        · rename_i st1 hs
          obtain ⟨hl, hf, _⟩ := fixupStep_frame _ _ _ hs
          obtain ⟨hl2, hf2⟩ := ih st1 st' hok
          refine ⟨hl2.trans hl, ?_⟩
          intro o l hol
          rw [hf2 o l hol, hf o l (by omega)]
      · injection hok with hok; injection hok with hok; subst hok
        exact ⟨rfl, fun _ _ _ => rfl⟩

theorem rdBytes_of_getElem? {m : List Nat} {off : Nat} {bs : List Nat}
    (hle : off + bs.length ≤ m.length)
    (h : ∀ j, j < bs.length → m[off + j]? = bs[j]?) : rdBytes m off bs.length = some bs := by
  rw [rdBytes_of_le hle]
  congr 1
  apply List.ext_getElem?
  intro j
  rw [List.getElem?_take, List.getElem?_drop]
  by_cases hj : j < bs.length
  · rw [if_pos hj]; exact h j hj
  · rw [if_neg hj, List.getElem?_eq_none (by omega)]

theorem fixupFinalize_ok (st st' : FixState) (hok : fixupFinalize st = .ok st') :
    st'.buf.length = st.buf.length ∧ st'.sys.pos = st'.buf.length ∧
    st'.sys.pos ≤ st'.sys.data.length ∧
    rdBytes st'.sys.data 0 st'.buf.length = some st'.buf := by
  unfold fixupFinalize at hok
  rcases lseekEnd_cases st.sys with hc | hc
  · rw [hc] at hok; cases hok
  · rw [hc] at hok
    simp only at hok
    split at hok
    · cases hok
    · rename_i le _
      split at hok
      · cases hok
      · split at hok
        · cases hok
        · rename_i b1 hb1
          rcases lseekSet_cases { st.sys.tick with pos := st.sys.data.length } with hs | hs
          · rw [hs] at hok; cases hok
          · rw [hs] at hok
            simp only at hok
            rcases write_cases { ({ st.sys.tick with pos := st.sys.data.length } : Sys).tick
                with pos := 0 } b1 with hw | hw
            · rw [hw] at hok; cases hok
            · rw [hw] at hok
              simp only at hok
              injection hok with hok
              subst hok
              have hlen := length_fileWrite st.sys.data 0 b1 (Nat.zero_le _)
              refine ⟨wrU64_length hb1, by simp [Sys.tick], ?_, ?_⟩
              · simp only [Sys.tick]
                rw [hlen]
                omega
              · simp only [Sys.tick]
                exact rdBytes_fileWrite st.sys.data 0 b1 (Nat.zero_le _)

theorem fixup_ok_layout (fuel : Nat) (cache macho_hdr : List Nat) (s : Sys) (st : FixState)
    (hok : _fixup_macho_object64 fuel cache macho_hdr s = some (.ok st)) :
    st.buf.length = macho_hdr.length ∧ st.sys.pos = st.buf.length ∧
    st.sys.pos ≤ st.sys.data.length ∧
    rdBytes st.sys.data 0 st.buf.length = some st.buf := by
  unfold _fixup_macho_object64 at hok
  split at hok
  · cases hok
  · cases hok
  · rename_i lp hl
    injection hok with hok
    obtain ⟨h1, h2, h3, h4⟩ := fixupFinalize_ok _ _ hok
    obtain ⟨h5, _⟩ := fixupLoop_frame _ _ _ _ hl
    exact ⟨h1.trans h5, h2, h3, h4⟩

/-- C18 (counterexample to the claim as stated): extraction of image `t` of
`tinyCache` succeeds with `L = 32 + 144 = 176`, and the body of the
segment `__TEXT`, which is not the link-edit segment, has the rewritten offset
0, which is not `>= L`. -/
theorem first_segment_body_starts_at_zero :
    _dump_file 2 tinyHdr tinyCache (ascii "t") none [] =
      some ⟨.ok (), some (tinyPatched ++ tinyPatched)⟩ ∧
    rdU32 tinyCache (128 + off_sizeofcmds) = some 144 ∧
    rdU32 (tinyPatched ++ tinyPatched) sizeof_mach_header_64 = some LC_SEGMENT_64 ∧
    isLinkedit (tinyPatched ++ tinyPatched) sizeof_mach_header_64 = some false ∧
    rdU64 (tinyPatched ++ tinyPatched) (sizeof_mach_header_64 + off_fileoff) = some 0 ∧
    rdU64 (tinyPatched ++ tinyPatched) (sizeof_mach_header_64 + off_filesize) = some 200 ∧
    ¬ (sizeof_mach_header_64 + 144 ≤ 0) := by
  set_option maxRecDepth 1000000 in
  decide

/-- C18 (amended): when `_dump_file` succeeds and leaves `out`, the pass
succeeded on the copy of the `L = 32 + sizeofcmds` bytes of the image's header
block, the patched buffer `st.buf` has length `L` and is bytes `[0, L)` of
`out`.  The bodies are laid out from the start of the output in the order they
are produced: the pass starts at position 0, and an iteration of the walk that
finds the position inside the output leaves it inside the output, moves it
forward and changes the output only between the position it found and the
position it leaves. -/
theorem output_layout (fuel : Nat) (hdr : dyld_cache_header) (cache image_name : List Nat)
    (disk : Option (List Nat)) (sched : List Bool) (out : List Nat)
    (h : _dump_file fuel hdr cache image_name disk sched = some ⟨.ok (), some out⟩) :
    (∃ loc sizeofcmds macho_obj st,
      locateHeader hdr cache image_name = .ok loc ∧
      rdU32 cache (loc.file_offset + off_sizeofcmds) = some sizeofcmds ∧
      rdBytes cache loc.file_offset (sizeof_mach_header_64 + sizeofcmds) = some macho_obj ∧
      _fixup_macho_object64 fuel cache macho_obj ⟨disk.getD [], 0, sched.tail.tail⟩
        = some (.ok st) ∧
      st.buf.length = sizeof_mach_header_64 + sizeofcmds ∧
      rdBytes out 0 (sizeof_mach_header_64 + sizeofcmds) = some st.buf) ∧
    (∀ st1 st2, st1.sys.pos ≤ st1.sys.data.length → fixupStep cache st1 = .ok st2 →
      Window st1.sys st2.sys ∧ st2.sys.pos ≤ st2.sys.data.length) := by
  refine ⟨?_, fun st1 st2 hp hs =>
    ⟨fixupStep_window cache st1 st2 hp hs, fixupStep_pos_le cache st1 st2 hp hs⟩⟩
  unfold _dump_file at h
  split at h
  · cases h
  · rename_i loc hloc
    split at h
    · cases h
    · split at h
      · cases h
      · split at h
        · cases h
        · split at h
          · cases h
          · rename_i sizeofcmds hsz
            split at h
            · cases h
            · split at h
              · cases h
              · rename_i macho_obj hm
                split at h
                · cases h
                · split at h
                  · cases h
                  · cases h
                  · rename_i st hfix
                    obtain ⟨h1, h2, h3, h4⟩ := fixup_ok_layout _ _ _ _ _ hfix
                    rcases write_cases st.sys st.buf with hw | hw
                    · rw [hw] at h; cases h
                    · rw [hw] at h
                      simp only at h
                      injection h with h
                      injection h with _ h
                      injection h with h
                      subst h
                      have hL : st.buf.length = sizeof_mach_header_64 + sizeofcmds := by
                        rw [h1, rdBytes_length hm]
                      refine ⟨loc, sizeofcmds, macho_obj, st, hloc, hsz, hm, hfix, hL, ?_⟩
                      rw [← hL]
                      apply rdBytes_of_getElem?
                      · rw [length_fileWrite _ _ _ h3]
                        omega
                      · intro j hj
                        rw [getElem?_fileWrite_before _ _ _ _ (by omega) (by omega)]
                        have := getElem?_rdBytes h4 j
                        rw [if_pos hj] at this
                        rw [this]

theorem output_layout_witness :
    _dump_file 2 tinyHdr tinyCache (ascii "t") none [] =
      some ⟨.ok (), some (tinyPatched ++ tinyPatched)⟩ ∧
    ((∃ loc sizeofcmds macho_obj st,
      locateHeader tinyHdr tinyCache (ascii "t") = .ok loc ∧
      rdU32 tinyCache (loc.file_offset + off_sizeofcmds) = some sizeofcmds ∧
      rdBytes tinyCache loc.file_offset (sizeof_mach_header_64 + sizeofcmds) = some macho_obj ∧
      _fixup_macho_object64 2 tinyCache macho_obj ⟨(none : Option (List Nat)).getD [], 0,
        ([] : List Bool).tail.tail⟩ = some (.ok st) ∧
      st.buf.length = sizeof_mach_header_64 + sizeofcmds ∧
      rdBytes (tinyPatched ++ tinyPatched) 0 (sizeof_mach_header_64 + sizeofcmds)
        = some st.buf) ∧
    (∀ st1 st2, st1.sys.pos ≤ st1.sys.data.length → fixupStep tinyCache st1 = .ok st2 →
      Window st1.sys st2.sys ∧ st2.sys.pos ≤ st2.sys.data.length)) :=
  ⟨by set_option maxRecDepth 1000000 in decide,
   output_layout 2 tinyHdr tinyCache (ascii "t") none [] (tinyPatched ++ tinyPatched)
     (by set_option maxRecDepth 1000000 in decide)⟩

/-! ### The walk over the load commands -/

theorem fixupLoop_done (cache : List Nat) (fuel : Nat) (st : FixState) (sz : Nat)
    (hsz : rdU32 st.buf off_sizeofcmds = some sz) (h : ¬ st.next_cmd < sz) :
    fixupLoop cache fuel st = some (.ok st) := by
  cases fuel <;> simp [fixupLoop, hsz, h]

theorem fixupLoop_step_err (cache : List Nat) (fuel : Nat) (st : FixState) (sz : Nat)
    (e : Abort) (hsz : rdU32 st.buf off_sizeofcmds = some sz) (h : st.next_cmd < sz)
    (hs : fixupStep cache st = .error e) :
    fixupLoop cache (fuel + 1) st = some (.error e) := by
  simp [fixupLoop, hsz, h, hs]

theorem fixupLoop_step_ok (cache : List Nat) (fuel : Nat) (st st1 : FixState) (sz : Nat)
    (hsz : rdU32 st.buf off_sizeofcmds = some sz) (h : st.next_cmd < sz)
    (hs : fixupStep cache st = .ok st1) :
    fixupLoop cache (fuel + 1) st = fixupLoop cache fuel st1 := by
  simp [fixupLoop, hsz, h, hs]

theorem walkTrace_done (cache : List Nat) (fuel : Nat) (st : FixState) (sz : Nat)
    (hsz : rdU32 st.buf off_sizeofcmds = some sz) (h : ¬ st.next_cmd < sz) :
    walkTrace cache fuel st = [] := by
  cases fuel <;> simp [walkTrace, hsz, h]

theorem walkTrace_step_err (cache : List Nat) (fuel : Nat) (st : FixState) (sz : Nat)
    (e : Abort) (hsz : rdU32 st.buf off_sizeofcmds = some sz) (h : st.next_cmd < sz)
    (hs : fixupStep cache st = .error e) :
    walkTrace cache (fuel + 1) st =
      [(st.next_cmd, rdU32 st.buf (sizeof_mach_header_64 + st.next_cmd + off_cmdsize))] := by
  simp [walkTrace, hsz, h, hs]

theorem walkTrace_step_ok (cache : List Nat) (fuel : Nat) (st st1 : FixState) (sz : Nat)
    (hsz : rdU32 st.buf off_sizeofcmds = some sz) (h : st.next_cmd < sz)
    (hs : fixupStep cache st = .ok st1) :
    walkTrace cache (fuel + 1) st =
      (st.next_cmd, rdU32 st.buf (sizeof_mach_header_64 + st.next_cmd + off_cmdsize)) ::
        walkTrace cache fuel st1 := by
  simp [walkTrace, hsz, h, hs]

theorem fixupStep_sizeofcmds (cache : List Nat) (st st1 : FixState)
    (hs : fixupStep cache st = .ok st1) :
    rdU32 st1.buf off_sizeofcmds = rdU32 st.buf off_sizeofcmds := by
  obtain ⟨_, hf, _⟩ := fixupStep_frame _ _ _ hs
  exact rdU32_congr (hf _ 4 (by simp only [off_sizeofcmds, sizeof_mach_header_64]; omega))

theorem walk_core (cache : List Nat) (sz : Nat) :
    ∀ (fuel : Nat) (st : FixState), rdU32 st.buf off_sizeofcmds = some sz →
      sz - st.next_cmd ≤ fuel →
      (∀ p ∈ walkTrace cache fuel st, p.2 ≠ some 0) →
      (walkTrace cache fuel st).length ≤ sz - st.next_cmd ∧
      (∃ r, (∀ fuel', (walkTrace cache fuel st).length ≤ fuel' →
              fixupLoop cache fuel' st = some r ∧
              walkTrace cache fuel' st = walkTrace cache fuel st) ∧
            (∀ st', r = .ok st' → sz ≤ st'.next_cmd ∧
              st'.next_cmd = st.next_cmd + declaredSizes (walkTrace cache fuel st))) ∧
      (∀ i p, (walkTrace cache fuel st)[i]? = some p →
        p.1 < sz ∧ p.1 = st.next_cmd + declaredSizes ((walkTrace cache fuel st).take i)) := by
  intro fuel
  induction fuel with
  | zero =>
    intro st hsz hfuel _
    have hn : ¬ st.next_cmd < sz := by omega
    refine ⟨by simp [walkTrace], ⟨.ok st, ?_, ?_⟩, ?_⟩
    · intro fuel' _
      exact ⟨fixupLoop_done cache fuel' st sz hsz hn,
        by rw [walkTrace_done cache fuel' st sz hsz hn, walkTrace_done cache 0 st sz hsz hn]⟩
    · intro st' hst'
      injection hst' with hst'
      subst hst'
      simp [walkTrace, declaredSizes]
      omega
    · intro i p hp
      simp [walkTrace] at hp
  | succ n ih =>
    intro st hsz hfuel hpos
    by_cases hlt : st.next_cmd < sz
    · cases hs : fixupStep cache st with
      | error e =>
        rw [walkTrace_step_err cache n st sz e hsz hlt hs]
        refine ⟨by simp; omega, ⟨.error e, ?_, ?_⟩, ?_⟩
        · intro fuel' hf
          cases fuel' with
          | zero => simp at hf
          | succ m =>
            exact ⟨fixupLoop_step_err cache m st sz e hsz hlt hs,
              walkTrace_step_err cache m st sz e hsz hlt hs⟩
        · intro st' hst'
          cases hst'
        · intro i p hp
          cases i with
          | zero =>
            simp at hp
            subst hp
            simp [declaredSizes]
            exact hlt
          | succ j => simp at hp
      | ok st1 =>
        have htr := walkTrace_step_ok cache n st st1 sz hsz hlt hs
        obtain ⟨_, _, c, hc, hnext⟩ := fixupStep_frame _ _ _ hs
        have hsz1 : rdU32 st1.buf off_sizeofcmds = some sz := by
          rw [fixupStep_sizeofcmds cache st st1 hs]; exact hsz
        have hc0 : c ≠ 0 := by
          intro h0
          have := hpos (st.next_cmd, rdU32 st.buf (sizeof_mach_header_64 + st.next_cmd + off_cmdsize))
            (by rw [htr]; exact List.mem_cons_self _ _)
          apply this
          simp only
          rw [hc, h0]
        have hpos1 : ∀ p ∈ walkTrace cache n st1, p.2 ≠ some 0 := by
          intro p hp
          exact hpos p (by rw [htr]; exact List.mem_cons_of_mem _ hp)
        obtain ⟨hlen, ⟨r, hr1, hr2⟩, hchain⟩ := ih st1 hsz1 (by omega) hpos1
        rw [htr]
        refine ⟨by simp only [List.length_cons]; omega, ⟨r, ?_, ?_⟩, ?_⟩
        · intro fuel' hf
          cases fuel' with
          | zero => simp at hf
          | succ m =>
            have hm := hr1 m (by simp only [List.length_cons] at hf; omega)
            rw [fixupLoop_step_ok cache m st st1 sz hsz hlt hs,
              walkTrace_step_ok cache m st st1 sz hsz hlt hs, hm.1, hm.2]
            exact ⟨rfl, rfl⟩
        · intro st' hst'
          obtain ⟨h1, h2⟩ := hr2 st' hst'
          refine ⟨h1, ?_⟩
          rw [h2, hnext]
          simp only [declaredSizes, List.map_cons, List.sum_cons, hc, Option.getD_some]
          omega
        · intro i p hp
          cases i with
          | zero =>
            simp at hp
            subst hp
            simp [declaredSizes]
            exact hlt
          | succ j =>
            simp only [List.getElem?_cons_succ] at hp
            obtain ⟨h1, h2⟩ := hchain j p hp
            refine ⟨h1, ?_⟩
            rw [h2, hnext]
            simp only [declaredSizes, List.take_succ_cons, List.map_cons, List.sum_cons, hc,
              Option.getD_some]
            omega
    · rw [walkTrace_done cache (n + 1) st sz hsz hlt]
      refine ⟨by simp, ⟨.ok st, ?_, ?_⟩, ?_⟩
      · intro fuel' _
        exact ⟨fixupLoop_done cache fuel' st sz hsz hlt, walkTrace_done cache fuel' st sz hsz hlt⟩
      · intro st' hst'
        injection hst' with hst'
        subst hst'
        simp [declaredSizes]
        omega
      · intro i p hp
        simp at hp

/-! ### The command count is not consulted -/

theorem length_setNcmds (v : Nat) (b : List Nat) : (setNcmds v b).length = b.length := by
  unfold setNcmds
  cases h : wrU32 b off_ncmds v with
  | none => rfl
  | some b' => exact wrU32_length h

theorem getElem?_setNcmds (v : Nat) (b : List Nat) (i : Nat) (h : 20 ≤ i) :
    (setNcmds v b)[i]? = b[i]? := by
  unfold setNcmds
  cases hw : wrU32 b off_ncmds v with
  | none => rfl
  | some b' =>
    unfold wrU32 at hw
    simp only [Option.getD_some]
    rw [getElem?_wrBytes hw, if_neg (by rw [length_leBytes]; simp only [off_ncmds]; omega)]

theorem rdBytes_setNcmds (v : Nat) (b : List Nat) (o l : Nat) (h : 20 ≤ o) :
    rdBytes (setNcmds v b) o l = rdBytes b o l := by
  apply rdBytes_congr (length_setNcmds v b)
  intro j hj _
  exact getElem?_setNcmds v b j (by omega)

theorem rdU32_setNcmds (v : Nat) (b : List Nat) (o : Nat) (h : 20 ≤ o) :
    rdU32 (setNcmds v b) o = rdU32 b o :=
  rdU32_congr (rdBytes_setNcmds v b o 4 h)

theorem rdU64_setNcmds (v : Nat) (b : List Nat) (o : Nat) (h : 20 ≤ o) :
    rdU64 (setNcmds v b) o = rdU64 b o :=
  rdU64_congr (rdBytes_setNcmds v b o 8 h)

theorem isLinkedit_setNcmds (v : Nat) (b : List Nat) (cmd : Nat) (h : 20 ≤ cmd) :
    isLinkedit (setNcmds v b) cmd = isLinkedit b cmd := by
  unfold isLinkedit
  rw [rdBytes_setNcmds v b _ 10 (by omega)]

theorem cstrAt_setNcmds (v : Nat) (b : List Nat) (o : Nat) (h : 20 ≤ o) :
    cstrAt (setNcmds v b) o = cstrAt b o := by
  unfold cstrAt
  congr 1
  apply List.ext_getElem?
  intro j
  rw [List.getElem?_drop, List.getElem?_drop]
  exact getElem?_setNcmds v b (o + j) (by omega)

theorem segmentTrace_setNcmds (v : Nat) (b : List Nat) (cmd : Nat) (h : 20 ≤ cmd) :
    segmentTrace (setNcmds v b) cmd = segmentTrace b cmd := by
  unfold segmentTrace
  rw [rdU64_setNcmds v _ _ (by omega), rdU64_setNcmds v _ _ (by omega),
    rdU32_setNcmds v _ _ (by omega), cstrAt_setNcmds v _ _ (by omega)]

theorem wrBytes_setNcmds (v : Nat) (b : List Nat) (o : Nat) (bs : List Nat) (h : 20 ≤ o) :
    wrBytes (setNcmds v b) o bs = (wrBytes b o bs).map (setNcmds v) := by
  by_cases hle : o + bs.length ≤ b.length
  · have h20 : off_ncmds + (leBytes 4 v).length ≤ b.length := by
      rw [length_leBytes]; simp only [off_ncmds]; omega
    have e1 : wrBytes b o bs = some (b.take o ++ bs ++ b.drop (o + bs.length)) := by
      simp [wrBytes, hle]
    have e2 : wrBytes (setNcmds v b) o bs =
        some ((setNcmds v b).take o ++ bs ++ (setNcmds v b).drop (o + bs.length)) := by
      simp [wrBytes, hle, length_setNcmds]
    have e3 : wrBytes b off_ncmds (leBytes 4 v) =
        some (b.take off_ncmds ++ leBytes 4 v ++ b.drop (off_ncmds + (leBytes 4 v).length)) := by
      simp only [wrBytes, if_pos h20]
    have hl1 := wrBytes_length e1
    have e4 : wrBytes (b.take o ++ bs ++ b.drop (o + bs.length)) off_ncmds (leBytes 4 v) =
        some ((b.take o ++ bs ++ b.drop (o + bs.length)).take off_ncmds ++ leBytes 4 v ++
          (b.take o ++ bs ++ b.drop (o + bs.length)).drop (off_ncmds + (leBytes 4 v).length)) := by
      simp only [wrBytes]
      rw [if_pos (by rw [hl1]; exact h20)]
    have s1 : setNcmds v b = b.take off_ncmds ++ leBytes 4 v ++
        b.drop (off_ncmds + (leBytes 4 v).length) := by
      simp only [setNcmds, wrU32, e3, Option.getD_some]
    rw [e2, e1]
    simp only [Option.map_some']
    congr 1
    have s2 : setNcmds v (b.take o ++ bs ++ b.drop (o + bs.length)) =
        (b.take o ++ bs ++ b.drop (o + bs.length)).take off_ncmds ++ leBytes 4 v ++
          (b.take o ++ bs ++ b.drop (o + bs.length)).drop (off_ncmds + (leBytes 4 v).length) := by
      simp only [setNcmds, wrU32, e4, Option.getD_some]
    apply List.ext_getElem?
    intro i
    rw [getElem?_wrBytes e2 i, s2, getElem?_wrBytes e4 i, getElem?_wrBytes e1 i, s1,
      getElem?_wrBytes e3 i]
    rw [length_leBytes]
    simp only [off_ncmds]
    split_ifs <;> first | rfl | omega
  · have e1 : wrBytes b o bs = none := by simp [wrBytes, hle]
    have e2 : wrBytes (setNcmds v b) o bs = none := by simp [wrBytes, hle, length_setNcmds]
    rw [e1, e2]
    rfl

theorem wrU32_setNcmds (v : Nat) (b : List Nat) (o x : Nat) (h : 20 ≤ o) :
    wrU32 (setNcmds v b) o x = (wrU32 b o x).map (setNcmds v) :=
  wrBytes_setNcmds v b o _ h

theorem wrU64_setNcmds (v : Nat) (b : List Nat) (o x : Nat) (h : 20 ≤ o) :
    wrU64 (setNcmds v b) o x = (wrU64 b o x).map (setNcmds v) :=
  wrBytes_setNcmds v b o _ h

theorem fixSections_setNcmds (v cache_off file_base secs : Nat) (h : 20 ≤ secs) :
    ∀ (n i : Nat) (b : List Nat),
      fixSections cache_off file_base secs n i (setNcmds v b) =
        (fixSections cache_off file_base secs n i b).map (setNcmds v) := by
  intro n
  induction n with
  | zero => intro i b; rfl
  | succ n ih =>
    intro i b
    simp only [fixSections]
    rw [rdU32_setNcmds v b _ (by omega)]
    cases hr : rdU32 b (secs + sizeof_section_64 * i + off_sect_offset) with
    | none => rfl
    | some old =>
      simp only
      rw [wrU32_setNcmds v b _ _ (by omega)]
      cases hw : wrU32 b (secs + sizeof_section_64 * i + off_sect_offset)
          (relocSect old cache_off file_base) with
      | none => rfl
      | some b1 =>
        simp only [Option.map_some']
        exact ih (i + 1) b1

theorem fixSegment_setNcmds (v : Nat) (cache : List Nat) (st : FixState) (cmd : Nat)
    (h : 20 ≤ cmd) :
    fixSegment cache (st.withNcmds v) cmd =
      (fixSegment cache st cmd).map (FixState.withNcmds v) := by
  unfold fixSegment
  simp only [FixState.withNcmds]
  rw [segmentTrace_setNcmds v _ _ h]
  by_cases htrace : segmentTrace st.buf cmd = true
  swap
  · rw [if_neg htrace, if_neg htrace]; rfl
  rw [if_pos htrace, if_pos htrace]
  rw [rdU64_setNcmds v _ _ (by omega), isLinkedit_setNcmds v _ _ h]
  cases h1 : rdU64 st.buf (cmd + off_fileoff) with
  | none => rfl
  | some cache_off =>
    cases h2 : isLinkedit st.buf cmd with
    | none => rfl
    | some le =>
      simp only
      cases le with
      | true =>
        simp only [if_true]
        rw [wrU64_setNcmds v _ _ _ (by omega)]
        cases h3 : wrU64 st.buf (cmd + off_fileoff) st.file_base with
        | none => rfl
        | some b1 =>
          simp only [Option.map_some']
          rw [wrU64_setNcmds v _ _ _ (by omega)]
          cases h4 : wrU64 b1 (cmd + off_filesize) 0 with
          | none => rfl
          | some b2 => rfl
      | false =>
        simp only [Bool.false_eq_true, if_false]
        rw [rdU32_setNcmds v _ _ (by omega)]
        cases h3 : rdU32 st.buf (cmd + off_nsects) with
        | none => rfl
        | some nsects =>
          simp only
          rw [fixSections_setNcmds v _ _ _ (by omega)]
          cases h4 : fixSections cache_off st.file_base (cmd + sizeof_segment_command_64)
              nsects 0 st.buf with
          | none => rfl
          | some b1 =>
            simp only [Option.map_some']
            rcases lseekCur_cases st.sys with hc | hc
            · rw [hc]; rfl
            · rw [hc]
              simp only
              rw [rdU64_setNcmds v _ _ (by omega)]
              cases h5 : rdU64 b1 (cmd + off_filesize) with
              | none => rfl
              | some filesize =>
                simp only
                cases h6 : rdBuf cache cache_off filesize with
                | none => rfl
                | some body =>
                  simp only
                  rcases write_cases st.sys.tick body with hw | hw
                  · rw [hw]; rfl
                  · rw [hw]
                    simp only
                    rw [wrU64_setNcmds v _ _ _ (by omega)]
                    cases h7 : wrU64 b1 (cmd + off_fileoff) st.sys.pos with
                    | none => rfl
                    | some b2 => rfl

theorem fixSymtab_setNcmds (v : Nat) (cache : List Nat) (st : FixState) (cmd : Nat)
    (h : 20 ≤ cmd) :
    fixSymtab cache (st.withNcmds v) cmd =
      (fixSymtab cache st cmd).map (FixState.withNcmds v) := by
  unfold fixSymtab
  simp only [FixState.withNcmds]
  rw [rdU32_setNcmds v _ _ (by omega), rdU32_setNcmds v _ _ (by omega),
    rdU32_setNcmds v _ _ (by omega)]
  cases h1 : rdU32 st.buf (cmd + off_symoff) with
  | none => rfl
  | some symoff =>
    cases h2 : rdU32 st.buf (cmd + off_nsyms) with
    | none => rfl
    | some nsyms =>
      cases h3 : rdU32 st.buf (cmd + off_stroff) with
      | none => rfl
      | some stroff =>
        simp only
        by_cases hf : st.sys.fails = true
        · rw [if_pos hf, if_pos hf]; rfl
        · rw [if_neg hf, if_neg hf]
          cases h4 : rdBytes cache symoff (nsyms * sizeof_nlist_64) with
          | none => rfl
          | some new_syms =>
            simp only
            rcases lseekCur_cases st.sys.tick with hc | hc
            · rw [hc]; rfl
            · rw [hc]
              simp only
              rw [wrU32_setNcmds v _ _ _ (by omega)]
              cases h5 : wrU32 st.buf (cmd + off_stroff) st.sys.tick.pos with
              | none => rfl
              | some b1 =>
                simp only [Option.map_some']
                cases h6 : fixSymNames cache symoff stroff (st.sys.tick.pos % 2 ^ 32) nsyms 0
                    new_syms 0 st.sys.tick.tick with
                | error e => rfl
                | ok r =>
                  obtain ⟨ns, strtab_len, s2⟩ := r
                  simp only
                  rw [wrU32_setNcmds v _ _ _ (by omega)]
                  cases h7 : wrU32 b1 (cmd + off_strsize) strtab_len with
                  | none => rfl
                  | some b2 =>
                    simp only [Option.map_some']
                    cases h8 : _append_to_file s2 ns 0 (nsyms * sizeof_nlist_64) with
                    | mk err p s3 =>
                      cases err with
                      | some e => rfl
                      | none =>
                        simp only
                        rw [wrU32_setNcmds v _ _ _ (by omega)]
                        cases h9 : wrU32 b2 (cmd + off_symoff) p with
                        | none => rfl
                        | some b3 => rfl

theorem fixDysymtab_setNcmds (v : Nat) (cache : List Nat) (st : FixState) (cmd : Nat)
    (h : 20 ≤ cmd) :
    fixDysymtab cache (st.withNcmds v) cmd =
      (fixDysymtab cache st cmd).map (FixState.withNcmds v) := by
  unfold fixDysymtab
  simp only [FixState.withNcmds]
  rw [rdU32_setNcmds v _ _ (by omega), rdU32_setNcmds v _ _ (by omega)]
  cases h1 : rdU32 st.buf (cmd + off_indirectsymoff) with
  | none => rfl
  | some indirectsymoff =>
    simp only
    by_cases h0 : indirectsymoff = 0
    · rw [if_pos h0, if_pos h0]; rfl
    · rw [if_neg h0, if_neg h0]
      cases h2 : rdU32 st.buf (cmd + off_nindirectsyms) with
      | none => rfl
      | some n =>
        simp only
        cases h3 : _append_to_file st.sys cache indirectsymoff (n * 4) with
        | mk err p s1 =>
          cases err with
          | some e => rfl
          | none =>
            simp only
            rw [wrU32_setNcmds v _ _ _ (by omega)]
            cases h4 : wrU32 st.buf (cmd + off_indirectsymoff) p with
            | none => rfl
            | some b1 => rfl

theorem fixLinkeditData_setNcmds (v : Nat) (cache : List Nat) (st : FixState) (cmd : Nat)
    (h : 20 ≤ cmd) :
    fixLinkeditData cache (st.withNcmds v) cmd =
      (fixLinkeditData cache st cmd).map (FixState.withNcmds v) := by
  unfold fixLinkeditData
  simp only [FixState.withNcmds]
  rw [rdU32_setNcmds v _ _ (by omega), rdU32_setNcmds v _ _ (by omega)]
  cases h1 : rdU32 st.buf (cmd + off_dataoff) with
  | none => rfl
  | some dataoff =>
    cases h2 : rdU32 st.buf (cmd + off_datasize) with
    | none => rfl
    | some datasize =>
      simp only
      rw [wrU32_setNcmds v st.buf (cmd + off_dataoff) _ (by omega)]
      cases h4 : wrU32 st.buf (cmd + off_dataoff)
          (_append_to_file st.sys cache dataoff datasize).poffset with
      | none => rfl
      | some b1 => rfl

theorem fixDyldInfo_setNcmds (v : Nat) (st : FixState) (cmd : Nat) (h : 20 ≤ cmd) :
    fixDyldInfo (st.withNcmds v) cmd = (fixDyldInfo st cmd).map (FixState.withNcmds v) := by
  unfold fixDyldInfo
  simp only [FixState.withNcmds]
  rw [rdU32_setNcmds v _ _ (by omega), rdU32_setNcmds v _ _ (by omega),
    rdU32_setNcmds v _ _ (by omega), rdU32_setNcmds v _ _ (by omega),
    rdU32_setNcmds v _ _ (by omega)]
  cases rdU32 st.buf (cmd + off_rebase_off) <;> cases rdU32 st.buf (cmd + off_bind_off) <;>
    cases rdU32 st.buf (cmd + off_weak_bind_off) <;>
    cases rdU32 st.buf (cmd + off_lazy_bind_off) <;>
    cases rdU32 st.buf (cmd + off_export_off) <;> rfl

theorem fixCommand_setNcmds (v : Nat) (cache : List Nat) (st : FixState) (cmd kind : Nat)
    (h : 20 ≤ cmd) :
    fixCommand cache (st.withNcmds v) cmd kind =
      (fixCommand cache st cmd kind).map (FixState.withNcmds v) := by
  unfold fixCommand
  split
  · exact fixSegment_setNcmds v cache st cmd h
  · split
    · exact fixSymtab_setNcmds v cache st cmd h
    · split
      · exact fixDysymtab_setNcmds v cache st cmd h
      · split
        · exact fixDyldInfo_setNcmds v st cmd h
        · split
          · exact fixLinkeditData_setNcmds v cache st cmd h
          · rfl

theorem fixupStep_setNcmds (v : Nat) (cache : List Nat) (st : FixState) :
    fixupStep cache (st.withNcmds v) = (fixupStep cache st).map (FixState.withNcmds v) := by
  unfold fixupStep
  have e1 : (st.withNcmds v).buf = setNcmds v st.buf := rfl
  have e2 : (st.withNcmds v).next_cmd = st.next_cmd := rfl
  have e3 : (st.withNcmds v).sys = st.sys := rfl
  rw [e1, e2, e3, rdU32_setNcmds v _ _ (by simp only [sizeof_mach_header_64]; omega)]
  cases h1 : rdU32 st.buf (sizeof_mach_header_64 + st.next_cmd) with
  | none => rfl
  | some kind =>
    simp only
    rw [fixCommand_setNcmds v cache st _ _ (by simp only [sizeof_mach_header_64]; omega)]
    cases h2 : fixCommand cache st (sizeof_mach_header_64 + st.next_cmd) kind with
    | error e => rfl
    | ok st1 =>
      simp only [Except.map]
      have e4 : (st1.withNcmds v).buf = setNcmds v st1.buf := rfl
      rw [e4, rdU32_setNcmds v _ _ (by simp only [sizeof_mach_header_64]; omega)]
      cases h3 : rdU32 st1.buf (sizeof_mach_header_64 + st.next_cmd + off_cmdsize) with
      | none => rfl
      | some c => rfl

theorem fixupLoop_setNcmds (v : Nat) (cache : List Nat) :
    ∀ (fuel : Nat) (st : FixState),
      fixupLoop cache fuel (st.withNcmds v) =
        (fixupLoop cache fuel st).map (Except.map (FixState.withNcmds v)) := by
  intro fuel
  induction fuel with
  | zero =>
    intro st
    unfold fixupLoop
    have e1 : (st.withNcmds v).buf = setNcmds v st.buf := rfl
    have e2 : (st.withNcmds v).next_cmd = st.next_cmd := rfl
    rw [e1, e2, rdU32_setNcmds v _ _ (by simp only [off_sizeofcmds]; omega)]
    cases h1 : rdU32 st.buf off_sizeofcmds with
    | none => rfl
    | some sz =>
      simp only
      by_cases hlt : st.next_cmd < sz
      · rw [if_pos hlt, if_pos hlt]; rfl
      · rw [if_neg hlt, if_neg hlt]; rfl
  | succ n ih =>
    intro st
    unfold fixupLoop
    have e1 : (st.withNcmds v).buf = setNcmds v st.buf := rfl
    have e2 : (st.withNcmds v).next_cmd = st.next_cmd := rfl
    rw [e1, e2, rdU32_setNcmds v _ _ (by simp only [off_sizeofcmds]; omega)]
    cases h1 : rdU32 st.buf off_sizeofcmds with
    | none => rfl
    | some sz =>
      simp only
      by_cases hlt : st.next_cmd < sz
      · rw [if_pos hlt, if_pos hlt, fixupStep_setNcmds]
        cases h2 : fixupStep cache st with
        | error e => rfl
        | ok st1 =>
          simp only [Except.map]
          exact ih st1
      · rw [if_neg hlt, if_neg hlt]; rfl

theorem walkTrace_setNcmds (v : Nat) (cache : List Nat) :
    ∀ (fuel : Nat) (st : FixState),
      walkTrace cache fuel (st.withNcmds v) = walkTrace cache fuel st := by
  intro fuel
  induction fuel with
  | zero => intro st; rfl
  | succ n ih =>
    intro st
    unfold walkTrace
    have e1 : (st.withNcmds v).buf = setNcmds v st.buf := rfl
    have e2 : (st.withNcmds v).next_cmd = st.next_cmd := rfl
    rw [e1, e2, rdU32_setNcmds v _ _ (by simp only [off_sizeofcmds]; omega),
      rdU32_setNcmds v _ _ (by simp only [sizeof_mach_header_64]; omega)]
    cases h1 : rdU32 st.buf off_sizeofcmds with
    | none => rfl
    | some sz =>
      simp only
      by_cases hlt : st.next_cmd < sz
      · rw [if_pos hlt, if_pos hlt, fixupStep_setNcmds]
        cases h2 : fixupStep cache st with
        | error e => rfl
        | ok st1 =>
          simp only [Except.map]
          rw [ih st1]
      · rw [if_neg hlt, if_neg hlt]

theorem zeroSize_step (cache : List Nat) (s : Sys) :
    fixupStep cache (fixupInit zeroSizeBuf s) = .ok (fixupInit zeroSizeBuf s) := by
  rfl

theorem zeroSize_loop (cache : List Nat) (s : Sys) :
    ∀ fuel, fixupLoop cache fuel (fixupInit zeroSizeBuf s) = none := by
  have h8 : rdU32 zeroSizeBuf off_sizeofcmds = some 8 := by decide
  have hsz : rdU32 (fixupInit zeroSizeBuf s).buf off_sizeofcmds = some 8 := h8
  intro fuel
  induction fuel with
  | zero => simp [fixupLoop, h8, fixupInit]
  | succ n ih =>
    rw [fixupLoop_step_ok cache n _ _ 8 hsz (by simp [fixupInit]) (zeroSize_step cache s)]
    exact ih

/-- C19: from a state whose buffer declares `sizeofcmds = sz`, if no record
visited by the first `fuel >= sz - next_cmd` iterations declares `cmdsize = 0`,
the walk makes at most `sz - next_cmd` iterations (at most `sizeofcmds` from
the start) and returns with any fuel that covers them; the record of iteration
`i` is at the cumulative offset `next_cmd + c_0 + ... + c_(i-1)`, which is
below `sz`, and a walk that ends normally ends with the cumulative offset
`>= sz`.  Replacing the field `ncmds` of the header changes neither the
records visited nor the result (other than `ncmds` itself in the buffer).  On
`zeroSizeBuf`, whose record declares `cmdsize = 0`, no amount of fuel ends
the walk. -/
theorem walk_terminates (cache : List Nat) (st : FixState) (sz fuel : Nat)
    (hsz : rdU32 st.buf off_sizeofcmds = some sz)
    (hfuel : sz - st.next_cmd ≤ fuel)
    (hpos : ∀ p ∈ walkTrace cache fuel st, p.2 ≠ some 0) :
    (walkTrace cache fuel st).length ≤ sz - st.next_cmd ∧
    (∃ r, (∀ fuel', (walkTrace cache fuel st).length ≤ fuel' →
            fixupLoop cache fuel' st = some r ∧
            walkTrace cache fuel' st = walkTrace cache fuel st) ∧
          (∀ st', r = .ok st' → sz ≤ st'.next_cmd ∧
            st'.next_cmd = st.next_cmd + declaredSizes (walkTrace cache fuel st))) ∧
    (∀ i p, (walkTrace cache fuel st)[i]? = some p →
      p.1 < sz ∧ p.1 = st.next_cmd + declaredSizes ((walkTrace cache fuel st).take i)) ∧
    (∀ v fuel', walkTrace cache fuel' (st.withNcmds v) = walkTrace cache fuel' st ∧
      fixupLoop cache fuel' (st.withNcmds v) =
        (fixupLoop cache fuel' st).map (Except.map (FixState.withNcmds v))) ∧
    (∀ s fuel', (0, some 0) ∈ walkTrace cache (fuel' + 1) (fixupInit zeroSizeBuf s) ∧
      fixupLoop cache fuel' (fixupInit zeroSizeBuf s) = none ∧
      _fixup_macho_object64 fuel' cache zeroSizeBuf s = none) := by
  obtain ⟨h1, h2, h3⟩ := walk_core cache sz fuel st hsz hfuel hpos
  refine ⟨h1, h2, h3, fun v fuel' => ⟨walkTrace_setNcmds v cache fuel' st,
    fixupLoop_setNcmds v cache fuel' st⟩, ?_⟩
  intro s fuel'
  have h8 : rdU32 zeroSizeBuf off_sizeofcmds = some 8 := by decide
  have hsz0 : rdU32 (fixupInit zeroSizeBuf s).buf off_sizeofcmds = some 8 := h8
  refine ⟨?_, zeroSize_loop cache s fuel', ?_⟩
  · rw [walkTrace_step_ok cache fuel' _ _ 8 hsz0 (by simp [fixupInit]) (zeroSize_step cache s)]
    exact List.mem_cons_self _ _
  · unfold _fixup_macho_object64
    rw [zeroSize_loop cache s fuel']

theorem walk_terminates_witness :
    walkTrace fooBarCache 96 (fixupInit symThenLinkeditBuf ⟨[], 0, []⟩)
      = [(0, some 24), (24, some 72)] ∧
    (walkTrace fooBarCache 96 (fixupInit symThenLinkeditBuf ⟨[], 0, []⟩)).length ≤ 96 - 0 ∧
    (∃ r, (∀ fuel', (walkTrace fooBarCache 96
              (fixupInit symThenLinkeditBuf ⟨[], 0, []⟩)).length ≤ fuel' →
            fixupLoop fooBarCache fuel' (fixupInit symThenLinkeditBuf ⟨[], 0, []⟩) = some r ∧
            walkTrace fooBarCache fuel' (fixupInit symThenLinkeditBuf ⟨[], 0, []⟩) =
              walkTrace fooBarCache 96 (fixupInit symThenLinkeditBuf ⟨[], 0, []⟩)) ∧
          (∀ st', r = .ok st' → 96 ≤ st'.next_cmd ∧
            st'.next_cmd = 0 + declaredSizes (walkTrace fooBarCache 96
              (fixupInit symThenLinkeditBuf ⟨[], 0, []⟩)))) :=
  by
  set_option maxRecDepth 100000 in
  exact ⟨by decide,
   (walk_terminates fooBarCache (fixupInit symThenLinkeditBuf ⟨[], 0, []⟩) 96 96
     (by decide) (by decide) (by decide)).1,
   (walk_terminates fooBarCache (fixupInit symThenLinkeditBuf ⟨[], 0, []⟩) 96 96
     (by decide) (by decide) (by decide)).2.1⟩

/-! ### Which calls failed when a piece of the pass returns -/

theorem callsOk_refl (a : List Bool) : callsOk a a 0 := by
  simp [callsOk]

theorem callsOk_trans {a b c : List Bool} {k j : Nat} (h1 : callsOk a b k)
    (h2 : callsOk b c j) : callsOk a c (k + j) := by
  obtain ⟨hb, hk⟩ := h1
  obtain ⟨hc, hj⟩ := h2
  refine ⟨by rw [hc, hb, List.drop_drop], ?_⟩
  intro x hx
  rw [List.take_add, List.mem_append] at hx
  rcases hx with hx | hx
  · exact hk x hx
  · exact hj x (by rw [hb]; exact hx)

theorem callsOk_failed {a b c : List Bool} {k j : Nat} (h1 : callsOk a b k)
    (h2 : failedAfter b c j) : failedAfter a c (k + j) := by
  obtain ⟨hb, hk⟩ := h1
  obtain ⟨hc, hj, ht⟩ := h2
  refine ⟨by rw [hc, hb, List.drop_drop]; rfl, ?_, ?_⟩
  · intro x hx
    rw [List.take_add, List.mem_append] at hx
    rcases hx with hx | hx
    · exact hk x hx
    · exact hj x (by rw [hb]; exact hx)
  · rw [hb, List.getElem?_drop] at ht
    exact ht

theorem callsOk_tick (s : Sys) (h : s.fails = false) : callsOk s.sched s.tick.sched 1 := by
  unfold Sys.fails at h
  unfold Sys.tick callsOk
  cases hs : s.sched with
  | nil => simp
  | cons b t =>
    rw [hs] at h
    simp only at h
    simp [h]

theorem failedAfter_tick (s : Sys) (h : s.fails = true) :
    failedAfter s.sched s.tick.sched 0 := by
  unfold Sys.fails at h
  unfold Sys.tick failedAfter
  cases hs : s.sched with
  | nil => rw [hs] at h; cases h
  | cons b t =>
    rw [hs] at h
    simp only at h
    simp [h]

theorem lseekCur_spec (s : Sys) :
    (s.fails = true ∧ lseekCur s = (none, s.tick)) ∨
    (s.fails = false ∧ lseekCur s = (some s.pos, s.tick)) := by
  unfold lseekCur
  cases s.fails <;> simp

theorem lseekEnd_spec (s : Sys) :
    (s.fails = true ∧ lseekEnd s = (none, s.tick)) ∨
    (s.fails = false ∧
      lseekEnd s = (some s.data.length, { s.tick with pos := s.data.length })) := by
  unfold lseekEnd
  cases s.fails <;> simp

theorem lseekSet_spec (s : Sys) :
    (s.fails = true ∧ lseekSet s = (none, s.tick)) ∨
    (s.fails = false ∧ lseekSet s = (some 0, { s.tick with pos := 0 })) := by
  unfold lseekSet
  cases s.fails <;> simp

theorem write_spec (s : Sys) (bs : List Nat) :
    (s.fails = true ∧ write s bs = (false, s.tick)) ∨
    (s.fails = false ∧
      write s bs = (true, { s.tick with data := fileWrite s.data s.pos bs,
                                        pos := s.pos + bs.length })) := by
  unfold write
  cases s.fails <;> simp

theorem append_policy (s : Sys) (m : List Nat) (off len : Nat) :
    ((_append_to_file s m off len).err = none ∧
      ∃ k, callsOk s.sched (_append_to_file s m off len).sys.sched k) ∨
    ((_append_to_file s m off len).err = some .memoryFault ∧
      ∃ k, callsOk s.sched (_append_to_file s m off len).sys.sched k) ∨
    ((_append_to_file s m off len).err = some .ioError ∧
      ∃ k, failedAfter s.sched (_append_to_file s m off len).sys.sched k) := by
  unfold _append_to_file
  rcases lseekEnd_spec s with ⟨hf, hc⟩ | ⟨hf, hc⟩
  · rw [hc]
    exact Or.inr (Or.inr ⟨rfl, 0, failedAfter_tick s hf⟩)
  · rw [hc]
    simp only
    have h1 : callsOk s.sched ({ s.tick with pos := s.data.length } : Sys).sched 1 :=
      callsOk_tick s hf
    by_cases hl : len = 0
    · rw [if_pos hl]
      exact Or.inl ⟨rfl, 1, h1⟩
    · rw [if_neg hl]
      cases hb : rdBytes m off len with
      | none => exact Or.inr (Or.inl ⟨rfl, 1, h1⟩)
      | some bs =>
        simp only
        rcases write_spec { s.tick with pos := s.data.length } bs with ⟨hf2, hw⟩ | ⟨hf2, hw⟩
        · rw [hw]
          exact Or.inr (Or.inr ⟨rfl, 1 + 0, callsOk_failed h1 (failedAfter_tick _ hf2)⟩)
        · rw [hw]
          exact Or.inl ⟨rfl, 1 + 1, callsOk_trans h1 (callsOk_tick _ hf2)⟩

theorem aof_ok {α : Type} (sysOf : α → Sys) {a : List Bool} {x : α} {k : Nat}
    (h : callsOk a (sysOf x).sched k) : abortsOnFailure sysOf a (.ok x) := ⟨k, h⟩

theorem aof_fault {α : Type} (sysOf : α → Sys) {a : List Bool} {s : Sys} {k : Nat}
    (h : callsOk a s.sched k) : abortsOnFailure sysOf a (.error ⟨.memoryFault, s⟩) :=
  Or.inl ⟨rfl, k, h⟩

theorem aof_io {α : Type} (sysOf : α → Sys) {a : List Bool} {s : Sys} {k : Nat}
    (h : failedAfter a s.sched k) : abortsOnFailure sysOf a (.error ⟨.ioError, s⟩) :=
  Or.inr ⟨Or.inl rfl, k, h⟩

theorem aof_oom {α : Type} (sysOf : α → Sys) {a : List Bool} {s : Sys} {k : Nat}
    (h : failedAfter a s.sched k) : abortsOnFailure sysOf a (.error ⟨.outOfMemory, s⟩) :=
  Or.inr ⟨Or.inr rfl, k, h⟩

theorem aof_append_err {α : Type} (sysOf : α → Sys) {a : List Bool} {s : Sys} {m : List Nat}
    {off len : Nat} {k : Nat} (h0 : callsOk a s.sched k) {e : Failure} {p : Nat} {s1 : Sys}
    (ha : _append_to_file s m off len = ⟨some e, p, s1⟩) :
    abortsOnFailure sysOf a (.error ⟨e, s1⟩) := by
  have hp := append_policy s m off len
  rw [ha] at hp
  simp only at hp
  rcases hp with ⟨h, _⟩ | ⟨h, j, hj⟩ | ⟨h, j, hj⟩
  · cases h
  · injection h with h; subst h
    exact aof_fault sysOf (callsOk_trans h0 hj)
  · injection h with h; subst h
    exact aof_io sysOf (callsOk_failed h0 hj)

theorem append_ok_calls {a : List Bool} {s : Sys} {m : List Nat}
    {off len : Nat} {k : Nat} (h0 : callsOk a s.sched k) {p : Nat} {s1 : Sys}
    (ha : _append_to_file s m off len = ⟨none, p, s1⟩) :
    ∃ j, callsOk a s1.sched j := by
  have hp := append_policy s m off len
  rw [ha] at hp
  simp only at hp
  rcases hp with ⟨_, j, hj⟩ | ⟨h, _⟩ | ⟨h, _⟩
  · exact ⟨k + j, callsOk_trans h0 hj⟩
  · cases h
  · cases h

theorem fixSegment_policy (cache : List Nat) (st : FixState) (cmd : Nat) :
    abortsOnFailure FixState.sys st.sys.sched (fixSegment cache st cmd) ∧
    ∀ e, fixSegment cache st cmd = .error e → e.why ≠ .outOfMemory := by
  have h0 := callsOk_refl st.sys.sched
  unfold fixSegment
  by_cases htrace : segmentTrace st.buf cmd = true
  swap
  · rw [if_neg htrace]
    exact ⟨aof_fault _ h0, fun e he => by cases he; simp⟩
  rw [if_pos htrace]
  cases h1 : rdU64 st.buf (cmd + off_fileoff) with
  | none => exact ⟨aof_fault _ h0, fun e he => by cases he; simp⟩
  | some cache_off =>
    cases h2 : isLinkedit st.buf cmd with
    | none => exact ⟨aof_fault _ h0, fun e he => by cases he; simp⟩
    | some le =>
      simp only
      cases le with
      | true =>
        simp only [if_true]
        cases h3 : wrU64 st.buf (cmd + off_fileoff) st.file_base with
        | none => exact ⟨aof_fault _ h0, fun e he => by cases he; simp⟩
        | some b1 =>
          simp only
          cases h4 : wrU64 b1 (cmd + off_filesize) 0 with
          | none => exact ⟨aof_fault _ h0, fun e he => by cases he; simp⟩
          | some b2 => exact ⟨aof_ok _ h0, fun e he => by cases he⟩
      | false =>
        simp only [Bool.false_eq_true, if_false]
        cases h3 : rdU32 st.buf (cmd + off_nsects) with
        | none => exact ⟨aof_fault _ h0, fun e he => by cases he; simp⟩
        | some nsects =>
          simp only
          cases h4 : fixSections cache_off st.file_base (cmd + sizeof_segment_command_64)
              nsects 0 st.buf with
          | none => exact ⟨aof_fault _ h0, fun e he => by cases he; simp⟩
          | some b1 =>
            simp only
            rcases lseekCur_spec st.sys with ⟨hf, hc⟩ | ⟨hf, hc⟩
            · rw [hc]
              exact ⟨aof_io _ (failedAfter_tick _ hf), fun e he => by cases he; simp⟩
            · rw [hc]
              simp only
              have c1 := callsOk_tick _ hf
              cases h5 : rdU64 b1 (cmd + off_filesize) with
              | none => exact ⟨aof_fault _ c1, fun e he => by cases he; simp⟩
              | some filesize =>
                simp only
                cases h6 : rdBuf cache cache_off filesize with
                | none => exact ⟨aof_fault _ c1, fun e he => by cases he; simp⟩
                | some body =>
                  simp only
                  rcases write_spec st.sys.tick body with ⟨hf2, hw⟩ | ⟨hf2, hw⟩
                  · rw [hw]
                    exact ⟨aof_io _ (callsOk_failed c1 (failedAfter_tick _ hf2)),
                      fun e he => by cases he; simp⟩
                  · rw [hw]
                    simp only
                    have c2 : callsOk st.sys.sched
                        ({ st.sys.tick.tick with
                            data := fileWrite st.sys.tick.data st.sys.tick.pos body,
                            pos := st.sys.tick.pos + body.length } : Sys).sched (1 + 1) :=
                      callsOk_trans c1 (callsOk_tick _ hf2)
                    cases h7 : wrU64 b1 (cmd + off_fileoff) st.sys.pos with
                    | none => exact ⟨aof_fault _ c2, fun e he => by cases he; simp⟩
                    | some b2 => exact ⟨aof_ok _ c2, fun e he => by cases he⟩

theorem append_err_ne_oom {s : Sys} {m : List Nat} {off len : Nat} {e : Failure} {p : Nat}
    {s1 : Sys} (ha : _append_to_file s m off len = ⟨some e, p, s1⟩) : e ≠ .outOfMemory := by
  have hp := append_policy s m off len
  rw [ha] at hp
  simp only at hp
  rcases hp with ⟨h, _⟩ | ⟨h, _⟩ | ⟨h, _⟩
  · cases h
  · injection h with h; subst h; simp
  · injection h with h; subst h; simp

theorem fixSymNames_policy (cache : List Nat) (symoff stroff sN : Nat) :
    ∀ (n i : Nat) (ns : List Nat) (len : Nat) (s : Sys) (a : List Bool) (k : Nat),
      callsOk a s.sched k →
      abortsOnFailure (fun r : List Nat × Nat × Sys => r.2.2) a
        (fixSymNames cache symoff stroff sN n i ns len s) ∧
      ∀ e, fixSymNames cache symoff stroff sN n i ns len s = .error e →
        e.why ≠ .outOfMemory := by
  intro n
  induction n with
  | zero =>
    intro i ns len s a k h0
    exact ⟨aof_ok _ h0, fun e he => by cases he⟩
  | succ n ih =>
    intro i ns len s a k h0
    unfold fixSymNames
    cases h1 : rdU32 cache (symoff + sizeof_nlist_64 * i) with
    | none => exact ⟨aof_fault _ h0, fun e he => by cases he; simp⟩
    | some strx =>
      simp only
      cases h2 : cstrAt cache (stroff + strx) with
      | none => exact ⟨aof_fault _ h0, fun e he => by cases he; simp⟩
      | some str =>
        simp only
        cases h3 : _append_to_file s cache (stroff + strx) (str.length + 1) with
        | mk err p s1 =>
          cases err with
          | some e0 =>
            exact ⟨aof_append_err _ h0 h3, fun e he => by
              cases he; exact append_err_ne_oom h3⟩
          | none =>
            simp only
            obtain ⟨j, hj⟩ := append_ok_calls h0 h3
            cases h4 : wrU32 ns (sizeof_nlist_64 * i) ((p + 2 ^ 32 - sN) % 2 ^ 32) with
            | none => exact ⟨aof_fault _ hj, fun e he => by cases he; simp⟩
            | some ns1 => exact ih (i + 1) ns1 _ s1 a j hj

theorem fixSymtab_policy (cache : List Nat) (st : FixState) (cmd : Nat) :
    abortsOnFailure FixState.sys st.sys.sched (fixSymtab cache st cmd) ∧
    ∀ e, fixSymtab cache st cmd = .error e → e.why = .outOfMemory →
      failedAfter st.sys.sched e.sys.sched 0 := by
  have h0 := callsOk_refl st.sys.sched
  unfold fixSymtab
  cases h1 : rdU32 st.buf (cmd + off_symoff) with
  | none => exact ⟨aof_fault _ h0, fun e he hw => by cases he; cases hw⟩
  | some symoff =>
    cases h2 : rdU32 st.buf (cmd + off_nsyms) with
    | none => exact ⟨aof_fault _ h0, fun e he hw => by cases he; cases hw⟩
    | some nsyms =>
      cases h3 : rdU32 st.buf (cmd + off_stroff) with
      | none => exact ⟨aof_fault _ h0, fun e he hw => by cases he; cases hw⟩
      | some stroff =>
        simp only
        by_cases hf : st.sys.fails = true
        · rw [if_pos hf]
          exact ⟨aof_oom _ (failedAfter_tick _ hf), fun e he _ => by
            cases he; exact failedAfter_tick _ hf⟩
        · rw [if_neg hf]
          have c1 := callsOk_tick _ (Bool.eq_false_iff.2 hf)
          cases h4 : rdBytes cache symoff (nsyms * sizeof_nlist_64) with
          | none => exact ⟨aof_fault _ c1, fun e he hw => by cases he; cases hw⟩
          | some new_syms =>
            simp only
            rcases lseekCur_spec st.sys.tick with ⟨hf2, hc⟩ | ⟨hf2, hc⟩
            · rw [hc]
              exact ⟨aof_io _ (callsOk_failed c1 (failedAfter_tick _ hf2)),
                fun e he hw => by cases he; cases hw⟩
            · rw [hc]
              simp only
              have c2 := callsOk_trans c1 (callsOk_tick _ hf2)
              cases h5 : wrU32 st.buf (cmd + off_stroff) st.sys.tick.pos with
              | none => exact ⟨aof_fault _ c2, fun e he hw => by cases he; cases hw⟩
              | some b1 =>
                simp only
                obtain ⟨hp1, hp2⟩ := fixSymNames_policy cache symoff stroff
                  (st.sys.tick.pos % 2 ^ 32) nsyms 0 new_syms 0 st.sys.tick.tick
                  st.sys.sched _ c2
                cases h6 : fixSymNames cache symoff stroff (st.sys.tick.pos % 2 ^ 32) nsyms 0
                    new_syms 0 st.sys.tick.tick with
                | error e0 =>
                  rw [h6] at hp1
                  exact ⟨hp1, fun e he hw => by
                    cases he; exact absurd hw (hp2 e0 h6)⟩
                | ok r =>
                  obtain ⟨ns, strtab_len, s2⟩ := r
                  rw [h6] at hp1
                  obtain ⟨j, hj⟩ := hp1
                  simp only at hj ⊢
                  cases h7 : wrU32 b1 (cmd + off_strsize) strtab_len with
                  | none => exact ⟨aof_fault _ hj, fun e he hw => by cases he; cases hw⟩
                  | some b2 =>
                    simp only
                    cases h8 : _append_to_file s2 ns 0 (nsyms * sizeof_nlist_64) with
                    | mk err p s3 =>
                      cases err with
                      | some e0 =>
                        exact ⟨aof_append_err _ hj h8, fun e he hw => by
                          cases he; exact absurd hw (append_err_ne_oom h8)⟩
                      | none =>
                        simp only
                        obtain ⟨j2, hj2⟩ := append_ok_calls hj h8
                        cases h9 : wrU32 b2 (cmd + off_symoff) p with
                        | none =>
                          exact ⟨aof_fault _ hj2, fun e he hw => by cases he; cases hw⟩
                        | some b3 => exact ⟨aof_ok _ hj2, fun e he => by cases he⟩

theorem fixDysymtab_policy (cache : List Nat) (st : FixState) (cmd : Nat) :
    abortsOnFailure FixState.sys st.sys.sched (fixDysymtab cache st cmd) ∧
    ∀ e, fixDysymtab cache st cmd = .error e → e.why ≠ .outOfMemory := by
  have h0 := callsOk_refl st.sys.sched
  unfold fixDysymtab
  cases h1 : rdU32 st.buf (cmd + off_indirectsymoff) with
  | none => exact ⟨aof_fault _ h0, fun e he => by cases he; simp⟩
  | some indirectsymoff =>
    simp only
    by_cases hz : indirectsymoff = 0
    · rw [if_pos hz]
      exact ⟨aof_ok _ h0, fun e he => by cases he⟩
    · rw [if_neg hz]
      cases h2 : rdU32 st.buf (cmd + off_nindirectsyms) with
      | none => exact ⟨aof_fault _ h0, fun e he => by cases he; simp⟩
      | some n =>
        simp only
        cases h3 : _append_to_file st.sys cache indirectsymoff (n * 4) with
        | mk err p s1 =>
          cases err with
          | some e0 =>
            exact ⟨aof_append_err _ h0 h3, fun e he => by
              cases he; exact append_err_ne_oom h3⟩
          | none =>
            simp only
            obtain ⟨j, hj⟩ := append_ok_calls h0 h3
            cases h4 : wrU32 st.buf (cmd + off_indirectsymoff) p with
            | none => exact ⟨aof_fault _ hj, fun e he => by cases he; simp⟩
            | some b1 => exact ⟨aof_ok _ hj, fun e he => by cases he⟩

theorem fixupFinalize_policy (st : FixState) :
    abortsOnFailure FixState.sys st.sys.sched (fixupFinalize st) ∧
    ∀ e, fixupFinalize st = .error e → e.why ≠ .outOfMemory := by
  unfold fixupFinalize
  rcases lseekEnd_spec st.sys with ⟨hf, hc⟩ | ⟨hf, hc⟩
  · rw [hc]
    exact ⟨aof_io _ (failedAfter_tick _ hf), fun e he => by cases he; simp⟩
  · rw [hc]
    simp only
    have c1 : callsOk st.sys.sched ({ st.sys.tick with pos := st.sys.data.length } : Sys).sched 1 :=
      callsOk_tick _ hf
    cases h1 : st.linkedit with
    | none => exact ⟨aof_fault _ c1, fun e he => by cases he; simp⟩
    | some le =>
      simp only
      cases h2 : rdU64 st.buf (le + off_fileoff) with
      | none => exact ⟨aof_fault _ c1, fun e he => by cases he; simp⟩
      | some fileoff =>
        simp only
        cases h3 : wrU64 st.buf (le + off_filesize)
            ((st.sys.data.length + 2 ^ 64 - fileoff) % 2 ^ 64) with
        | none => exact ⟨aof_fault _ c1, fun e he => by cases he; simp⟩
        | some b1 =>
          simp only
          rcases lseekSet_spec { st.sys.tick with pos := st.sys.data.length }
            with ⟨hf2, hs⟩ | ⟨hf2, hs⟩
          · rw [hs]
            exact ⟨aof_io _ (callsOk_failed c1 (failedAfter_tick _ hf2)),
              fun e he => by cases he; simp⟩
          · rw [hs]
            simp only
            have c2 : callsOk st.sys.sched
                ({ ({ st.sys.tick with pos := st.sys.data.length } : Sys).tick
                    with pos := 0 } : Sys).sched (1 + 1) :=
              callsOk_trans c1 (callsOk_tick _ hf2)
            rcases write_spec { ({ st.sys.tick with pos := st.sys.data.length } : Sys).tick
                with pos := 0 } b1 with ⟨hf3, hw⟩ | ⟨hf3, hw⟩
            · rw [hw]
              exact ⟨aof_io _ (callsOk_failed c2 (failedAfter_tick _ hf3)),
                fun e he => by cases he; simp⟩
            · rw [hw]
              exact ⟨aof_ok _ (callsOk_trans c2 (callsOk_tick _ hf3)),
                fun e he => by cases he⟩

theorem fixLinkeditData_goes_on (cache : List Nat) (st : FixState) (cmd dataoff datasize : Nat)
    (hoff : rdU32 st.buf (cmd + off_dataoff) = some dataoff)
    (hsize : rdU32 st.buf (cmd + off_datasize) = some datasize) :
    ∃ b', wrU32 st.buf (cmd + off_dataoff)
        (_append_to_file st.sys cache dataoff datasize).poffset = some b' ∧
      fixLinkeditData cache st cmd =
        .ok { st with buf := b', sys := (_append_to_file st.sys cache dataoff datasize).sys } := by
  obtain ⟨b', hb'⟩ := wrU32_of_rdU32 (_append_to_file st.sys cache dataoff datasize).poffset hoff
  refine ⟨b', hb', ?_⟩
  unfold fixLinkeditData
  rw [hoff, hsize]
  simp only [hb']

/-- C17: the failure policy of the pass.  (1) On a `LinkEditDataBlob` command
whose fields `dataoff` and `datasize` lie in the buffer the branch returns a
state whatever the append returned, a failed seek, a failed write and a source
outside the cache included, with `dataoff` set to what the append left in
`file_off`; on `blobThenLinkeditBuf` the pass goes on to the link-edit command
and succeeds both when the first call fails and when the cache is empty, so
that the source of the append lies outside it.  (2) The `Segment`,
`SymbolTable` and `DynamicSymbolTable` branches and the finalization obey
`abortsOnFailure`: they return a state only when no call failed and abort at
the first call that fails, with `ioError` for a seek or a write (`outOfMemory`
only for the allocation that opens the `SymbolTable` branch); on
`oneSegmentBuf` a failing write aborts the pass with `ioError`.  (3) An error
of the branch is the error of the iteration, of the loop and of the whole
pass, whose file state is the one at the failure: no further command is
processed and the finalization is not run. -/
theorem failure_policy (cache : List Nat) (st : FixState) (cmd : Nat) :
    (∀ dataoff datasize, rdU32 st.buf (cmd + off_dataoff) = some dataoff →
      rdU32 st.buf (cmd + off_datasize) = some datasize →
      ∃ b', wrU32 st.buf (cmd + off_dataoff)
          (_append_to_file st.sys cache dataoff datasize).poffset = some b' ∧
        fixLinkeditData cache st cmd =
          .ok { st with buf := b',
                        sys := (_append_to_file st.sys cache dataoff datasize).sys }) ∧
    ((_append_to_file ⟨[], 0, [true]⟩ indirectCache 4 4).err = some .ioError ∧
      _fixup_macho_object64 2 indirectCache blobThenLinkeditBuf ⟨[], 0, [true]⟩ =
        some (.ok
          { buf := machHeader 2 88 ++ linkeditDataCommand LC_FUNCTION_STARTS 0xFFFFFFFF 4 ++
                   segmentCommand (ascii "__LINKEDIT") 0 0 0,
            sys := ⟨machHeader 2 88 ++ linkeditDataCommand LC_FUNCTION_STARTS 0xFFFFFFFF 4 ++
                    segmentCommand (ascii "__LINKEDIT") 0 0 0, 120, []⟩,
            next_cmd := 88, linkedit := some 48, file_base := 0 })) ∧
    ((_append_to_file ⟨[], 0, []⟩ [] 4 4).err ≠ none ∧
      _fixup_macho_object64 2 [] blobThenLinkeditBuf ⟨[], 0, []⟩ =
        some (.ok
          { buf := machHeader 2 88 ++ linkeditDataCommand LC_FUNCTION_STARTS 0 4 ++
                   segmentCommand (ascii "__LINKEDIT") 0 0 0,
            sys := ⟨machHeader 2 88 ++ linkeditDataCommand LC_FUNCTION_STARTS 0 4 ++
                    segmentCommand (ascii "__LINKEDIT") 0 0 0, 120, []⟩,
            next_cmd := 88, linkedit := some 48, file_base := 0 })) ∧
    (abortsOnFailure FixState.sys st.sys.sched (fixSegment cache st cmd) ∧
      ∀ e, fixSegment cache st cmd = .error e → e.why ≠ .outOfMemory) ∧
    (abortsOnFailure FixState.sys st.sys.sched (fixSymtab cache st cmd) ∧
      ∀ e, fixSymtab cache st cmd = .error e → e.why = .outOfMemory →
        failedAfter st.sys.sched e.sys.sched 0) ∧
    (abortsOnFailure FixState.sys st.sys.sched (fixDysymtab cache st cmd) ∧
      ∀ e, fixDysymtab cache st cmd = .error e → e.why ≠ .outOfMemory) ∧
    (abortsOnFailure FixState.sys st.sys.sched (fixupFinalize st) ∧
      ∀ e, fixupFinalize st = .error e → e.why ≠ .outOfMemory) ∧
    _fixup_macho_object64 1 oneSegmentCache oneSegmentBuf ⟨[], 0, [false, true]⟩ =
      some (.error ⟨.ioError, ⟨[], 0, []⟩⟩) ∧
    (∀ kind e, rdU32 st.buf (sizeof_mach_header_64 + st.next_cmd) = some kind →
      fixCommand cache st (sizeof_mach_header_64 + st.next_cmd) kind = .error e →
      fixupStep cache st = .error e) ∧
    (∀ e sz fuel, rdU32 st.buf off_sizeofcmds = some sz → st.next_cmd < sz →
      fixupStep cache st = .error e → fixupLoop cache (fuel + 1) st = some (.error e)) ∧
    (∀ fuel buf s e, fixupLoop cache fuel (fixupInit buf s) = some (.error e) →
      _fixup_macho_object64 fuel cache buf s = some (.error e)) ∧
    (∀ fuel buf s st', fixupLoop cache fuel (fixupInit buf s) = some (.ok st') →
      _fixup_macho_object64 fuel cache buf s = some (fixupFinalize st')) := by
  refine ⟨fun dataoff datasize h1 h2 =>
      fixLinkeditData_goes_on cache st cmd dataoff datasize h1 h2,
    by set_option maxRecDepth 1000000 in decide,
    by set_option maxRecDepth 1000000 in decide,
    fixSegment_policy cache st cmd, fixSymtab_policy cache st cmd,
    fixDysymtab_policy cache st cmd, fixupFinalize_policy st,
    by set_option maxRecDepth 1000000 in decide, ?_, ?_, ?_, ?_⟩
  · intro kind e hk hc
    unfold fixupStep
    rw [hk]
    simp only
    rw [hc]
  · intro e sz fuel hsz hlt hs
    exact fixupLoop_step_err cache fuel st sz e hsz hlt hs
  · intro fuel buf s e hl
    unfold _fixup_macho_object64
    rw [hl]
  · intro fuel buf s st' hl
    unfold _fixup_macho_object64
    rw [hl]

theorem failure_policy_witness :
    rdU32 blobThenLinkeditBuf (32 + off_dataoff) = some 4 ∧
    rdU32 blobThenLinkeditBuf (32 + off_datasize) = some 4 ∧
    (_append_to_file ⟨[], 0, [true]⟩ indirectCache 4 4).err = some .ioError ∧
    ∃ b', wrU32 (fixupInit blobThenLinkeditBuf ⟨[], 0, [true]⟩).buf (32 + off_dataoff)
        (_append_to_file (fixupInit blobThenLinkeditBuf ⟨[], 0, [true]⟩).sys
          indirectCache 4 4).poffset = some b' ∧
      fixLinkeditData indirectCache (fixupInit blobThenLinkeditBuf ⟨[], 0, [true]⟩) 32 =
        .ok { fixupInit blobThenLinkeditBuf ⟨[], 0, [true]⟩ with
              buf := b',
              sys := (_append_to_file (fixupInit blobThenLinkeditBuf ⟨[], 0, [true]⟩).sys
                indirectCache 4 4).sys } :=
  ⟨by set_option maxRecDepth 100000 in decide,
   by set_option maxRecDepth 100000 in decide,
   by decide,
   (failure_policy indirectCache (fixupInit blobThenLinkeditBuf ⟨[], 0, [true]⟩) 32).1 4 4
     (by set_option maxRecDepth 100000 in decide)
     (by set_option maxRecDepth 100000 in decide)⟩

/-! ### The header of the patched buffer and the second write of the block -/

theorem rdBytes_rdBytes {m : List Nat} {off len : Nat} {bs : List Nat}
    (h : rdBytes m off len = some bs) (o l : Nat) (hol : o + l ≤ len) :
    rdBytes bs o l = rdBytes m (off + o) l := by
  obtain ⟨hle, _⟩ := rdBytes_eq_some h
  have hlen := rdBytes_length h
  rw [rdBytes_of_le (by omega), rdBytes_of_le (by omega)]
  congr 1
  apply List.ext_getElem?
  intro j
  rw [List.getElem?_take, List.getElem?_take, List.getElem?_drop, List.getElem?_drop]
  by_cases hj : j < l
  · rw [if_pos hj, if_pos hj, getElem?_rdBytes h, if_pos (by omega), Nat.add_assoc]
  · rw [if_neg hj, if_neg hj]

theorem fixSegment_linkedit (cache : List Nat) (st st' : FixState) (cmd : Nat)
    (hok : fixSegment cache st cmd = .ok st') :
    st'.linkedit = st.linkedit ∨ st'.linkedit = some cmd := by
  unfold fixSegment at hok
  by_cases htrace : segmentTrace st.buf cmd = true
  swap
  · rw [if_neg htrace] at hok; cases hok
  rw [if_pos htrace] at hok
  split at hok
  · split at hok
    · split at hok
      · cases hok
      · split at hok
        · cases hok
        · injection hok with hok; subst hok; exact Or.inr rfl
    · split at hok
      · cases hok
      · split at hok
        · cases hok
        · rcases lseekCur_cases st.sys with hc | hc
          · rw [hc] at hok; cases hok
          · rw [hc] at hok
            simp only at hok
            split at hok
            · cases hok
            · split at hok
              · cases hok
              · rename_i body _
                rcases write_cases st.sys.tick body with hw | hw
                · rw [hw] at hok; cases hok
                · rw [hw] at hok
                  simp only at hok
                  split at hok
                  · cases hok
                  · injection hok with hok
                    subst hok
                    exact Or.inl rfl
  · cases hok

theorem fixSymtab_linkedit (cache : List Nat) (st st' : FixState) (cmd : Nat)
    (hok : fixSymtab cache st cmd = .ok st') : st'.linkedit = st.linkedit := by
  cases h1 : rdU32 st.buf (cmd + off_symoff) with
  | none => simp [fixSymtab, h1] at hok
  | some symoff =>
    cases h2 : rdU32 st.buf (cmd + off_nsyms) with
    | none => simp [fixSymtab, h1, h2] at hok
    | some nsyms =>
      cases h3 : rdU32 st.buf (cmd + off_stroff) with
      | none => simp [fixSymtab, h1, h2, h3] at hok
      | some stroff =>
        obtain ⟨_, _, _, _, _, _, _, _, _, _, _, _, _, _, _, hl, _⟩ :=
          fixSymtab_spec cache st st' cmd symoff nsyms stroff h1 h2 h3 hok
        exact hl

theorem fixDysymtab_linkedit (cache : List Nat) (st st' : FixState) (cmd : Nat)
    (hok : fixDysymtab cache st cmd = .ok st') : st'.linkedit = st.linkedit := by
  unfold fixDysymtab at hok
  split at hok
  · cases hok
  · split at hok
    · injection hok with hok; subst hok; rfl
    · split at hok
      · cases hok
      · split at hok
        · cases hok
        · split at hok
          · cases hok
          · injection hok with hok
            subst hok
            rfl

theorem fixLinkeditData_linkedit (cache : List Nat) (st st' : FixState) (cmd : Nat)
    (hok : fixLinkeditData cache st cmd = .ok st') : st'.linkedit = st.linkedit := by
  obtain ⟨dataoff, datasize, b1, _, _, _, rfl⟩ := fixLinkeditData_ok hok
  rfl

theorem fixupStep_linkedit (cache : List Nat) (st st' : FixState)
    (hok : fixupStep cache st = .ok st') :
    st'.linkedit = st.linkedit ∨ st'.linkedit = some (sizeof_mach_header_64 + st.next_cmd) := by
  unfold fixupStep at hok
  split at hok
  · cases hok
  · split at hok
    · cases hok
    · rename_i st1 hc
      have h1 : st1.linkedit = st.linkedit ∨
          st1.linkedit = some (sizeof_mach_header_64 + st.next_cmd) := by
        unfold fixCommand at hc
        split at hc
        · exact fixSegment_linkedit _ _ _ _ hc
        · split at hc
          · exact Or.inl (fixSymtab_linkedit _ _ _ _ hc)
          · split at hc
            · exact Or.inl (fixDysymtab_linkedit _ _ _ _ hc)
            · split at hc
              · have hdy := fixDyldInfo_ok hc; subst hdy; exact Or.inl rfl
              · split at hc
                · exact Or.inl (fixLinkeditData_linkedit _ _ _ _ hc)
                · injection hc with hc; subst hc; exact Or.inl rfl
      split at hok
      · cases hok
      · injection hok with hok
        subst hok
        exact h1

theorem fixupLoop_linkedit (cache : List Nat) :
    ∀ (fuel : Nat) (st st' : FixState),
      (∀ le, st.linkedit = some le → sizeof_mach_header_64 ≤ le) →
      fixupLoop cache fuel st = some (.ok st') →
      ∀ le, st'.linkedit = some le → sizeof_mach_header_64 ≤ le := by
  intro fuel
  induction fuel with
  | zero =>
    intro st st' hinv hok
    unfold fixupLoop at hok
    split at hok
    · cases hok
    · split at hok
      · cases hok
      · injection hok with hok; injection hok with hok; subst hok
        exact hinv
  | succ n ih =>
    intro st st' hinv hok
    unfold fixupLoop at hok
    split at hok
    · cases hok
    · split at hok
      · split at hok
        · cases hok
        · rename_i st1 hs
          refine ih st1 st' ?_ hok
          intro le hle
          rcases fixupStep_linkedit _ _ _ hs with h | h
          · exact hinv le (by rw [← h]; exact hle)
          · rw [h] at hle
            injection hle with hle
            omega
      · injection hok with hok; injection hok with hok; subst hok
        exact hinv

theorem fixupFinalize_header (st st' : FixState) (hok : fixupFinalize st = .ok st')
    (hinv : ∀ le, st.linkedit = some le → sizeof_mach_header_64 ≤ le) :
    ∀ o l, o + l ≤ sizeof_mach_header_64 → rdBytes st'.buf o l = rdBytes st.buf o l := by
  unfold fixupFinalize at hok
  rcases lseekEnd_cases st.sys with hc | hc
  · rw [hc] at hok; cases hok
  · rw [hc] at hok
    simp only at hok
    split at hok
    · cases hok
    · rename_i le hle
      have h32 := hinv le hle
      split at hok
      · cases hok
      · split at hok
        · cases hok
        · rename_i b1 hb1
          rcases lseekSet_cases { st.sys.tick with pos := st.sys.data.length } with hs | hs
          · rw [hs] at hok; cases hok
          · rw [hs] at hok
            simp only at hok
            rcases write_cases { ({ st.sys.tick with pos := st.sys.data.length } : Sys).tick
                with pos := 0 } b1 with hw | hw
            · rw [hw] at hok; cases hok
            · rw [hw] at hok
              simp only at hok
              injection hok with hok
              subst hok
              intro o l hol
              exact rdBytes_wrU64_other hb1 o l (by omega)

theorem fixup_ok_header (fuel : Nat) (cache macho_hdr : List Nat) (s : Sys) (st : FixState)
    (hok : _fixup_macho_object64 fuel cache macho_hdr s = some (.ok st)) :
    ∀ o l, o + l ≤ sizeof_mach_header_64 → rdBytes st.buf o l = rdBytes macho_hdr o l := by
  unfold _fixup_macho_object64 at hok
  split at hok
  · cases hok
  · cases hok
  · rename_i lp hl
    injection hok with hok
    have hinv := fixupLoop_linkedit cache fuel (fixupInit macho_hdr s) lp
      (fun le hle => by simp [fixupInit] at hle) hl
    obtain ⟨_, hf⟩ := fixupLoop_frame _ _ _ _ hl
    intro o l hol
    rw [fixupFinalize_header lp st hok hinv o l hol]
    exact hf o l hol

theorem dump_ok_shape (fuel : Nat) (hdr : dyld_cache_header) (cache image_name : List Nat)
    (disk : Option (List Nat)) (sched : List Bool) (out : List Nat)
    (h : _dump_file fuel hdr cache image_name disk sched = some ⟨.ok (), some out⟩) :
    ∃ loc sizeofcmds macho_obj st,
      locateHeader hdr cache image_name = .ok loc ∧
      rdU32 cache (loc.file_offset + off_sizeofcmds) = some sizeofcmds ∧
      rdBytes cache loc.file_offset (sizeof_mach_header_64 + sizeofcmds) = some macho_obj ∧
      _fixup_macho_object64 fuel cache macho_obj ⟨disk.getD [], 0, sched.tail.tail⟩
        = some (.ok st) ∧
      out = fileWrite st.sys.data st.sys.pos st.buf := by
  unfold _dump_file at h
  split at h
  · cases h
  · rename_i loc hloc
    split at h
    · cases h
    · split at h
      · cases h
      · split at h
        · cases h
        · split at h
          · cases h
          · rename_i sizeofcmds hsz
            split at h
            · cases h
            · split at h
              · cases h
              · rename_i macho_obj hm
                split at h
                · cases h
                · split at h
                  · cases h
                  · cases h
                  · rename_i st hfix
                    rcases write_cases st.sys st.buf with hw | hw
                    · rw [hw] at h; cases h
                    · rw [hw] at h
                      simp only at h
                      injection h with h
                      injection h with _ h
                      injection h with h
                      subst h
                      exact ⟨loc, sizeofcmds, macho_obj, st, hloc, hsz, hm, hfix, rfl⟩

/-- C21: when `_dump_file` succeeds and leaves `out` (whatever the output
path held before, in particular when it was absent or empty), let `L = 32 +
sizeofcmds`, with `sizeofcmds` the field of the image's header, which is also
the field of the header of `out`.  The patched working buffer `st.buf` of the
pass has length `L`; bytes `[0, L)` of `out` and bytes `[L, 2L)` of `out`
both equal it, and `out` is at least `2L` long.  Bytes `[L, 2L)` are thus
not what the pass had placed there: `out` is the output `st.sys.data` of the
pass with the buffer written over `[L, 2L)`, and agrees with it everywhere
else.  On image `t` of `tinyCache` (`L = 176`) the pass had placed the last
24 bytes `0x90` of the segment `__TEXT` at `[176, 200)`, and `out` does not
hold them. -/
theorem header_block_written_twice (fuel : Nat) (hdr : dyld_cache_header)
    (cache image_name : List Nat) (disk : Option (List Nat)) (sched : List Bool)
    (out : List Nat)
    (h : _dump_file fuel hdr cache image_name disk sched = some ⟨.ok (), some out⟩) :
    (∃ loc sizeofcmds macho_obj st,
      locateHeader hdr cache image_name = .ok loc ∧
      rdU32 cache (loc.file_offset + off_sizeofcmds) = some sizeofcmds ∧
      rdU32 out off_sizeofcmds = some sizeofcmds ∧
      rdBytes cache loc.file_offset (sizeof_mach_header_64 + sizeofcmds) = some macho_obj ∧
      _fixup_macho_object64 fuel cache macho_obj ⟨disk.getD [], 0, sched.tail.tail⟩
        = some (.ok st) ∧
      st.buf.length = sizeof_mach_header_64 + sizeofcmds ∧
      rdBytes out 0 (sizeof_mach_header_64 + sizeofcmds) = some st.buf ∧
      rdBytes out (sizeof_mach_header_64 + sizeofcmds) (sizeof_mach_header_64 + sizeofcmds)
        = some st.buf ∧
      2 * (sizeof_mach_header_64 + sizeofcmds) ≤ out.length ∧
      out = fileWrite st.sys.data (sizeof_mach_header_64 + sizeofcmds) st.buf ∧
      (∀ j, j < sizeof_mach_header_64 + sizeofcmds ∨
          2 * (sizeof_mach_header_64 + sizeofcmds) ≤ j → out[j]? = st.sys.data[j]?)) ∧
    (_fixup_macho_object64 2 tinyCache (tinyImage.take 176) ⟨[], 0, []⟩ =
        some (.ok { buf := tinyPatched,
                    sys := ⟨tinyPatched ++ List.replicate 24 0x90, 176, []⟩,
                    next_cmd := 144, linkedit := some 104, file_base := 200 }) ∧
      _dump_file 2 tinyHdr tinyCache (ascii "t") none [] =
        some ⟨.ok (), some (tinyPatched ++ tinyPatched)⟩ ∧
      rdBytes (tinyPatched ++ List.replicate 24 0x90) 176 24 = some (List.replicate 24 0x90) ∧
      rdBytes (tinyPatched ++ tinyPatched) 176 24 ≠ some (List.replicate 24 0x90)) := by
  refine ⟨?_, by set_option maxRecDepth 1000000 in decide⟩
  obtain ⟨loc, sizeofcmds, macho_obj, st, hloc, hsz, hm, hfix, hout⟩ :=
    dump_ok_shape fuel hdr cache image_name disk sched out h
  obtain ⟨h1, h2, h3, h4⟩ := fixup_ok_layout _ _ _ _ _ hfix
  have hhdr := fixup_ok_header _ _ _ _ _ hfix
  have hL : st.buf.length = sizeof_mach_header_64 + sizeofcmds := by
    rw [h1, rdBytes_length hm]
  have hpos : st.sys.pos = sizeof_mach_header_64 + sizeofcmds := by rw [h2, hL]
  rw [hpos] at hout h3
  have hlen : out.length = max st.sys.data.length
      (sizeof_mach_header_64 + sizeofcmds + st.buf.length) := by
    rw [hout]; exact length_fileWrite _ _ _ h3
  have h0 : rdBytes out 0 (sizeof_mach_header_64 + sizeofcmds) = some st.buf := by
    rw [← hL]
    apply rdBytes_of_getElem?
    · rw [hlen]; omega
    · intro j hj
      rw [hout, Nat.zero_add, getElem?_fileWrite_before _ _ _ _ (by omega) (by omega)]
      have := getElem?_rdBytes h4 j
      rw [if_pos hj, Nat.zero_add] at this
      rw [this]
  refine ⟨loc, sizeofcmds, macho_obj, st, hloc, hsz, ?_, hm, hfix, hL, h0, ?_, ?_, hout, ?_⟩
  · have e1 : rdBytes out 20 4 = rdBytes st.buf 20 4 := by
      have := rdBytes_rdBytes h0 20 4 (by simp only [sizeof_mach_header_64]; omega)
      rw [Nat.zero_add] at this
      exact this.symm
    have e2 : rdBytes st.buf 20 4 = rdBytes macho_obj 20 4 :=
      hhdr 20 4 (by simp only [sizeof_mach_header_64]; omega)
    have e3 : rdBytes macho_obj 20 4 = rdBytes cache (loc.file_offset + 20) 4 :=
      rdBytes_rdBytes hm 20 4 (by simp only [sizeof_mach_header_64]; omega)
    rw [← hsz]
    show (rdBytes out 20 4).map leVal = (rdBytes cache (loc.file_offset + 20) 4).map leVal
    rw [e1, e2, e3]
  · have := rdBytes_fileWrite st.sys.data (sizeof_mach_header_64 + sizeofcmds) st.buf h3
    rw [hL, ← hout] at this
    exact this
  · rw [hlen, hL]; omega
  · intro j hj
    rw [hout]
    rcases hj with hj | hj
    · exact getElem?_fileWrite_before _ _ _ _ hj (by omega)
    · exact getElem?_fileWrite_after _ _ _ _ h3 (by rw [hL]; omega)

theorem header_block_written_twice_witness :
    _dump_file 2 tinyHdr tinyCache (ascii "t") none [] =
      some ⟨.ok (), some (tinyPatched ++ tinyPatched)⟩ ∧
    ∃ loc sizeofcmds macho_obj st,
      locateHeader tinyHdr tinyCache (ascii "t") = .ok loc ∧
      rdU32 tinyCache (loc.file_offset + off_sizeofcmds) = some sizeofcmds ∧
      rdU32 (tinyPatched ++ tinyPatched) off_sizeofcmds = some sizeofcmds ∧
      rdBytes tinyCache loc.file_offset (sizeof_mach_header_64 + sizeofcmds)
        = some macho_obj ∧
      _fixup_macho_object64 2 tinyCache macho_obj
        ⟨(none : Option (List Nat)).getD [], 0, ([] : List Bool).tail.tail⟩ = some (.ok st) ∧
      st.buf.length = sizeof_mach_header_64 + sizeofcmds ∧
      rdBytes (tinyPatched ++ tinyPatched) 0 (sizeof_mach_header_64 + sizeofcmds)
        = some st.buf ∧
      rdBytes (tinyPatched ++ tinyPatched) (sizeof_mach_header_64 + sizeofcmds)
        (sizeof_mach_header_64 + sizeofcmds) = some st.buf ∧
      2 * (sizeof_mach_header_64 + sizeofcmds) ≤ (tinyPatched ++ tinyPatched).length ∧
      tinyPatched ++ tinyPatched =
        fileWrite st.sys.data (sizeof_mach_header_64 + sizeofcmds) st.buf ∧
      (∀ j, j < sizeof_mach_header_64 + sizeofcmds ∨
          2 * (sizeof_mach_header_64 + sizeofcmds) ≤ j →
        (tinyPatched ++ tinyPatched)[j]? = st.sys.data[j]?) :=
  ⟨by set_option maxRecDepth 1000000 in decide,
   (header_block_written_twice 2 tinyHdr tinyCache (ascii "t") none []
     (tinyPatched ++ tinyPatched) (by set_option maxRecDepth 1000000 in decide)).1⟩

end Decache
